import Mathlib

/-!
Verification of the wasm-data-structures container library.

This file shallowly embeds the five containers of the repository
(`src/lib.rs`, `src/open_addressing.rs`, `src/bst.rs`,
`src/red_black_tree.rs`, `src/skip_list.rs`) as executable Lean
definitions and proves or refutes the frozen claims about them.

Modelling conventions, used consistently below:
* Rust `String` keys are modelled by a type `K` with a `LinearOrder`
  instance (Rust compares keys with `Ord::cmp` / `<` / `==`; the
  containers use nothing about strings beyond a decidable total order
  and equality).  Concrete evaluations instantiate `K := Nat`.
* The two hash containers call Rust's `DefaultHasher`; the hash
  function is taken as an explicit parameter `hash : K → Nat`
  (the code uses it only as an arbitrary function to a 64-bit number,
  reduced by `%` to a bucket index).
* `u32` / `usize` fields are modelled by `Nat`.  The code never relies
  on wraparound: counters only grow, and the only subtractions are
  `saturating_sub` or guarded by a prior successful find; `Nat`
  subtraction agrees with both.
* `f32` metric fields are modelled by `Rat`; every claim that touches
  them only concerns the exact values `0.0` and `1.0`.
* Rust in-place mutation is modelled by state passing: an operation on
  container `C` becomes a function `C → ... → result × C`.
* Rust `loop`s without a structural termination measure are modelled
  with an explicit fuel parameter; the fuel chosen at each call site
  strictly exceeds the number of iterations the Rust loop can perform
  (via the loop's own bail-out guards), so fuel exhaustion is
  unreachable there, except for the one genuinely diverging loop in
  `RedBlackTree::delete_recursive`, which is the subject of claim C3.
-/

set_option maxHeartbeats 1000000
set_option maxRecDepth 8192

namespace WasmDS

/-! ## ChainedHashMap (`src/lib.rs`) -/

namespace Chained

/-- `const BUCKET_COUNT: usize = 256;` -/
def BUCKET_COUNT : Nat := 256

/-- `struct HashMapMetrics` (`f32` load factor as `Rat`). -/
structure HashMapMetrics where
  total_insertions : Nat
  total_collisions : Nat
  max_chain_length : Nat
  average_load_factor : Rat
deriving DecidableEq, Repr

/-- `struct HashMap`: buckets are lists of `(key, value)` pairs. -/
structure HashMap (K : Type) where
  buckets : List (List (K × Nat))
  size : Nat
  metrics : HashMapMetrics
deriving DecidableEq, Repr

variable {K : Type} [DecidableEq K]

/-- `HashMap::bucket_index`: `(hash as usize) % BUCKET_COUNT`. -/
def bucket_index (h : Nat) : Nat := h % BUCKET_COUNT

/-- `HashMap::new()`. -/
def new : HashMap K :=
  { buckets := List.replicate BUCKET_COUNT []
    size := 0
    metrics :=
      { total_insertions := 0
        total_collisions := 0
        max_chain_length := 0
        average_load_factor := 0 } }

/-- `HashMap::update_metrics`: bump insertion / collision counters and
recompute `max_chain_length` (max bucket length, `unwrap_or(0)`) and
`average_load_factor = size / 256`. -/
def update_metrics (m : HashMap K) (was_collision : Bool) : HashMap K :=
  { m with metrics :=
    { total_insertions := m.metrics.total_insertions + 1
      total_collisions :=
        m.metrics.total_collisions + (if was_collision then 1 else 0)
      max_chain_length := (m.buckets.map List.length).foldr Nat.max 0
      average_load_factor := (m.size : Rat) / (BUCKET_COUNT : Rat) } }

/-- The scan-and-overwrite loop inside `HashMap::insert`: walk the
bucket; on the first entry whose key matches, overwrite its value and
stop (`some` = updated bucket); `none` = key not in the bucket. -/
def bucketUpdate (key : K) (value : Nat) : List (K × Nat) → Option (List (K × Nat))
  | [] => none
  | e :: rest =>
      if e.1 = key then some ((e.1, value) :: rest)
      else (bucketUpdate key value rest).map (e :: ·)

/-- `HashMap::insert`. -/
def insert (hash : K → Nat) (m : HashMap K) (key : K) (value : Nat) : HashMap K :=
  let idx := bucket_index (hash key)
  let bucket := m.buckets.getD idx []
  match bucketUpdate key value bucket with
  | some b2 =>
      -- update existing key: not a collision, no size or metric change
      { m with buckets := m.buckets.set idx b2 }
  | none =>
      let was_collision := !bucket.isEmpty
      let m1 : HashMap K :=
        { m with buckets := m.buckets.set idx (bucket ++ [(key, value)])
                 size := m.size + 1 }
      update_metrics m1 was_collision

/-- The scan loop inside `HashMap::get`. -/
def bucketFind (key : K) : List (K × Nat) → Option Nat
  | [] => none
  | e :: rest => if e.1 = key then some e.2 else bucketFind key rest

/-- `HashMap::get`. -/
def get (hash : K → Nat) (m : HashMap K) (key : K) : Option Nat :=
  bucketFind key (m.buckets.getD (bucket_index (hash key)) [])

/-- The scan-and-remove loop inside `HashMap::delete`. -/
def bucketRemove (key : K) : List (K × Nat) → Option (List (K × Nat))
  | [] => none
  | e :: rest =>
      if e.1 = key then some rest
      else (bucketRemove key rest).map (e :: ·)

/-- `HashMap::delete`: returns whether a removal occurred, plus the new
state.  Deletes do not update metrics. -/
def delete (hash : K → Nat) (m : HashMap K) (key : K) : Bool × HashMap K :=
  let idx := bucket_index (hash key)
  match bucketRemove key (m.buckets.getD idx []) with
  | some b2 => (true, { m with buckets := m.buckets.set idx b2, size := m.size - 1 })
  | none => (false, m)

/-- `HashMap::len`. -/
def len (m : HashMap K) : Nat := m.size

end Chained

/-! ## OpenAddressingTable (`src/open_addressing.rs`) -/

namespace OA

/-- `struct Entry`: `tombstone == true` means deleted. -/
structure Entry (K : Type) where
  key : K
  value : Nat
  tombstone : Bool
deriving DecidableEq, Repr

/-- `struct OpenAddressingMetrics` (`f32` fields as `Rat`). -/
structure OAMetrics where
  total_insertions : Nat
  total_probes : Nat
  max_probe_length : Nat
  load_factor : Rat
  clustering_factor : Rat
  tombstone_count : Nat
deriving DecidableEq, Repr

/-- `struct OpenAddressingHashTable`: a slot is `none` (Empty) or
`some e` (Occupied, live or tombstoned). -/
structure Table (K : Type) where
  table : List (Option (Entry K))
  size : Nat
  capacity : Nat
  metrics : OAMetrics
deriving DecidableEq, Repr

variable {K : Type} [DecidableEq K]

/-- `OpenAddressingHashTable::bucket_index`: `hash % capacity`. -/
def bucket_index (h cap : Nat) : Nat := h % cap

/-- `OpenAddressingHashTable::new(capacity)`. -/
def new (capacity : Nat) : Table K :=
  { table := List.replicate capacity none
    size := 0
    capacity := capacity
    metrics :=
      { total_insertions := 0
        total_probes := 0
        max_probe_length := 0
        load_factor := 0
        clustering_factor := 0
        tombstone_count := 0 } }

/-- `OpenAddressingHashTable::update_load_factor`: the fold mirrors the
Rust scan that tracks `(consecutive, max_consecutive)` over the slots,
a final `max` accounting for a run that ends at the last slot. -/
def update_load_factor (t : Table K) : Table K :=
  let p := t.table.foldl
    (fun (p : Nat × Nat) slot =>
      match slot with
      | none => (0, Nat.max p.1 p.2)
      | some _ => (p.1 + 1, p.2)) (0, 0)
  let max_consecutive := Nat.max p.1 p.2
  { t with metrics :=
    { t.metrics with
      load_factor := (t.size : Rat) / (t.capacity : Rat)
      clustering_factor := (max_consecutive : Rat) / (t.capacity : Rat) } }

/-- The probing loop of `OpenAddressingHashTable::insert`.  Returns
`some (stopIdx, probeCount, isNew)`: the slot the loop stops at, the
probe count on arrival, and whether the slot was Empty (new install)
as opposed to a live matching key (update).  `none` models the
`panic!("Hash table is full")` when the probe count exceeds the
capacity (the fuel, `cap + 2` at the call site, exceeds the iterations
that guard permits). -/
def insertLoop (tab : List (Option (Entry K))) (cap : Nat) (key : K)
    (idx probe : Nat) : Nat → Option (Nat × Nat × Bool)
  | 0 => none
  | fuel + 1 =>
      match tab.getD idx none with
      | none => some (idx, probe, true)
      | some e =>
          if e.key = key ∧ e.tombstone = false then some (idx, probe, false)
          else
            let probe2 := probe + 1
            let idx2 := (idx + 1) % cap
            if probe2 > cap then none
            else insertLoop tab cap key idx2 probe2 fuel

/-- `OpenAddressingHashTable::insert`.  `none` = the fatal
capacity-exhaustion panic; on both return paths the stop slot is
overwritten with a fresh live entry, exactly as in the source. -/
def insert (hash : K → Nat) (t : Table K) (key : K) (value : Nat) : Option (Table K) :=
  let cap := t.capacity
  let idx0 := bucket_index (hash key) cap
  match insertLoop t.table cap key idx0 0 (cap + 2) with
  | none => none
  | some (j, probe, isNew) =>
      let tab2 := t.table.set j (some ⟨key, value, false⟩)
      if isNew then
        some (update_load_factor
          { t with table := tab2
                   size := t.size + 1
                   metrics :=
                     { t.metrics with
                       total_insertions := t.metrics.total_insertions + 1
                       total_probes := t.metrics.total_probes + probe
                       max_probe_length := Nat.max t.metrics.max_probe_length probe } })
      else
        some { t with table := tab2
                      metrics :=
                        { t.metrics with
                          total_insertions := t.metrics.total_insertions + 1
                          total_probes := t.metrics.total_probes + probe } }

/-- Outcome of the probing loop of `OpenAddressingHashTable::get`. -/
inductive GetRes
  | found (value probe : Nat)
  | notFound (probe : Nat)
  | bailed
deriving DecidableEq, Repr

/-- The probing loop of `OpenAddressingHashTable::get`: stop with the
value at a live matching key, stop empty-handed at an Empty slot, or
bail out (without recording probes) once the probe count exceeds the
capacity. -/
def getLoop (tab : List (Option (Entry K))) (cap : Nat) (key : K)
    (idx probe : Nat) : Nat → GetRes
  | 0 => .bailed
  | fuel + 1 =>
      match tab.getD idx none with
      | none => .notFound probe
      | some e =>
          if e.key = key ∧ e.tombstone = false then .found e.value probe
          else
            let probe2 := probe + 1
            let idx2 := (idx + 1) % cap
            if probe2 > cap then .bailed
            else getLoop tab cap key idx2 probe2 fuel

/-- `OpenAddressingHashTable::get` (takes `&mut self`: it records its
probes in `total_probes`, except on the bail-out path). -/
def get (hash : K → Nat) (t : Table K) (key : K) : Option Nat × Table K :=
  match getLoop t.table t.capacity key (bucket_index (hash key) t.capacity) 0 (t.capacity + 2) with
  | .found v probe =>
      (some v, { t with metrics :=
        { t.metrics with total_probes := t.metrics.total_probes + probe } })
  | .notFound probe =>
      (none, { t with metrics :=
        { t.metrics with total_probes := t.metrics.total_probes + probe } })
  | .bailed => (none, t)

/-- The probing loop of `OpenAddressingHashTable::delete`: stop with
the entry at a live matching key (`some (some (entry, idx))`), stop at
an Empty slot or on wrapping back to the start index (`some none`);
the outer `none` is fuel exhaustion, unreachable with fuel `cap + 2`
because the index returns to `start` after at most `cap` steps. -/
def deleteLoop (tab : List (Option (Entry K))) (cap : Nat) (key : K)
    (start idx : Nat) : Nat → Option (Option (Entry K × Nat))
  | 0 => none
  | fuel + 1 =>
      match tab.getD idx none with
      | none => some none
      | some e =>
          if e.key = key ∧ e.tombstone = false then some (some (e, idx))
          else
            let idx2 := (idx + 1) % cap
            if idx2 = start then some none
            else deleteLoop tab cap key start idx2 fuel

/-- `OpenAddressingHashTable::delete`: mark the found entry's
tombstone flag (key and value are retained in the slot), decrement the
live size (`saturating_sub`), count the tombstone, refresh load
factor. -/
def delete (hash : K → Nat) (t : Table K) (key : K) : Option Nat × Table K :=
  let cap := t.capacity
  let start := bucket_index (hash key) cap
  match deleteLoop t.table cap key start start (cap + 2) with
  | none => (none, t)
  | some none => (none, t)
  | some (some (e, j)) =>
      let tab2 := t.table.set j (some { e with tombstone := true })
      (some e.value, update_load_factor
        { t with table := tab2
                 size := t.size - 1
                 metrics :=
                   { t.metrics with
                     tombstone_count := t.metrics.tombstone_count + 1 } })

/-- `OpenAddressingHashTable::len` is not in the source file, but size
is the struct field the other operations maintain. -/
def len (t : Table K) : Nat := t.size

end OA

/-! ## UnbalancedBST (`src/bst.rs`)

`Option<Box<Node>>` is modelled by a plain tree inductive: `leaf` is
`None`, `node` is `Some(Node { .. })`.  Rust matches on
`key.cmp(&n.key)`; the `Less` / `Greater` / `Equal` arms appear below
as `key < k` / `k < key` / otherwise. -/

namespace BST

inductive Tree (K : Type) where
  | leaf
  | node (key : K) (value : Nat) (left right : Tree K)
deriving DecidableEq, Repr

/-- `struct BSTMetrics` (`f32` average depth as `Rat`). -/
structure BSTMetrics where
  total_insertions : Nat
  total_comparisons : Nat
  max_depth : Nat
  average_depth : Rat
deriving DecidableEq, Repr

/-- `struct BinarySearchTree`. -/
structure BinarySearchTree (K : Type) where
  root : Tree K
  size : Nat
  metrics : BSTMetrics
deriving DecidableEq, Repr

variable {K : Type} [LinearOrder K]

/-- `BinarySearchTree::new()`. -/
def new : BinarySearchTree K :=
  { root := .leaf
    size := 0
    metrics :=
      { total_insertions := 0
        total_comparisons := 0
        max_depth := 0
        average_depth := 0 } }

/-- `BinarySearchTree::insert_recursive`: returns the new subtree, the
`is_new` flag, and the mutated metrics. -/
def insert_recursive (key : K) (value : Nat) :
    Tree K → Nat → BSTMetrics → Tree K × Bool × BSTMetrics
  | .leaf, _, m => (.node key value .leaf .leaf, true, m)
  | .node k v l r, depth, m =>
      let m1 := { m with total_comparisons := m.total_comparisons + 1 }
      if key < k then
        let (l2, is_new, m2) := insert_recursive key value l (depth + 1) m1
        let m3 := if is_new then
          { m2 with max_depth := Nat.max m2.max_depth (depth + 1) } else m2
        (.node k v l2 r, is_new, m3)
      else if k < key then
        let (r2, is_new, m2) := insert_recursive key value r (depth + 1) m1
        let m3 := if is_new then
          { m2 with max_depth := Nat.max m2.max_depth (depth + 1) } else m2
        (.node k v l r2, is_new, m3)
      else
        (.node k value l r, false, m1)

/-- `BinarySearchTree::insert`. -/
def insert (t : BinarySearchTree K) (key : K) (value : Nat) : BinarySearchTree K :=
  let (root2, is_new, m2) := insert_recursive key value t.root 0 t.metrics
  if is_new then
    { root := root2
      size := t.size + 1
      metrics :=
        { m2 with
          total_insertions := m2.total_insertions + 1
          average_depth := (m2.total_comparisons : Rat) / ((t.size + 1 : Nat) : Rat) } }
  else
    { t with root := root2, metrics := m2 }

/-- `BinarySearchTree::search_recursive`. -/
def search_recursive (key : K) : Tree K → BSTMetrics → Option Nat × BSTMetrics
  | .leaf, m => (none, m)
  | .node k v l r, m =>
      let m1 := { m with total_comparisons := m.total_comparisons + 1 }
      if key < k then search_recursive key l m1
      else if k < key then search_recursive key r m1
      else (some v, m1)

/-- `BinarySearchTree::get` (takes `&mut self` for the metrics). -/
def get (t : BinarySearchTree K) (key : K) : Option Nat × BinarySearchTree K :=
  let (res, m2) := search_recursive key t.root t.metrics
  (res, { t with metrics := m2 })

/-- `BinarySearchTree::delete_recursive`.  In the two-children arm the
source first walks `&mut n.right` down to the minimum of the right
subtree, but that walk mutates nothing and its endpoint is unused; the
code then takes `right_node = n.right` (the right child itself, not
the minimum), copies its key and value into `n`, and sets
`n.right = right_node.left` — dropping `right_node.right` entirely.
The embedding reproduces that net effect. -/
def delete_recursive (key : K) : Tree K → BSTMetrics → Tree K × Bool × BSTMetrics
  | .leaf, m => (.leaf, false, m)
  | .node k v l r, m =>
      let m1 := { m with total_comparisons := m.total_comparisons + 1 }
      if key < k then
        let (l2, found, m2) := delete_recursive key l m1
        (.node k v l2 r, found, m2)
      else if k < key then
        let (r2, found, m2) := delete_recursive key r m1
        (.node k v l r2, found, m2)
      else
        match l, r with
        | .leaf, .leaf => (.leaf, true, m1)
        | .node lk lv ll lr, .leaf => (.node lk lv ll lr, true, m1)
        | .leaf, .node rk rv rl rr => (.node rk rv rl rr, true, m1)
        | .node lk lv ll lr, .node rk rv rl _ =>
            (.node rk rv (.node lk lv ll lr) rl, true, m1)

/-- `BinarySearchTree::delete`. -/
def delete (t : BinarySearchTree K) (key : K) : Bool × BinarySearchTree K :=
  let (root2, found, m2) := delete_recursive key t.root t.metrics
  (found,
    { root := root2
      size := if found then t.size - 1 else t.size
      metrics := m2 })

/-- `BinarySearchTree::len`. -/
def len (t : BinarySearchTree K) : Nat := t.size

end BST

/-! ## BalancedSearchTree (`src/red_black_tree.rs`)

`Option<Box<Node>>` is again a plain tree inductive.  The Rust
rotations swap node contents in place; their net effect on the tree is
the structural rotation reproduced here. -/

namespace RBT

/-- `enum Color`. -/
inductive Color where
  | red
  | black
deriving DecidableEq, Repr

inductive Tree (K : Type) where
  | leaf
  | node (key : K) (value : Nat) (color : Color) (left right : Tree K)
deriving DecidableEq, Repr

/-- `struct RBTreeMetrics` (`f32` fields as `Rat`). -/
structure RBTreeMetrics where
  total_insertions : Nat
  tree_height : Nat
  rebalance_count : Nat
  rotation_count : Nat
  color_fix_count : Nat
  average_depth : Rat
  balance_ratio : Rat
deriving DecidableEq, Repr

/-- `struct RedBlackTree`. -/
structure RedBlackTree (K : Type) where
  root : Tree K
  size : Nat
  metrics : RBTreeMetrics
deriving DecidableEq, Repr

variable {K : Type} [LinearOrder K]

/-- `Node::height` lifted to `Option<Box<Node>>` (`map_or(0, ..)`). -/
def height : Tree K → Nat
  | .leaf => 0
  | .node _ _ _ l r => 1 + Nat.max (height l) (height r)

/-- `RedBlackTree::new()`.  Note `balance_ratio` starts at `1.0`. -/
def new : RedBlackTree K :=
  { root := .leaf
    size := 0
    metrics :=
      { total_insertions := 0
        tree_height := 0
        rebalance_count := 0
        rotation_count := 0
        color_fix_count := 0
        average_depth := 0
        balance_ratio := 1 } }

/-- Overwrite a node's color (`node.color = c`); no-op on `None`,
matching the source's `if let Some(..)` recolorings. -/
def paint (c : Color) : Tree K → Tree K
  | .leaf => .leaf
  | .node k v _ l r => .node k v c l r

/-- `RedBlackTree::rotate_right`.  The source moves the node contents
around through a fresh box; the net tree shape is the classical right
rotation, a no-op when there is no left child. -/
def rotate_right : Tree K → Tree K
  | .node k v c (.node lk lv lc ll lr) r => .node lk lv lc ll (.node k v c lr r)
  | t => t

/-- `RedBlackTree::rotate_left`. -/
def rotate_left : Tree K → Tree K
  | .node k v c l (.node rk rv rc rl rr) => .node rk rv rc (.node k v c l rl) rr
  | t => t

/-- `matches!(t, Some(..))` as used in the `left_child_left`-style
presence probes (`map_or(0, |_| 1)`). -/
def presence : Tree K → Nat
  | .leaf => 0
  | .node _ _ _ _ _ => 1

/-- The post-rotation recoloring `node.color = Black;
if let Some(right) { right.color = Red }` used by the left-heavy
cases of `fix_insert`. -/
def recolorRightRed : Tree K → Tree K
  | .leaf => .leaf
  | .node k v _ l r => .node k v .black l (paint .red r)

/-- The mirror recoloring `node.color = Black;
if let Some(left) { left.color = Red }` used by the right-heavy
cases. -/
def recolorLeftRed : Tree K → Tree K
  | .leaf => .leaf
  | .node k v _ l r => .node k v .black (paint .red l) r

/-- `RedBlackTree::fix_insert`: returns the fixed subtree and whether
it set the `rebalance_occurred` flag.  `|h_L − h_R|` is computed on
`Nat` (the source casts to `i32` and takes `abs`). -/
def fix_insert : Tree K → Tree K × Bool
  | .leaf => (.leaf, false)
  | .node k v c l r =>
      let lh := height l
      let rh := height r
      let height_diff := Nat.max lh rh - Nat.min lh rh
      if height_diff > 1 then
        if lh > rh then
          let left_child_left := match l with
            | .node _ _ _ ll _ => presence ll
            | .leaf => 0
          let left_child_right := match l with
            | .node _ _ _ _ lr => presence lr
            | .leaf => 0
          if left_child_left > left_child_right then
            -- left-left: single right rotation, root black, new right red
            (recolorRightRed (rotate_right (.node k v c l r)), true)
          else
            -- left-right: rotate left child left, then rotate right
            (recolorRightRed (rotate_right (.node k v c (rotate_left l) r)), true)
        else
          let right_child_left := match r with
            | .node _ _ _ rl _ => presence rl
            | .leaf => 0
          let right_child_right := match r with
            | .node _ _ _ _ rr => presence rr
            | .leaf => 0
          if right_child_right > right_child_left then
            -- right-right: single left rotation, root black, new left red
            (recolorLeftRed (rotate_left (.node k v c l r)), true)
          else
            -- right-left: rotate right child right, then rotate left
            (recolorLeftRed (rotate_left (.node k v c l (rotate_right r))), true)
      else
        let left_is_red := match l with
          | .node _ _ .red _ _ => true
          | _ => false
        let right_is_red := match r with
          | .node _ _ .red _ _ => true
          | _ => false
        if left_is_red && right_is_red then
          (.node k v .red (paint .black l) (paint .black r), true)
        else
          (.node k v c l r, false)

/-- `RedBlackTree::insert_recursive`; the `Bool` is the accumulated
`rebalance_occurred` flag. -/
def insert_recursive (key : K) (value : Nat) : Tree K → Tree K × Bool
  | .leaf => (.node key value .red .leaf .leaf, false)
  | .node k v c l r =>
      if key < k then
        let (l2, f1) := insert_recursive key value l
        let (t2, f2) := fix_insert (.node k v c l2 r)
        (t2, f1 || f2)
      else if k < key then
        let (r2, f1) := insert_recursive key value r
        let (t2, f2) := fix_insert (.node k v c l r2)
        (t2, f1 || f2)
      else
        let (t2, f2) := fix_insert (.node k value c l r)
        (t2, f2)

/-- `RedBlackTree::get_recursive`. -/
def get_recursive (key : K) : Tree K → Option Nat
  | .leaf => none
  | .node k v _ l r =>
      if key = k then some v
      else if key < k then get_recursive key l
      else get_recursive key r

/-- `RedBlackTree::get` (immutable, no metric updates). -/
def get (t : RedBlackTree K) (key : K) : Option Nat :=
  get_recursive key t.root

/-- `RedBlackTree::update_metrics`. -/
def update_metrics (t : RedBlackTree K) : RedBlackTree K :=
  { t with metrics :=
    { t.metrics with
      tree_height := height t.root
      balance_ratio := if t.size = 0 then (0 : Rat) else 1 } }

/-- `RedBlackTree::insert`: note the root is forced Black after the
recursive insertion returns. -/
def insert (t : RedBlackTree K) (key : K) (value : Nat) : RedBlackTree K :=
  let is_new := (get t key).isNone
  let (root2, rebalance_occurred) := insert_recursive key value t.root
  let root3 := paint .black root2
  update_metrics
    { root := root3
      size := if is_new then t.size + 1 else t.size
      metrics :=
        { t.metrics with
          total_insertions := t.metrics.total_insertions + 1
          rebalance_count :=
            t.metrics.rebalance_count + (if rebalance_occurred then 1 else 0) } }

/-- The `while let Some(left_child) = current.left.take()` loop inside
`RedBlackTree::delete_recursive`.  When `left_child` has a left child
of its own, the source puts `left_child` back unchanged and re-takes
it on the next iteration — `current` never advances, so the loop never
terminates; the fuel counts its iterations and `none` means the loop
is still running after `fuel` of them. -/
def deleteMinLoop : Tree K → Nat → Option (Tree K)
  | _, 0 => none
  | t, fuel + 1 =>
      match t with
      | .leaf => some .leaf
      | .node k v c l r =>
          match l with
          | .leaf => some (.node k v c .leaf r)
          | .node lk lv lc ll lr =>
              match ll with
              | .leaf => some (.node k v c lr r)
              | .node _ _ _ _ _ =>
                  deleteMinLoop (.node k v c (.node lk lv lc ll lr) r) fuel

/-- Replace a node's left child (`current.left = n.left.take()`). -/
def setLeft (t l : Tree K) : Tree K :=
  match t with
  | .leaf => .leaf
  | .node k v c _ r => .node k v c l r

/-- `RedBlackTree::delete_recursive`; the result is `none` when the
inner loop fails to finish within `fuel` iterations, and otherwise the
new subtree paired with the removed value. -/
def delete_recursive (key : K) (fuel : Nat) : Tree K → Option (Tree K × Option Nat)
  | .leaf => some (.leaf, none)
  | .node k v c l r =>
      if key = k then
        match l, r with
        | .leaf, _ => some (r, some v)
        | _, .leaf => some (l, some v)
        | _, _ =>
            match deleteMinLoop r fuel with
            | none => none
            | some current => some (setLeft current l, some v)
      else if key < k then
        match delete_recursive key fuel l with
        | none => none
        | some (l2, res) => some (.node k v c l2 r, res)
      else
        match delete_recursive key fuel r with
        | none => none
        | some (r2, res) => some (.node k v c l r2, res)

/-- `RedBlackTree::delete`: a successful deletion decrements the size
(`saturating_sub`), increments `rebalance_count`, and refreshes the
metrics; colors are never touched.  `none` = the operation never
returns (claim C3). -/
def delete (t : RedBlackTree K) (key : K) (fuel : Nat) :
    Option (Option Nat × RedBlackTree K) :=
  match delete_recursive key fuel t.root with
  | none => none
  | some (root2, result) =>
      match result with
      | some v =>
          some (some v, update_metrics
            { root := root2
              size := t.size - 1
              metrics :=
                { t.metrics with
                  rebalance_count := t.metrics.rebalance_count + 1 } })
      | none => some (none, { t with root := root2 })

end RBT

/-! ## SkipList (`src/skip_list.rs`)

The source links nodes through `Rc<RefCell<Node>>` shared pointers.
The embedding stores every real node in an arena (`nodes : List (Node K)`)
and represents a pointer as an index into it; a *position* during a
walk is `Option Nat`, where `none` is the head sentinel and `some i`
is node `i`.  The head's key, value and level are never read by any
operation, so only its forward array (`headForward`) is modelled.
`random_level()` draws from a thread-local RNG; the drawn level enters
`insert` as the explicit parameter `new_level`. -/

namespace SL

/-- `const MAX_LEVEL: usize = 16;` -/
def MAX_LEVEL : Nat := 16

/-- `struct Node` (forward pointers as arena indices). -/
structure Node (K : Type) where
  key : K
  value : Nat
  level : Nat
  forward : List (Option Nat)
deriving DecidableEq, Repr

/-- `struct SkipListMetrics` (`f32` average level as `Rat`). -/
structure SkipListMetrics where
  total_insertions : Nat
  total_searches : Nat
  search_comparisons : Nat
  average_level : Rat
  max_level : Nat
  insertion_cost : Nat
deriving DecidableEq, Repr

/-- `struct SkipList`. -/
structure SkipList (K : Type) where
  headForward : List (Option Nat)
  nodes : List (Node K)
  level : Nat
  size : Nat
  metrics : SkipListMetrics
deriving DecidableEq, Repr

variable {K : Type} [LinearOrder K]

/-- `SkipList::new()`: head has `MAX_LEVEL + 1` null forward slots. -/
def new : SkipList K :=
  { headForward := List.replicate (MAX_LEVEL + 1) none
    nodes := []
    level := 0
    size := 0
    metrics :=
      { total_insertions := 0
        total_searches := 0
        search_comparisons := 0
        average_level := 0
        max_level := 0
        insertion_cost := 0 } }

/-- Read `pos.forward[lv]`: the head's slot for the head position, the
node's slot otherwise.  A dangling index yields `none`; it cannot
arise on the states the operations construct. -/
def fwd (s : SkipList K) (pos : Option Nat) (lv : Nat) : Option Nat :=
  match pos with
  | none => s.headForward.getD lv none
  | some i =>
      match s.nodes[i]? with
      | none => none
      | some n => n.forward.getD lv none

/-- Write `pos.forward[lv] := target` (out-of-range writes are no-ops,
matching slots that cannot be reached in the source). -/
def setFwd (s : SkipList K) (pos : Option Nat) (lv : Nat) (target : Option Nat) :
    SkipList K :=
  match pos with
  | none => { s with headForward := s.headForward.set lv target }
  | some i =>
      match s.nodes[i]? with
      | none => s
      | some n =>
          { s with nodes := s.nodes.set i { n with forward := n.forward.set lv target } }

/-- The per-level advance loop shared (textually identically) by
`search`, `insert` and `delete`: follow `forward[lv]` while the next
node's key is strictly less than the target.  Returns the final
position and the number of next-nodes examined (what `search` adds to
`comparisons`; the other two ignore it).  Fuel exhaustion acts as a
break and is unreachable for the fuel `nodes.length + 1` used at the
call sites, since keys strictly increase along a well-formed chain. -/
def walkLevel (s : SkipList K) (key : K) (lv : Nat) : Option Nat → Nat → Option Nat × Nat
  | pos, 0 => (pos, 0)
  | pos, fuel + 1 =>
      match fwd s pos lv with
      | none => (pos, 0)
      | some j =>
          match s.nodes[j]? with
          | none => (pos, 0)
          | some n =>
              if n.key < key then
                let (p2, c2) := walkLevel s key lv (some j) fuel
                (p2, c2 + 1)
              else (pos, 1)

/-- The `for lv in (0..=top).rev()` descent shared by `search`,
`insert` and `delete`: walk at each level from `top` down to level 0,
recording the stop position of each level.  Returns the level-0 stop
position, the recorded positions indexed by level (the source pushes
then reverses), and the total comparison count. -/
def descend (s : SkipList K) (key : K) (fuel : Nat) :
    Nat → Option Nat → Option Nat × List (Option Nat) × Nat
  | 0, pos =>
      let (p1, c1) := walkLevel s key 0 pos fuel
      (p1, [p1], c1)
  | lv + 1, pos =>
      let (p1, c1) := walkLevel s key (lv + 1) pos fuel
      let (pf, ups, c2) := descend s key fuel lv p1
      (pf, ups ++ [p1], c1 + c2)

/-- `SkipList::search`: counts the search, descends, accumulates the
comparisons, then examines the level-0 successor for an exact match. -/
def search (s : SkipList K) (key : K) : Option Nat × SkipList K :=
  let (pos, _, comps) := descend s key (s.nodes.length + 1) s.level none
  let s2 := { s with metrics :=
    { s.metrics with
      total_searches := s.metrics.total_searches + 1
      search_comparisons := s.metrics.search_comparisons + comps } }
  match fwd s pos 0 with
  | none => (none, s2)
  | some j =>
      match s.nodes[j]? with
      | none => (none, s2)
      | some n => if n.key = key then (some n.value, s2) else (none, s2)

/-- `SkipList::update_metrics`: the level-0 traversal summing live
node levels. -/
def chainFold (s : SkipList K) : Option Nat → Nat → Nat × Nat
  | _, 0 => (0, 0)
  | pos, fuel + 1 =>
      match fwd s pos 0 with
      | none => (0, 0)
      | some j =>
          match s.nodes[j]? with
          | none => (0, 0)
          | some n =>
              let (tl, c) := chainFold s (some j) fuel
              (tl + n.level, c + 1)

/-- `SkipList::update_metrics`. -/
def update_metrics (s : SkipList K) : SkipList K :=
  let p := chainFold s none (s.nodes.length + 1)
  { s with metrics :=
    { s.metrics with
      average_level := if p.2 > 0 then (p.1 : Rat) / (p.2 : Rat) else 0
      max_level := s.level } }

/-- One iteration of the splice loop in `SkipList::insert`:
`new.forward[lv] = update[lv].forward[lv]; update[lv].forward[lv] = new`. -/
def spliceLevel (upd : List (Option Nat)) (nidx : Nat) (s : SkipList K) (lv : Nat) :
    SkipList K :=
  let upos := upd.getD lv none
  let nxt := fwd s upos lv
  let s1 := setFwd s (some nidx) lv nxt
  setFwd s1 upos lv (some nidx)

/-- `SkipList::insert` with the drawn random level as the parameter
`new_level`.  It first runs `search` (for `is_new`, with its metric
side effects), raises the list level if the draw exceeds it, descends
recording update points, then either overwrites the existing node's
value or splices a fresh node in at levels `0..=min new_level level`. -/
def insert (s : SkipList K) (key : K) (value : Nat) (new_level : Nat) : SkipList K :=
  let (found, s1) := search s key
  let is_new := found.isNone
  let s2 := if new_level > s1.level then { s1 with level := new_level } else s1
  let (_, upd, _) := descend s2 key (s2.nodes.length + 1) s2.level none
  let updAttempt : Option (SkipList K) :=
    if is_new then none
    else
      match fwd s2 (upd.getD 0 none) 0 with
      | none => none
      | some j =>
          match s2.nodes[j]? with
          | none => none
          | some n =>
              if n.key = key then
                some { s2 with
                  nodes := s2.nodes.set j { n with value := value }
                  metrics := { s2.metrics with
                    total_insertions := s2.metrics.total_insertions + 1 } }
              else none
  match updAttempt with
  | some s3 => s3
  | none =>
      let nidx := s2.nodes.length
      let newNode : Node K :=
        { key := key, value := value, level := new_level
          forward := List.replicate (new_level + 1) none }
      let s3 := { s2 with nodes := s2.nodes ++ [newNode] }
      let s4 := (List.range (Nat.min new_level s2.level + 1)).foldl
        (spliceLevel upd nidx) s3
      let s5 := { s4 with
        size := if is_new then s4.size + 1 else s4.size
        metrics := { s4.metrics with
          total_insertions := s4.metrics.total_insertions + 1
          insertion_cost := new_level } }
      update_metrics s5

/-- One iteration of the unlink loop in `SkipList::delete`: if
`update[lv].forward[lv]` still targets a node whose key matches, link
around it (the deleted node's own slot is `.take()`n first). -/
def unlinkLevel (upd : List (Option Nat)) (key : K) (s : SkipList K) (lv : Nat) :
    SkipList K :=
  let upos := upd.getD lv none
  match fwd s upos lv with
  | none => s
  | some j2 =>
      match s.nodes[j2]? with
      | none => s
      | some n2 =>
          if n2.key = key then
            let df := fwd s (some j2) lv
            let s1 := setFwd s (some j2) lv none
            setFwd s1 upos lv df
          else s

/-- `SkipList::delete`. -/
def delete (s : SkipList K) (key : K) : Option Nat × SkipList K :=
  let (_, upd, _) := descend s key (s.nodes.length + 1) s.level none
  match fwd s (upd.getD 0 none) 0 with
  | none => (none, s)
  | some j =>
      match s.nodes[j]? with
      | none => (none, s)
      | some n =>
          if n.key = key then
            let s1 := (List.range (s.level + 1)).foldl (unlinkLevel upd key) s
            let s2 := { s1 with size := s1.size - 1 }
            (some n.value, update_metrics s2)
          else (none, s)

/-- `SkipList::len`. -/
def len (s : SkipList K) : Nat := s.size

/-- `SkipList::is_empty`. -/
def is_empty (s : SkipList K) : Bool := s.size == 0

end SL

/-! ## Proof-side definitions

Invariants and observation functions used to state the claims; they
are not part of the embedded code. -/

namespace RBT

variable {K : Type}

/-- In-order traversal of the `(key, value)` pairs. -/
def inorder : Tree K → List (K × Nat)
  | .leaf => []
  | .node k v _ l r => inorder l ++ (k, v) :: inorder r

/-- In-order key sequence. -/
def keys (t : Tree K) : List K := (inorder t).map Prod.fst

/-- The color of the root node, `none` for the empty tree. -/
def rootColor : Tree K → Option Color
  | .leaf => none
  | .node _ _ c _ _ => some c

/-- The binary-search-tree invariant: in-order keys strictly
ascending.  Every tree reachable through the public operations
satisfies it. -/
def SortedTree [LT K] (t : Tree K) : Prop := List.Sorted (· < ·) (keys t)

/-- Insertion into an association list kept sorted by key, the
list-level mirror of `insert_recursive`. -/
def listInsert [LinearOrder K] (key : K) (v : Nat) : List (K × Nat) → List (K × Nat)
  | [] => [(key, v)]
  | e :: rest =>
      if key < e.1 then (key, v) :: e :: rest
      else if e.1 < key then e :: listInsert key v rest
      else (e.1, v) :: rest

/-- First-match association-list lookup, the list-level mirror of
`get_recursive`. -/
def listLookup [DecidableEq K] (key : K) : List (K × Nat) → Option Nat
  | [] => none
  | e :: rest => if key = e.1 then some e.2 else listLookup key rest

end RBT

namespace OA

variable {K : Type} [DecidableEq K]

/-- A public mutating/reading operation of the open-addressing table,
used to state claim C5's interleaving. -/
inductive Op (K : Type) where
  | ins (k : K) (v : Nat)
  | del (k : K)
  | lookup (k : K)
deriving DecidableEq, Repr

/-- The key an operation touches. -/
def Op.key : Op K → K
  | .ins k _ => k
  | .del k => k
  | .lookup k => k

/-- Run one operation; `none` only for a capacity-exhausted insert. -/
def applyOp (hash : K → Nat) (t : Table K) : Op K → Option (Table K)
  | .ins k v => insert hash t k v
  | .del k => some (delete hash t k).2
  | .lookup k => some (get hash t k).2

/-- Run a sequence of operations. -/
def applyOps (hash : K → Nat) (ops : List (Op K)) (t : Table K) : Option (Table K) :=
  ops.foldl (fun acc op => acc.bind (fun s => applyOp hash s op)) (some t)

/-- Structural invariant every reachable table satisfies: the slot
vector has exactly `capacity` entries and the capacity is positive. -/
def Inv (t : Table K) : Prop := t.capacity = t.table.length ∧ 0 < t.capacity

/-- How an operation on a key other than `key` may change one slot:
a live `key` entry is untouched, and a slot that does not hold a live
`key` entry never starts holding one (it may be overwritten, filled or
tombstoned).  Exactly what the `get`-walk for `key` is insensitive
to. -/
def slotPres (key : K) (a b : Option (Entry K)) : Prop :=
  ∀ e, a = some e → ∃ e', b = some e' ∧
    (e.key = key ∧ e.tombstone = false → e' = e) ∧
    (¬(e.key = key ∧ e.tombstone = false) → ¬(e'.key = key ∧ e'.tombstone = false))

end OA

namespace SL

variable {K : Type} [LinearOrder K]

/-- The level of node `i` (0 for a dangling index). -/
def levelOf (s : SkipList K) (i : Nat) : Nat :=
  match s.nodes[i]? with
  | some n => n.level
  | none => 0

/-- Does following `forward[lv]` from `pos` traverse exactly the nodes
listed in `C` and then hit null? -/
def linksb (s : SkipList K) (lv : Nat) : Option Nat → List Nat → Bool
  | pos, [] => fwd s pos lv == none
  | pos, j :: rest => (fwd s pos lv == some j) && linksb s lv (some j) rest

/-- Are the keys along the index list strictly increasing (and all
indices valid)? -/
def chainSortedb (s : SkipList K) : List Nat → Bool
  | [] => true
  | [_] => true
  | i :: j :: rest =>
      (match s.nodes[i]?, s.nodes[j]? with
       | some a, some b => decide (a.key < b.key)
       | _, _ => false) && chainSortedb s (j :: rest)

/-- Well-formedness of a skip list, witnessed by its level-0 chain
`L0`: the head has all `MAX_LEVEL + 1` slots, the list level is
capped, every chained node is a valid index with a coherent forward
array and a level at most the list level, keys strictly increase along
the chain, and for every level `lv` the `forward[lv]` links from the
head traverse exactly the chained nodes of level `≥ lv`, in order.
Every state reachable through the public operations satisfies this
for a suitable `L0`. -/
def WFb (s : SkipList K) (L0 : List Nat) : Bool :=
  (s.headForward.length == MAX_LEVEL + 1)
  && decide (s.level ≤ MAX_LEVEL)
  && L0.all (fun i => decide (i < s.nodes.length))
  && L0.all (fun i =>
       match s.nodes[i]? with
       | some n => (n.forward.length == n.level + 1) && decide (n.level ≤ s.level)
       | none => false)
  && chainSortedb s L0
  && (List.range (MAX_LEVEL + 1)).all (fun lv =>
       linksb s lv none (L0.filter (fun i => decide (lv ≤ levelOf s i))))

def WF (s : SkipList K) (L0 : List Nat) : Prop := WFb s L0 = true

/-- The maximum level among live nodes (those on the level-0 chain),
0 for the empty list — the quantity claim C6 says the running list
level equals. -/
def liveMaxLevelAux (s : SkipList K) : Option Nat → Nat → Nat
  | _, 0 => 0
  | pos, fuel + 1 =>
      match fwd s pos 0 with
      | none => 0
      | some j =>
          match s.nodes[j]? with
          | none => 0
          | some n => Nat.max n.level (liveMaxLevelAux s (some j) fuel)

def liveMaxLevel (s : SkipList K) : Nat := liveMaxLevelAux s none (s.nodes.length + 1)

/-- Does node `i` exist and have a key strictly below `key`?  The test
the per-level walks advance on. -/
def keyLtb (s : SkipList K) (key : K) (i : Nat) : Bool :=
  match s.nodes[i]? with
  | some n => decide (n.key < key)
  | none => false

/-- The last index of `A`, or the fallback position `pos` when `A` is
empty: where a walk that traverses exactly `A` ends up. -/
def lastD (pos : Option Nat) (A : List Nat) : Option Nat :=
  match A.getLast? with
  | some j => some j
  | none => pos

/-- The level-`lv` chain determined by the level-0 chain witness:
its members of level at least `lv`, in order. -/
def chainAt (s : SkipList K) (L0 : List Nat) (lv : Nat) : List Nat :=
  L0.filter (fun i => decide (lv ≤ levelOf s i))

/-- Key order between two live nodes, the relation along a sorted
chain. -/
def keyRel (s : SkipList K) (i j : Nat) : Prop :=
  ∃ a b, s.nodes[i]? = some a ∧ s.nodes[j]? = some b ∧ a.key < b.key

end SL

/-! ## Concrete example states

Reachable states used by the counterexamples, the code-bug
demonstrations and the witnesses; each is built from `new` by public
operations with `K := Nat`. -/

namespace Ex

/-- The BST after inserting keys 2, 1, 4, 3, 5 (values 20, ..., 50):
the root 2 has two children and its right child 4 has both a left
child (3) and a right child (5). -/
def bst5 : BST.BinarySearchTree Nat :=
  [(2, 20), (1, 10), (4, 40), (3, 30), (5, 50)].foldl
    (fun t p => BST.insert t p.1 p.2) BST.new

/-- The balanced tree after inserting keys 1 then 2 (values = keys):
root 1 (Black) with red right child 2. -/
def rbt2 : RBT.RedBlackTree Nat :=
  RBT.insert (RBT.insert RBT.new 1 1) 2 2

/-- The balanced tree after inserting 4, 2, 8, 1, 3, 6, 9, 5, 7
(values = keys).  No rotation fires during this build; the final shape
is `4(2(1,3), 8(6(5,7), 9))`, so node 4 has two children and its right
subtree's left child 6 itself has a left child 5 — the shape claim C3
singles out. -/
def rbt9 : RBT.RedBlackTree Nat :=
  [4, 2, 8, 1, 3, 6, 9, 5, 7].foldl (fun t k => RBT.insert t k k) RBT.new

/-- A skip list holding the single key 1 whose insert drew level 2. -/
def sl1 : SL.SkipList Nat := SL.insert SL.new 1 10 2

/-- An 8-slot open-addressing table after `insert(1, 5)` (the insert
completes: the table is far from full). -/
def oa1 : OA.Table Nat :=
  (OA.insert (fun n => n) (OA.new 8) 1 5).getD (OA.new 8)

/-- `oa1` after `delete(1)`: slot holds a tombstone for key 1. -/
def oa2 : OA.Table Nat := (OA.delete (fun n => n) oa1 1).2

/-- `oa2` after re-`insert(1, 7)`. -/
def oa3 : OA.Table Nat :=
  (OA.insert (fun n => n) oa2 1 7).getD (OA.new 8)

/-- The state after `delete(1)` on `rbt2` (the deletion succeeds and
returns value 1). -/
def rbt2d : RBT.RedBlackTree Nat :=
  ((RBT.delete rbt2 1 1).getD (none, RBT.new)).2

end Ex

/-! ## Auxiliary list lemmas -/

theorem getD_set_self {α : Type} (l : List α) (i : Nat) (x d : α) (h : i < l.length) :
    (l.set i x).getD i d = x := by
  simp [List.getD_eq_getElem?_getD, List.getElem?_set_self, h]

theorem getD_set_ne {α : Type} (l : List α) (i j : Nat) (x d : α) (h : i ≠ j) :
    (l.set i x).getD j d = l.getD j d := by
  simp [List.getD_eq_getElem?_getD, List.getElem?_set_ne h]

/-! ## ChainedHashMap lemmas -/

namespace Chained

variable {K : Type} [DecidableEq K]

theorem bucketUpdate_none_iff (key : K) (v : Nat) (b : List (K × Nat)) :
    bucketUpdate key v b = none ↔ bucketFind key b = none := by
  induction b with
  | nil => simp [bucketUpdate, bucketFind]
  | cons e rest ih =>
      by_cases h : e.1 = key <;> simp [bucketUpdate, bucketFind, h, ih]

theorem bucketFind_of_bucketUpdate (key : K) (v : Nat) (b b2 : List (K × Nat))
    (h : bucketUpdate key v b = some b2) : bucketFind key b2 = some v := by
  induction b generalizing b2 with
  | nil => simp [bucketUpdate] at h
  | cons e rest ih =>
      by_cases he : e.1 = key
      · simp [bucketUpdate, he] at h
        subst h
        simp [bucketFind, he]
      · simp [bucketUpdate, he] at h
        obtain ⟨b3, hb3, rfl⟩ := h
        simp [bucketFind, he, ih b3 hb3]

theorem bucketFind_append_self (key : K) (v : Nat) (b : List (K × Nat))
    (h : bucketFind key b = none) : bucketFind key (b ++ [(key, v)]) = some v := by
  induction b with
  | nil => simp [bucketFind]
  | cons e rest ih =>
      by_cases he : e.1 = key
      · simp [bucketFind, he] at h
      · simp [bucketFind, he] at h ⊢
        exact ih h

/-- `insert` then `get` on the same key, for any state with the full
256 buckets. -/
theorem get_insert_self (hash : K → Nat) (m : HashMap K) (k : K) (v : Nat)
    (hlen : m.buckets.length = BUCKET_COUNT) :
    get hash (insert hash m k v) k = some v := by
  have hidx : bucket_index (hash k) < m.buckets.length := by
    rw [hlen]
    exact Nat.mod_lt _ (by decide)
  unfold insert
  cases hbu : bucketUpdate k v (m.buckets.getD (bucket_index (hash k)) []) with
  | some b2 =>
      simp only [get, hbu]
      rw [getD_set_self _ _ _ _ hidx]
      exact bucketFind_of_bucketUpdate _ _ _ _ hbu
  | none =>
      simp only [get, hbu, update_metrics]
      rw [getD_set_self _ _ _ _ hidx]
      exact bucketFind_append_self _ _ _ ((bucketUpdate_none_iff _ _ _).mp hbu)

/-- Metric behavior of `insert`: a new key bumps `total_insertions`
and bumps `total_collisions` iff the bucket was non-empty; an update
changes no metric field, no size, and overwrites the value. -/
theorem insert_metrics (hash : K → Nat) (m : HashMap K) (k : K) (v : Nat) :
    (get hash m k = none →
      (insert hash m k v).metrics.total_insertions = m.metrics.total_insertions + 1 ∧
      (insert hash m k v).metrics.total_collisions =
        m.metrics.total_collisions +
          (if (m.buckets.getD (bucket_index (hash k)) []).isEmpty then 0 else 1)) ∧
    (get hash m k ≠ none →
      (insert hash m k v).metrics = m.metrics ∧
      (insert hash m k v).size = m.size) := by
  constructor
  · intro hnone
    have hbu : bucketUpdate k v (m.buckets.getD (bucket_index (hash k)) []) = none :=
      (bucketUpdate_none_iff _ _ _).mpr hnone
    unfold insert
    simp only [hbu, update_metrics]
    cases hb : (m.buckets.getD (bucket_index (hash k)) []).isEmpty <;> simp [hb]
  · intro hsome
    have hbu : ∃ b2, bucketUpdate k v (m.buckets.getD (bucket_index (hash k)) []) = some b2 := by
      cases hb : bucketUpdate k v (m.buckets.getD (bucket_index (hash k)) []) with
      | some b2 => exact ⟨b2, rfl⟩
      | none =>
          exact absurd ((bucketUpdate_none_iff _ _ _).mp hb) (by simpa [get] using hsome)
    obtain ⟨b2, hb2⟩ := hbu
    unfold insert
    simp only [List.getD_eq_getElem?_getD] at hb2
    simp [hb2]

end Chained

/-! ## UnbalancedBST lemmas -/

namespace BST

variable {K : Type} [LinearOrder K]

/-- The value returned by a search does not depend on the incoming
metrics (they are only incremented along the way). -/
theorem search_fst_irrel (key : K) :
    ∀ (t : Tree K) (m m' : BSTMetrics),
      (search_recursive key t m).1 = (search_recursive key t m').1 := by
  intro t
  induction t with
  | leaf => intro m m'; rfl
  | node k v l r ihl ihr =>
      intro m m'
      by_cases h1 : key < k
      · simpa [search_recursive, h1] using ihl _ _
      · by_cases h2 : k < key
        · simpa [search_recursive, h1, h2] using ihr _ _
        · simp [search_recursive, h1, h2]

/-- Searching right after inserting follows the identical comparison
path, on any tree (no sortedness needed: the unbalanced insert never
restructures). -/
theorem search_insert_self (key : K) (value : Nat) :
    ∀ (t : Tree K) (depth : Nat) (m m2 : BSTMetrics),
      (search_recursive key (insert_recursive key value t depth m).1 m2).1 = some value := by
  intro t
  induction t with
  | leaf =>
      intro depth m m2
      simp [insert_recursive, search_recursive, lt_irrefl]
  | node k v l r ihl ihr =>
      intro depth m m2
      by_cases hlt : key < k
      · cases hrec : insert_recursive key value l (depth + 1)
          { m with total_comparisons := m.total_comparisons + 1 } with
        | mk l2 p =>
            have htree : (insert_recursive key value (.node k v l r) depth m).1
                = .node k v l2 r := by
              simp [insert_recursive, hlt, hrec]
            rw [htree]
            simp only [search_recursive, hlt, if_pos]
            have h2 := ihl (depth + 1)
              { m with total_comparisons := m.total_comparisons + 1 } m2
            rw [hrec] at h2
            exact (search_fst_irrel key l2 _ _).trans h2
      · by_cases hgt : k < key
        · cases hrec : insert_recursive key value r (depth + 1)
            { m with total_comparisons := m.total_comparisons + 1 } with
          | mk r2 p =>
              have htree : (insert_recursive key value (.node k v l r) depth m).1
                  = .node k v l r2 := by
                simp [insert_recursive, hlt, hgt, hrec]
              rw [htree]
              simp only [search_recursive, hlt, hgt, if_neg, if_pos]
              have h2 := ihr (depth + 1)
                { m with total_comparisons := m.total_comparisons + 1 } m2
              rw [hrec] at h2
              exact (search_fst_irrel key r2 _ _).trans h2
        · simp [insert_recursive, search_recursive, hlt, hgt]

/-- `insert` then `get` on the same key, from any state. -/
theorem bst_get_insert_self (t : BinarySearchTree K) (key : K) (value : Nat) :
    (get (insert t key value) key).1 = some value := by
  unfold insert get
  cases hrec : insert_recursive key value t.root 0 t.metrics with
  | mk root2 p =>
      cases p with
      | mk is_new m2 =>
          have h := search_insert_self key value t.root 0 t.metrics
          cases is_new <;>
            simp_all [hrec]

/-- `get` only touches the metrics: root and size are unchanged. -/
theorem bst_get_frame (t : BinarySearchTree K) (key : K) :
    (get t key).2.root = t.root ∧ (get t key).2.size = t.size := by
  unfold get
  cases hrec : search_recursive key t.root t.metrics with
  | mk res m2 => exact ⟨rfl, rfl⟩

end BST

/-! ## OpenAddressingTable lemmas -/

namespace OA

variable {K : Type} [DecidableEq K]

/-- Classification of the slot the insert walk stops at: it is either
Empty (new install) or holds a live matching entry (update). -/
theorem insertLoop_stop (tab : List (Option (Entry K))) (cap : Nat) (key : K) :
    ∀ (fuel idx probe j pr : Nat) (isNew : Bool),
      insertLoop tab cap key idx probe fuel = some (j, pr, isNew) →
      (isNew = true ∧ tab.getD j none = none) ∨
      (isNew = false ∧ ∃ e, tab.getD j none = some e ∧ e.key = key ∧ e.tombstone = false) := by
  intro fuel
  induction fuel with
  | zero => intro idx probe j pr isNew h; simp [insertLoop] at h
  | succ fuel ih =>
      intro idx probe j pr isNew h
      rw [insertLoop] at h
      cases hslot : tab.getD idx none with
      | none =>
          simp only [hslot, Option.some.injEq, Prod.mk.injEq] at h
          obtain ⟨rfl, rfl, rfl⟩ := h
          exact Or.inl ⟨rfl, hslot⟩
      | some e =>
          simp only [hslot] at h
          by_cases hcond : e.key = key ∧ e.tombstone = false
          · simp only [if_pos hcond, Option.some.injEq, Prod.mk.injEq] at h
            obtain ⟨rfl, rfl, rfl⟩ := h
            exact Or.inr ⟨rfl, e, hslot, hcond⟩
          · simp only [if_neg hcond] at h
            by_cases hguard : probe + 1 > cap
            · simp [hguard] at h
            · simp only [if_neg hguard] at h
              exact ih _ _ _ _ _ h

/-- The lockstep lemma behind C1: if the insert walk stopped at `j`,
the get walk over the written table follows the same slots and finds
the fresh value at `j`. -/
theorem getLoop_insertLoop (tab : List (Option (Entry K))) (cap : Nat) (key : K)
    (value : Nat) :
    ∀ (fuel idx probe j pr : Nat) (isNew : Bool),
      insertLoop tab cap key idx probe fuel = some (j, pr, isNew) →
      idx < tab.length → cap = tab.length →
      getLoop (tab.set j (some ⟨key, value, false⟩)) cap key idx probe fuel
        = .found value pr := by
  intro fuel
  induction fuel with
  | zero => intro idx probe j pr isNew h; simp [insertLoop] at h
  | succ fuel ih =>
      intro idx probe j pr isNew h hidx hcap
      rw [insertLoop] at h
      cases hslot : tab.getD idx none with
      | none =>
          simp only [hslot, Option.some.injEq, Prod.mk.injEq] at h
          obtain ⟨rfl, rfl, rfl⟩ := h
          rw [getLoop, getD_set_self _ _ _ _ hidx]
          simp
      | some e =>
          simp only [hslot] at h
          by_cases hcond : e.key = key ∧ e.tombstone = false
          · simp only [if_pos hcond, Option.some.injEq, Prod.mk.injEq] at h
            obtain ⟨rfl, rfl, rfl⟩ := h
            rw [getLoop, getD_set_self _ _ _ _ hidx]
            simp
          · simp only [if_neg hcond] at h
            by_cases hguard : probe + 1 > cap
            · simp [hguard] at h
            · simp only [if_neg hguard] at h
              have hne : j ≠ idx := by
                intro hji
                rcases insertLoop_stop tab cap key _ _ _ _ _ _ h with
                  ⟨_, hj⟩ | ⟨_, e2, hj, hcond2⟩
                · rw [hji, hslot] at hj; exact Option.noConfusion hj
                · rw [hji, hslot] at hj
                  injection hj with he
                  exact hcond (he ▸ hcond2)
              have hpos : 0 < cap := by omega
              rw [getLoop, getD_set_ne _ _ _ _ _ hne, hslot]
              simp only [if_neg hcond, if_neg hguard]
              exact ih _ _ _ _ _ h (by rw [← hcap]; exact Nat.mod_lt _ hpos) hcap

theorem lt_length_of_getD_some {tab : List (Option (Entry K))} {i : Nat} {e : Entry K}
    (h : tab.getD i none = some e) : i < tab.length := by
  by_contra hge
  rw [List.getD_eq_default _ _ (Nat.le_of_not_lt hge)] at h
  exact Option.noConfusion h

/-- `insert` succeeding rewrites exactly the stop slot with the fresh
live entry and keeps capacity and slot count. -/
theorem insert_table (hash : K → Nat) (t : Table K) (key : K) (value : Nat)
    (t' : Table K) (h : insert hash t key value = some t') :
    ∃ j pr isNew,
      insertLoop t.table t.capacity key (bucket_index (hash key) t.capacity) 0
        (t.capacity + 2) = some (j, pr, isNew) ∧
      t'.table = t.table.set j (some ⟨key, value, false⟩) ∧
      t'.capacity = t.capacity ∧ t'.table.length = t.table.length := by
  unfold insert at h
  dsimp only at h
  cases hl : insertLoop t.table t.capacity key (bucket_index (hash key) t.capacity) 0
      (t.capacity + 2) with
  | none => rw [hl] at h; exact absurd h (by simp)
  | some res =>
      obtain ⟨j, pr, isNew⟩ := res
      rw [hl] at h
      dsimp only at h
      refine ⟨j, pr, isNew, rfl, ?_⟩
      split at h <;>
        (injection h with h; subst h; exact ⟨rfl, rfl, by simp [update_load_factor]⟩)

/-- The claim-C1 property for the open-addressing table: a completed
insert is immediately retrievable, from any structurally sound
state. -/
theorem oa_get_insert_self (hash : K → Nat) (t : Table K) (key : K) (value : Nat)
    (t' : Table K) (hcap : t.capacity = t.table.length) (hpos : 0 < t.capacity)
    (h : insert hash t key value = some t') :
    (get hash t' key).1 = some value := by
  obtain ⟨j, pr, isNew, hl, htab, hc, _⟩ := insert_table hash t key value t' h
  have hidx : bucket_index (hash key) t.capacity < t.table.length := by
    rw [← hcap]; exact Nat.mod_lt _ hpos
  have hfound := getLoop_insertLoop t.table t.capacity key value
    (t.capacity + 2) (bucket_index (hash key) t.capacity) 0 j pr isNew hl hidx hcap
  unfold get
  rw [hc, htab, hfound]

/-- `get` only touches the metrics. -/
theorem oa_get_frame (hash : K → Nat) (t : Table K) (key : K) :
    (get hash t key).2.table = t.table ∧ (get hash t key).2.size = t.size ∧
    (get hash t key).2.capacity = t.capacity := by
  unfold get
  cases getLoop t.table t.capacity key (bucket_index (hash key) t.capacity) 0
      (t.capacity + 2) with
  | found v p => exact ⟨rfl, rfl, rfl⟩
  | notFound p => exact ⟨rfl, rfl, rfl⟩
  | bailed => exact ⟨rfl, rfl, rfl⟩

/-- The delete walk stops at a live matching entry. -/
theorem deleteLoop_stop (tab : List (Option (Entry K))) (cap : Nat) (key : K) :
    ∀ (fuel start idx j : Nat) (e : Entry K),
      deleteLoop tab cap key start idx fuel = some (some (e, j)) →
      tab.getD j none = some e ∧ e.key = key ∧ e.tombstone = false := by
  intro fuel
  induction fuel with
  | zero => intro start idx j e h; simp [deleteLoop] at h
  | succ fuel ih =>
      intro start idx j e h
      rw [deleteLoop] at h
      cases hslot : tab.getD idx none with
      | none =>
          simp only [hslot] at h
          exact Option.noConfusion (Option.some.inj h)
      | some e2 =>
          simp only [hslot] at h
          by_cases hcond : e2.key = key ∧ e2.tombstone = false
          · simp only [if_pos hcond, Option.some.injEq, Prod.mk.injEq] at h
            obtain ⟨rfl, rfl⟩ := h
            exact ⟨hslot, hcond⟩
          · simp only [if_neg hcond] at h
            by_cases hwrap : (idx + 1) % cap = start
            · simp [hwrap] at h
            · simp only [if_neg hwrap] at h
              exact ih _ _ _ _ h

/-- `delete` keeps capacity and slot count, and either leaves the
table unchanged or tombstones one live matching slot. -/
theorem delete_table (hash : K → Nat) (t : Table K) (key : K) :
    (delete hash t key).2.capacity = t.capacity ∧
    (delete hash t key).2.table.length = t.table.length ∧
    ((delete hash t key).2.table = t.table ∨
      ∃ j e, t.table.getD j none = some e ∧ e.key = key ∧ e.tombstone = false ∧
        (delete hash t key).2.table = t.table.set j (some { e with tombstone := true })) := by
  unfold delete
  dsimp only
  cases hl : deleteLoop t.table t.capacity key
      (bucket_index (hash key) t.capacity) (bucket_index (hash key) t.capacity)
      (t.capacity + 2) with
  | none => exact ⟨rfl, rfl, Or.inl rfl⟩
  | some res =>
      cases res with
      | none => exact ⟨rfl, rfl, Or.inl rfl⟩
      | some p =>
          obtain ⟨e, j⟩ := p
          obtain ⟨hj, hkey, htomb⟩ := deleteLoop_stop t.table t.capacity key _ _ _ _ _ hl
          exact ⟨rfl, by simp [update_load_factor], Or.inr ⟨j, e, hj, hkey, htomb, rfl⟩⟩

theorem slotPres_refl (key : K) (a : Option (Entry K)) : slotPres key a a :=
  fun e he => ⟨e, he, fun _ => rfl, fun h => h⟩

/-- Slot-wise effect of an operation on a key `j ≠ key`. -/
theorem applyOp_slotPres (hash : K → Nat) (t t2 : Table K) (op : Op K) (key : K)
    (hkey : op.key ≠ key) (h : applyOp hash t op = some t2) :
    ∀ i, slotPres key (t.table.getD i none) (t2.table.getD i none) := by
  intro i
  cases op with
  | lookup j =>
      simp only [applyOp, Option.some.injEq] at h
      subst h
      rw [(oa_get_frame hash t j).1]
      exact slotPres_refl _ _
  | del j =>
      simp only [applyOp, Option.some.injEq] at h
      subst h
      rcases (delete_table hash t j).2.2 with heq | ⟨j2, e, hslot, hk, htomb, heq⟩
      · rw [heq]; exact slotPres_refl _ _
      · rw [heq]
        have hjk : j ≠ key := by simpa [Op.key] using hkey
        by_cases hij : j2 = i
        · subst hij
          intro e0 he0
          have he : e0 = e := by
            rw [hslot] at he0
            exact (Option.some.inj he0).symm
          subst he
          refine ⟨{ e0 with tombstone := true },
            getD_set_self _ _ _ _ (lt_length_of_getD_some hslot), ?_, ?_⟩
          · intro hc
            exact absurd (hk.symm.trans hc.1) hjk
          · intro _ hc
            exact absurd (hk.symm.trans hc.1) hjk
        · rw [getD_set_ne _ _ _ _ _ hij]
          exact slotPres_refl _ _
  | ins j v =>
      simp only [applyOp] at h
      obtain ⟨j2, pr, isNew, hl, htab, _, _⟩ := insert_table hash t j v t2 h
      rcases insertLoop_stop t.table t.capacity j _ _ _ _ _ _ hl with
        ⟨_, hempty⟩ | ⟨_, e, hslot, hk, htomb⟩
      · rw [htab]
        by_cases hij : j2 = i
        · subst hij
          intro e0 he0
          rw [hempty] at he0
          exact Option.noConfusion he0
        · rw [getD_set_ne _ _ _ _ _ hij]
          exact slotPres_refl _ _
      · rw [htab]
        have hjk : j ≠ key := by simpa [Op.key] using hkey
        by_cases hij : j2 = i
        · subst hij
          intro e0 he0
          have he : e0 = e := by
            rw [hslot] at he0
            exact (Option.some.inj he0).symm
          subst he
          refine ⟨⟨j, v, false⟩,
            getD_set_self _ _ _ _ (lt_length_of_getD_some hslot), ?_, ?_⟩
          · intro hc
            exact absurd (hk.symm.trans hc.1) hjk
          · intro _ hc
            exact absurd (hc.1 : j = key) hjk
        · rw [getD_set_ne _ _ _ _ _ hij]
          exact slotPres_refl _ _

/-- The get walk for `key` is insensitive to `slotPres key` changes. -/
theorem getLoop_found_pres (tab tab2 : List (Option (Entry K))) (cap : Nat)
    (key : K) (v : Nat)
    (hpres : ∀ i, slotPres key (tab.getD i none) (tab2.getD i none)) :
    ∀ (fuel idx probe pr : Nat),
      getLoop tab cap key idx probe fuel = .found v pr →
      getLoop tab2 cap key idx probe fuel = .found v pr := by
  intro fuel
  induction fuel with
  | zero => intro idx probe pr h; simp [getLoop] at h
  | succ fuel ih =>
      intro idx probe pr h
      rw [getLoop] at h
      cases hslot : tab.getD idx none with
      | none =>
          simp only [hslot] at h
          exact GetRes.noConfusion h
      | some e =>
          simp only [hslot] at h
          obtain ⟨e2, he2, hlive, hskip⟩ := hpres idx e hslot
          by_cases hcond : e.key = key ∧ e.tombstone = false
          · simp only [if_pos hcond, GetRes.found.injEq] at h
            obtain ⟨rfl, rfl⟩ := h
            rw [getLoop, he2, hlive hcond]
            simp [hcond]
          · simp only [if_neg hcond] at h
            by_cases hguard : probe + 1 > cap
            · simp [hguard] at h
            · simp only [if_neg hguard] at h
              rw [getLoop, he2]
              simp only [if_neg (hskip hcond), if_neg hguard]
              exact ih _ _ _ h

/-- A live `key` binding survives any operation on a different key. -/
theorem get_pres (hash : K → Nat) (t t2 : Table K) (k : K) (v : Nat) (op : Op K)
    (hkey : op.key ≠ k) (happ : applyOp hash t op = some t2)
    (hget : (get hash t k).1 = some v) : (get hash t2 k).1 = some v := by
  have hcap2 : t2.capacity = t.capacity := by
    cases op with
    | lookup j =>
        simp only [applyOp, Option.some.injEq] at happ
        subst happ
        exact (oa_get_frame hash t j).2.2
    | del j =>
        simp only [applyOp, Option.some.injEq] at happ
        subst happ
        exact (delete_table hash t j).1
    | ins j v2 =>
        simp only [applyOp] at happ
        obtain ⟨_, _, _, _, _, hc, _⟩ := insert_table hash t j v2 t2 happ
        exact hc
  have hpres := applyOp_slotPres hash t t2 op k hkey happ
  unfold get at hget ⊢
  rw [hcap2]
  cases hl : getLoop t.table t.capacity k (bucket_index (hash k) t.capacity) 0
      (t.capacity + 2) with
  | found v0 pr =>
      rw [hl] at hget
      simp only at hget
      injection hget with hv
      subst hv
      rw [getLoop_found_pres t.table t2.table t.capacity k v0 hpres _ _ _ _ hl]
  | notFound pr => rw [hl] at hget; simp at hget
  | bailed => rw [hl] at hget; simp at hget

/-- Operations preserve the structural invariant. -/
theorem applyOp_inv (hash : K → Nat) (t t2 : Table K) (op : Op K)
    (hInv : Inv t) (h : applyOp hash t op = some t2) : Inv t2 := by
  obtain ⟨hc, hp⟩ := hInv
  cases op with
  | lookup j =>
      simp only [applyOp, Option.some.injEq] at h
      subst h
      obtain ⟨ht, _, hcap⟩ := oa_get_frame hash t j
      exact ⟨by rw [hcap, ht, hc], by rw [hcap]; exact hp⟩
  | del j =>
      simp only [applyOp, Option.some.injEq] at h
      subst h
      obtain ⟨hcap, hlen, _⟩ := delete_table hash t j
      exact ⟨by rw [hcap, hlen, hc], by rw [hcap]; exact hp⟩
  | ins j v =>
      simp only [applyOp] at h
      obtain ⟨_, _, _, _, _, hcap, hlen⟩ := insert_table hash t j v t2 h
      exact ⟨by rw [hcap, hlen, hc], by rw [hcap]; exact hp⟩

theorem applyOps_bottom (hash : K → Nat) :
    ∀ ops : List (Op K),
      List.foldl (fun acc op => acc.bind (fun s => applyOp hash s op))
        (none : Option (Table K)) ops = none := by
  intro ops
  induction ops with
  | nil => rfl
  | cons op rest ih => simpa [Option.bind] using ih

theorem applyOps_cons (hash : K → Nat) (op : Op K) (ops : List (Op K)) (t : Table K) :
    applyOps hash (op :: ops) t =
      (applyOp hash t op).bind (fun s => applyOps hash ops s) := by
  unfold applyOps
  cases h : applyOp hash t op with
  | none => simp [List.foldl, h, applyOps_bottom]
  | some s => simp [List.foldl, h]

/-- `get_pres` lifted to operation sequences, carrying the invariant. -/
theorem applyOps_get_pres (hash : K → Nat) (k : K) (v : Nat) :
    ∀ (ops : List (Op K)) (t t2 : Table K), Inv t →
      (∀ op ∈ ops, op.key ≠ k) → applyOps hash ops t = some t2 →
      (get hash t k).1 = some v → (get hash t2 k).1 = some v := by
  intro ops
  induction ops with
  | nil =>
      intro t t2 _ _ happ hget
      unfold applyOps at happ
      simp only [List.foldl, Option.some.injEq] at happ
      subst happ
      exact hget
  | cons op rest ih =>
      intro t t2 hInv hkeys happ hget
      rw [applyOps_cons] at happ
      cases h1 : applyOp hash t op with
      | none => rw [h1] at happ; exact absurd happ (by simp)
      | some s1 =>
          rw [h1] at happ
          simp only [Option.bind] at happ
          exact ih s1 t2 (applyOp_inv hash t s1 op hInv h1)
            (fun o ho => hkeys o (List.mem_cons_of_mem _ ho)) happ
            (get_pres hash t s1 k v op (hkeys op (List.mem_cons_self _ _)) h1 hget)

theorem applyOps_inv (hash : K → Nat) :
    ∀ (ops : List (Op K)) (t t2 : Table K), Inv t →
      applyOps hash ops t = some t2 → Inv t2 := by
  intro ops
  induction ops with
  | nil =>
      intro t t2 hInv happ
      unfold applyOps at happ
      simp only [List.foldl, Option.some.injEq] at happ
      subst happ
      exact hInv
  | cons op rest ih =>
      intro t t2 hInv happ
      rw [applyOps_cons] at happ
      cases h1 : applyOp hash t op with
      | none => rw [h1] at happ; exact absurd happ (by simp)
      | some s1 =>
          rw [h1] at happ
          simp only [Option.bind] at happ
          exact ih s1 t2 (applyOp_inv hash t s1 op hInv h1) happ

theorem insert_inv (hash : K → Nat) (t t2 : Table K) (k : K) (v : Nat)
    (hInv : Inv t) (h : insert hash t k v = some t2) : Inv t2 :=
  applyOp_inv hash t t2 (.ins k v) hInv h

theorem delete_inv (hash : K → Nat) (t : Table K) (k : K) (hInv : Inv t) :
    Inv (delete hash t k).2 :=
  applyOp_inv hash t _ (.del k) hInv rfl

end OA

/-! ## BalancedSearchTree lemmas: structure and metrics -/

namespace RBT

variable {K : Type} [LinearOrder K]

theorem rotate_right_ne_leaf (k : K) (v : Nat) (c : Color) (l r : Tree K) :
    rotate_right (.node k v c l r) ≠ .leaf := by
  cases l <;> simp [rotate_right]

theorem rotate_left_ne_leaf (k : K) (v : Nat) (c : Color) (l r : Tree K) :
    rotate_left (.node k v c l r) ≠ .leaf := by
  cases r <;> simp [rotate_left]

theorem recolorRightRed_ne_leaf (t : Tree K) (h : t ≠ .leaf) :
    recolorRightRed t ≠ .leaf := by
  cases t with
  | leaf => exact absurd rfl h
  | node k v c l r => simp [recolorRightRed]

theorem recolorLeftRed_ne_leaf (t : Tree K) (h : t ≠ .leaf) :
    recolorLeftRed t ≠ .leaf := by
  cases t with
  | leaf => exact absurd rfl h
  | node k v c l r => simp [recolorLeftRed]

/-- `fix_insert` never erases a node. -/
theorem fix_insert_fst_ne_leaf (k : K) (v : Nat) (c : Color) (l r : Tree K) :
    (fix_insert (.node k v c l r)).1 ≠ .leaf := by
  rw [fix_insert.eq_def]
  dsimp only
  split
  · split
    · split
      · exact recolorRightRed_ne_leaf _ (rotate_right_ne_leaf _ _ _ _ _)
      · exact recolorRightRed_ne_leaf _ (rotate_right_ne_leaf _ _ _ _ _)
    · split
      · exact recolorLeftRed_ne_leaf _ (rotate_left_ne_leaf _ _ _ _ _)
      · exact recolorLeftRed_ne_leaf _ (rotate_left_ne_leaf _ _ _ _ _)
  · split
    · simp
    · simp

/-- `insert_recursive` never returns the empty tree. -/
theorem insert_recursive_fst_ne_leaf (key : K) (value : Nat) (t : Tree K) :
    (insert_recursive key value t).1 ≠ .leaf := by
  cases t with
  | leaf => simp [insert_recursive]
  | node k v c l r =>
      rw [insert_recursive]
      by_cases h1 : key < k
      · simp only [if_pos h1]
        cases hrec : insert_recursive key value l with
        | mk l2 f1 =>
            cases hfix : fix_insert (.node k v c l2 r) with
            | mk t2 f2 =>
                have hne := fix_insert_fst_ne_leaf k v c l2 r
                rw [hfix] at hne
                simpa using hne
      · by_cases h2 : k < key
        · simp only [if_neg h1, if_pos h2]
          cases hrec : insert_recursive key value r with
          | mk r2 f1 =>
              cases hfix : fix_insert (.node k v c l r2) with
              | mk t2 f2 =>
                  have hne := fix_insert_fst_ne_leaf k v c l r2
                  rw [hfix] at hne
                  simpa using hne
        · simp only [if_neg h1, if_neg h2]
          cases hfix : fix_insert (.node k value c l r) with
          | mk t2 f2 =>
              have hne := fix_insert_fst_ne_leaf k value c l r
              rw [hfix] at hne
              simpa using hne

/-- Claim C4, the part that holds: after every `insert` the root is
Black (it is forced Black on return). -/
theorem insert_root_black (t : RedBlackTree K) (key : K) (value : Nat) :
    rootColor (insert t key value).root = some .black := by
  unfold insert
  cases hrec : insert_recursive key value t.root with
  | mk root2 reb =>
      have hne : root2 ≠ .leaf := by
        have := insert_recursive_fst_ne_leaf key value t.root
        rw [hrec] at this
        exact this
      cases root2 with
      | leaf => exact absurd rfl hne
      | node k2 v2 c2 l2 r2 => rfl

/-- `rebalance_count` movement of `insert`: bumped exactly when the
recursive insertion reports a rotation or recoloring. -/
theorem insert_rebalance_count (t : RedBlackTree K) (key : K) (value : Nat) :
    (insert t key value).metrics.rebalance_count =
      t.metrics.rebalance_count +
        (if (insert_recursive key value t.root).2 then 1 else 0) := by
  unfold insert
  cases hrec : insert_recursive key value t.root with
  | mk root2 reb => cases reb <;> rfl

/-- `rebalance_count` movement of `delete`: bumped by every
successful deletion (the source increments it although delete never
rotates or recolors), untouched by an unsuccessful one. -/
theorem delete_rebalance_count (t : RedBlackTree K) (key : K) (fuel : Nat)
    (res : Option Nat) (t2 : RedBlackTree K)
    (h : delete t key fuel = some (res, t2)) :
    t2.metrics.rebalance_count =
      t.metrics.rebalance_count + (if res.isSome then 1 else 0) := by
  unfold delete at h
  cases hrec : delete_recursive key fuel t.root with
  | none => rw [hrec] at h; exact absurd h (by simp)
  | some p =>
      obtain ⟨root2, result⟩ := p
      rw [hrec] at h
      cases result with
      | some v =>
          simp only [Option.some.injEq, Prod.mk.injEq] at h
          obtain ⟨rfl, rfl⟩ := h
          rfl
      | none =>
          simp only [Option.some.injEq, Prod.mk.injEq] at h
          obtain ⟨rfl, rfl⟩ := h
          rfl

/-- `balance_ratio` movement of `insert`: refreshed from the new
size. -/
theorem insert_balance_ratio (t : RedBlackTree K) (key : K) (value : Nat) :
    (insert t key value).metrics.balance_ratio =
      if (insert t key value).size = 0 then (0 : Rat) else 1 := by
  unfold insert update_metrics
  cases hrec : insert_recursive key value t.root with
  | mk root2 reb => rfl

/-- `balance_ratio` movement of `delete`: refreshed from the new size
on success, untouched on failure. -/
theorem delete_balance_ratio (t : RedBlackTree K) (key : K) (fuel : Nat)
    (res : Option Nat) (t2 : RedBlackTree K)
    (h : delete t key fuel = some (res, t2)) :
    t2.metrics.balance_ratio =
      if res.isSome then (if t2.size = 0 then (0 : Rat) else 1)
      else t.metrics.balance_ratio := by
  unfold delete at h
  cases hrec : delete_recursive key fuel t.root with
  | none => rw [hrec] at h; exact absurd h (by simp)
  | some p =>
      obtain ⟨root2, result⟩ := p
      rw [hrec] at h
      cases result with
      | some v =>
          simp only [Option.some.injEq, Prod.mk.injEq] at h
          obtain ⟨rfl, rfl⟩ := h
          rfl
      | none =>
          simp only [Option.some.injEq, Prod.mk.injEq] at h
          obtain ⟨rfl, rfl⟩ := h
          rfl

/-! ### The sorted-tree development for insert-then-get -/

theorem listLookup_listInsert_self (key : K) (v : Nat) :
    ∀ L : List (K × Nat), listLookup key (listInsert key v L) = some v := by
  intro L
  induction L with
  | nil => simp [listInsert, listLookup]
  | cons e rest ih =>
      by_cases h1 : key < e.1
      · simp [listInsert, listLookup, h1]
      · by_cases h2 : e.1 < key
        · have hne : ¬key = e.1 := ne_of_gt h2
          simp [listInsert, listLookup, h1, h2, hne, ih]
        · have heq : key = e.1 := le_antisymm (not_lt.mp h2) (not_lt.mp h1)
          simp [listInsert, listLookup, h1, h2, heq]

theorem listInsert_append_of_lt (key k : K) (v vk : Nat) (B : List (K × Nat))
    (hk : key < k) :
    ∀ A : List (K × Nat),
      listInsert key v (A ++ (k, vk) :: B) = listInsert key v A ++ (k, vk) :: B := by
  intro A
  induction A with
  | nil => simp [listInsert, hk]
  | cons e A2 ih =>
      by_cases h1 : key < e.1
      · simp [listInsert, h1]
      · by_cases h2 : e.1 < key
        · simp [listInsert, h1, h2, ih]
        · simp [listInsert, h1, h2]

theorem listInsert_append_of_gt (key k : K) (v vk : Nat) (B : List (K × Nat))
    (hk : k < key) :
    ∀ A : List (K × Nat), (∀ a ∈ A, a.1 < key) →
      listInsert key v (A ++ (k, vk) :: B) = A ++ (k, vk) :: listInsert key v B := by
  intro A
  induction A with
  | nil =>
      intro _
      have h1 : ¬key < k := lt_asymm hk
      simp [listInsert, h1, hk]
  | cons e A2 ih =>
      intro hA
      have he : e.1 < key := hA e (List.mem_cons_self _ _)
      have h1 : ¬key < e.1 := lt_asymm he
      simp [listInsert, h1, he]
      exact ih (fun a ha => hA a (List.mem_cons_of_mem _ ha))

theorem listInsert_append_of_eq (key : K) (v vk : Nat) (B : List (K × Nat)) :
    ∀ A : List (K × Nat), (∀ a ∈ A, a.1 < key) →
      listInsert key v (A ++ (key, vk) :: B) = A ++ (key, v) :: B := by
  intro A
  induction A with
  | nil =>
      intro _
      simp [listInsert, lt_irrefl]
  | cons e A2 ih =>
      intro hA
      have he : e.1 < key := hA e (List.mem_cons_self _ _)
      have h1 : ¬key < e.1 := lt_asymm he
      simp [listInsert, h1, he]
      exact ih (fun a ha => hA a (List.mem_cons_of_mem _ ha))

theorem mem_keys_listInsert (key : K) (v : Nat) :
    ∀ (L : List (K × Nat)) (b : K),
      b ∈ (listInsert key v L).map Prod.fst → b = key ∨ b ∈ L.map Prod.fst := by
  intro L
  induction L with
  | nil => intro b hb; simpa [listInsert] using hb
  | cons e rest ih =>
      intro b hb
      by_cases h1 : key < e.1
      · simp only [listInsert, if_pos h1, List.map_cons, List.mem_cons] at hb
        rcases hb with hb | hb | hb
        · exact Or.inl hb
        · exact Or.inr (by simp [hb])
        · exact Or.inr (by simp [hb])
      · by_cases h2 : e.1 < key
        · simp only [listInsert, if_neg h1, if_pos h2, List.map_cons,
            List.mem_cons] at hb
          rcases hb with hb | hb
          · exact Or.inr (by simp [hb])
          · rcases ih b hb with hb2 | hb2
            · exact Or.inl hb2
            · exact Or.inr (by simp [hb2])
        · simp only [listInsert, if_neg h1, if_neg h2, List.map_cons,
            List.mem_cons] at hb
          rcases hb with hb | hb
          · exact Or.inr (by simp [hb])
          · exact Or.inr (by simp [hb])

theorem listInsert_sorted (key : K) (v : Nat) :
    ∀ L : List (K × Nat), List.Sorted (· < ·) (L.map Prod.fst) →
      List.Sorted (· < ·) ((listInsert key v L).map Prod.fst) := by
  intro L
  induction L with
  | nil => intro _; simp [listInsert]
  | cons e rest ih =>
      intro hs
      rw [List.map_cons, List.sorted_cons] at hs
      obtain ⟨hlt, hrest⟩ := hs
      by_cases h1 : key < e.1
      · simp only [listInsert, if_pos h1, List.map_cons]
        rw [List.sorted_cons]
        refine ⟨?_, by rw [List.sorted_cons]; exact ⟨hlt, hrest⟩⟩
        intro b hb
        rcases List.mem_cons.mp hb with hb | hb
        · exact hb ▸ h1
        · exact lt_trans h1 (hlt b hb)
      · by_cases h2 : e.1 < key
        · simp only [listInsert, if_neg h1, if_pos h2, List.map_cons]
          rw [List.sorted_cons]
          refine ⟨?_, ih hrest⟩
          intro b hb
          rcases mem_keys_listInsert key v rest b hb with rfl | hb2
          · exact h2
          · exact hlt b hb2
        · simp only [listInsert, if_neg h1, if_neg h2, List.map_cons]
          rw [List.sorted_cons]
          exact ⟨hlt, hrest⟩

theorem listLookup_eq_none (key : K) :
    ∀ L : List (K × Nat), (∀ a ∈ L, a.1 ≠ key) → listLookup key L = none := by
  intro L
  induction L with
  | nil => intro _; rfl
  | cons e rest ih =>
      intro hA
      have : ¬key = e.1 := fun h => hA e (List.mem_cons_self _ _) h.symm
      simp [listLookup, this]
      exact ih (fun a ha => hA a (List.mem_cons_of_mem _ ha))

theorem listLookup_append_right (key : K) :
    ∀ A B : List (K × Nat), (∀ a ∈ A, a.1 ≠ key) →
      listLookup key (A ++ B) = listLookup key B := by
  intro A
  induction A with
  | nil => intro B _; rfl
  | cons e A2 ih =>
      intro B hA
      have : ¬key = e.1 := fun h => hA e (List.mem_cons_self _ _) h.symm
      simp [listLookup, this]
      exact ih B (fun a ha => hA a (List.mem_cons_of_mem _ ha))

theorem listLookup_append_left (key : K) :
    ∀ A B : List (K × Nat), (∀ b ∈ B, b.1 ≠ key) →
      listLookup key (A ++ B) = listLookup key A := by
  intro A
  induction A with
  | nil => intro B hB; exact listLookup_eq_none key B hB
  | cons e A2 ih =>
      intro B hB
      by_cases h : key = e.1
      · simp [listLookup, h]
      · simp [listLookup, h]
        exact ih B hB

theorem inorder_paint (c : Color) (t : Tree K) : inorder (paint c t) = inorder t := by
  cases t <;> rfl

theorem get_recursive_paint (key : K) (c : Color) (t : Tree K) :
    get_recursive key (paint c t) = get_recursive key t := by
  cases t <;> rfl

theorem inorder_rotate_right (t : Tree K) : inorder (rotate_right t) = inorder t := by
  cases t with
  | leaf => rfl
  | node k v c l r =>
      cases l with
      | leaf => rfl
      | node lk lv lc ll lr => simp [rotate_right, inorder]

theorem inorder_rotate_left (t : Tree K) : inorder (rotate_left t) = inorder t := by
  cases t with
  | leaf => rfl
  | node k v c l r =>
      cases r with
      | leaf => rfl
      | node rk rv rc rl rr => simp [rotate_left, inorder]

theorem inorder_recolorRightRed (t : Tree K) :
    inorder (recolorRightRed t) = inorder t := by
  cases t with
  | leaf => rfl
  | node k v c l r => simp [recolorRightRed, inorder, inorder_paint]

theorem inorder_recolorLeftRed (t : Tree K) :
    inorder (recolorLeftRed t) = inorder t := by
  cases t with
  | leaf => rfl
  | node k v c l r => simp [recolorLeftRed, inorder, inorder_paint]

/-- `fix_insert` only rotates and recolors: the in-order pairs are
untouched. -/
theorem inorder_fix_insert (t : Tree K) : inorder (fix_insert t).1 = inorder t := by
  cases t with
  | leaf => rfl
  | node k v c l r =>
      rw [fix_insert.eq_def]
      dsimp only
      split
      · split
        · split
          · simp [inorder_recolorRightRed, inorder_rotate_right]
          · simp [inorder_recolorRightRed, inorder_rotate_right,
              inorder, inorder_rotate_left]
        · split
          · simp [inorder_recolorLeftRed, inorder_rotate_left]
          · simp [inorder_recolorLeftRed, inorder_rotate_left,
              inorder, inorder_rotate_right]
      · split
        · simp [inorder, inorder_paint]
        · rfl

/-- Unpack the sortedness of a node into its parts. -/
theorem sortedTree_node (k : K) (v : Nat) (c : Color) (l r : Tree K)
    (hs : SortedTree (.node k v c l r)) :
    SortedTree l ∧ SortedTree r ∧ (∀ a ∈ keys l, a < k) ∧ ∀ b ∈ keys r, k < b := by
  unfold SortedTree keys at hs ⊢
  simp only [inorder, List.map_append, List.map_cons] at hs
  rw [List.Sorted, List.pairwise_append] at hs
  obtain ⟨hl, hkr, hcross⟩ := hs
  rw [List.pairwise_cons] at hkr
  exact ⟨hl, hkr.2, fun a ha => hcross a ha k (List.mem_cons_self _ _), hkr.1⟩

/-- The in-order pairs of the recursive insert are exactly the sorted
association-list insertion. -/
theorem inorder_insert_recursive (key : K) (value : Nat) :
    ∀ t : Tree K, SortedTree t →
      inorder (insert_recursive key value t).1 = listInsert key value (inorder t) := by
  intro t
  induction t with
  | leaf => intro _; simp [insert_recursive, inorder, listInsert]
  | node k v c l r ihl ihr =>
      intro hs
      obtain ⟨hsl, hsr, hbl, hbr⟩ := sortedTree_node k v c l r hs
      rw [insert_recursive]
      by_cases h1 : key < k
      · simp only [if_pos h1]
        cases hrec : insert_recursive key value l with
        | mk l2 f1 =>
            cases hfix : fix_insert (.node k v c l2 r) with
            | mk t2 f2 =>
                have hfi := inorder_fix_insert (.node k v c l2 r)
                rw [hfix] at hfi
                have hl2 : inorder l2 = listInsert key value (inorder l) := by
                  have := ihl hsl
                  rw [hrec] at this
                  exact this
                simp only [hfi, inorder, hl2]
                exact (listInsert_append_of_lt key k value v (inorder r) h1
                  (inorder l)).symm
      · by_cases h2 : k < key
        · simp only [if_neg h1, if_pos h2]
          cases hrec : insert_recursive key value r with
          | mk r2 f1 =>
              cases hfix : fix_insert (.node k v c l r2) with
              | mk t2 f2 =>
                  have hfi := inorder_fix_insert (.node k v c l r2)
                  rw [hfix] at hfi
                  have hr2 : inorder r2 = listInsert key value (inorder r) := by
                    have := ihr hsr
                    rw [hrec] at this
                    exact this
                  simp only [hfi, inorder, hr2]
                  refine (listInsert_append_of_gt key k value v (inorder r) h2
                    (inorder l) ?_).symm
                  intro a ha
                  exact lt_trans (hbl a.1 (List.mem_map_of_mem Prod.fst ha)) h2
        · have heq : key = k := le_antisymm (not_lt.mp h2) (not_lt.mp h1)
          subst heq
          simp only [if_neg h1, if_neg h2]
          cases hfix : fix_insert (.node key value c l r) with
          | mk t2 f2 =>
              have hfi := inorder_fix_insert (.node key value c l r)
              rw [hfix] at hfi
              simp only [hfi, inorder]
              refine (listInsert_append_of_eq key value v (inorder r)
                (inorder l) ?_).symm
              intro a ha
              exact hbl a.1 (List.mem_map_of_mem Prod.fst ha)

theorem sortedTree_insert_recursive (key : K) (value : Nat) (t : Tree K)
    (hs : SortedTree t) : SortedTree (insert_recursive key value t).1 := by
  unfold SortedTree keys
  rw [inorder_insert_recursive key value t hs]
  exact listInsert_sorted key value (inorder t) hs

/-- On a sorted tree the recursive search agrees with first-match
lookup in the in-order pairs. -/
theorem get_recursive_sorted (key : K) :
    ∀ t : Tree K, SortedTree t →
      get_recursive key t = listLookup key (inorder t) := by
  intro t
  induction t with
  | leaf => intro _; rfl
  | node k v c l r ihl ihr =>
      intro hs
      obtain ⟨hsl, hsr, hbl, hbr⟩ := sortedTree_node k v c l r hs
      rw [get_recursive, inorder]
      by_cases h0 : key = k
      · subst h0
        rw [if_pos rfl]
        rw [listLookup_append_right key (inorder l) _
          (fun a ha => ne_of_lt (hbl a.1 (List.mem_map_of_mem Prod.fst ha)))]
        simp [listLookup]
      · rw [if_neg h0]
        by_cases h1 : key < k
        · rw [if_pos h1]
          rw [listLookup_append_left key (inorder l) _ ?side]
          · exact ihl hsl
          case side =>
            intro b hb
            rcases List.mem_cons.mp hb with rfl | hb2
            · exact fun hc => h0 (by simpa using hc.symm)
            · exact ne_of_gt (lt_trans h1 (hbr b.1 (List.mem_map_of_mem Prod.fst hb2)))
        · have h2 : k < key := by
            rcases lt_trichotomy key k with hlt | heq | hgt
            · exact absurd hlt h1
            · exact absurd heq h0
            · exact hgt
          rw [if_neg h1]
          have hsplit : inorder l ++ (k, v) :: inorder r
              = (inorder l ++ [(k, v)]) ++ inorder r := by
            simp
          rw [hsplit, listLookup_append_right key (inorder l ++ [(k, v)]) _ ?side2]
          · exact ihr hsr
          case side2 =>
            intro a ha
            rcases List.mem_append.mp ha with ha2 | ha2
            · exact ne_of_lt (lt_trans (hbl a.1 (List.mem_map_of_mem Prod.fst ha2)) h2)
            · rcases List.mem_singleton.mp ha2 with rfl
              exact ne_of_lt h2

/-- Claim C1 for the balanced tree: insert then get, on any sorted
state. -/
theorem get_insert_sorted (t : RedBlackTree K) (key : K) (value : Nat)
    (hs : SortedTree t.root) : get (insert t key value) key = some value := by
  unfold insert get
  cases hrec : insert_recursive key value t.root with
  | mk root2 reb =>
      have hs2 : SortedTree root2 := by
        have := sortedTree_insert_recursive key value t.root hs
        rw [hrec] at this
        exact this
      have hio : inorder root2 = listInsert key value (inorder t.root) := by
        have := inorder_insert_recursive key value t.root hs
        rw [hrec] at this
        exact this
      dsimp only
      simp only [update_metrics]
      rw [get_recursive_paint, get_recursive_sorted key root2 hs2, hio]
      exact listLookup_listInsert_self key value (inorder t.root)

/-- The successor-search loop of `delete_recursive` never finishes
when the right subtree's left child has a left child of its own: the
loop restores `left_child` unchanged and re-takes it forever. -/
theorem deleteMinLoop_stuck (k : K) (v : Nat) (c : Color)
    (lk : K) (lv : Nat) (lc : Color) (ll1 : K) (ll2 : Nat) (ll3 : Color)
    (ll4 ll5 lr r : Tree K) :
    ∀ fuel : Nat,
      deleteMinLoop
        (.node k v c (.node lk lv lc (.node ll1 ll2 ll3 ll4 ll5) lr) r) fuel
        = none := by
  intro fuel
  induction fuel with
  | zero => rfl
  | succ fuel ih => rw [deleteMinLoop]; exact ih

end RBT

/-! ## SkipList lemmas: frames and the running level -/

namespace SL

variable {K : Type} [LinearOrder K]

/-- `search` changes only the metrics. -/
theorem search_frame (s : SkipList K) (key : K) :
    (search s key).2.headForward = s.headForward ∧
    (search s key).2.nodes = s.nodes ∧
    (search s key).2.level = s.level ∧
    (search s key).2.size = s.size := by
  unfold search
  cases hdesc : descend s key (s.nodes.length + 1) s.level none with
  | mk pos rest =>
      cases rest with
      | mk ups comps =>
          dsimp only
          split
          · exact ⟨rfl, rfl, rfl, rfl⟩
          · split
            · exact ⟨rfl, rfl, rfl, rfl⟩
            · split <;> exact ⟨rfl, rfl, rfl, rfl⟩

theorem setFwd_level (s : SkipList K) (pos : Option Nat) (lv : Nat) (tg : Option Nat) :
    (setFwd s pos lv tg).level = s.level := by
  unfold setFwd
  cases pos with
  | none => rfl
  | some i => cases h : s.nodes[i]? <;> simp [h]

theorem spliceLevel_level (upd : List (Option Nat)) (nidx : Nat) (s : SkipList K)
    (lv : Nat) : (spliceLevel upd nidx s lv).level = s.level := by
  unfold spliceLevel
  rw [setFwd_level, setFwd_level]

theorem splice_foldl_level (upd : List (Option Nat)) (nidx : Nat) :
    ∀ (lvs : List Nat) (s : SkipList K),
      (lvs.foldl (spliceLevel upd nidx) s).level = s.level := by
  intro lvs
  induction lvs with
  | nil => intro s; rfl
  | cons lv rest ih =>
      intro s
      rw [List.foldl_cons, ih, spliceLevel_level]

theorem unlinkLevel_level (upd : List (Option Nat)) (key : K) (s : SkipList K)
    (lv : Nat) : (unlinkLevel upd key s lv).level = s.level := by
  unfold unlinkLevel
  dsimp only
  cases h1 : fwd s (upd.getD lv none) lv with
  | none => rfl
  | some j2 =>
      cases h2 : s.nodes[j2]? with
      | none => simp only [h2]
      | some n2 =>
          by_cases hk : n2.key = key
          · simp only [h2, if_pos hk]
            rw [setFwd_level, setFwd_level]
          · simp only [h2, if_neg hk]

theorem unlink_foldl_level (upd : List (Option Nat)) (key : K) :
    ∀ (lvs : List Nat) (s : SkipList K),
      (lvs.foldl (unlinkLevel upd key) s).level = s.level := by
  intro lvs
  induction lvs with
  | nil => intro s; rfl
  | cons lv rest ih =>
      intro s
      rw [List.foldl_cons, ih, unlinkLevel_level]

theorem update_metrics_level (s : SkipList K) : (update_metrics s).level = s.level := rfl

/-- The claim-C6 behavior that actually holds for `insert`: the list
level is raised to the drawn level when that exceeds it — on the
update path as well — and never otherwise changed. -/
theorem insert_level (s : SkipList K) (key : K) (value : Nat) (new_level : Nat) :
    (insert s key value new_level).level = Nat.max s.level new_level := by
  unfold insert
  cases hsearch : search s key with
  | mk found s1 =>
      have hlvl1 : s1.level = s.level := by
        have := (search_frame s key).2.2.1
        rw [hsearch] at this
        exact this
      dsimp only
      generalize hS2 : (if new_level > s1.level then
        ({ s1 with level := new_level } : SkipList K) else s1) = s2
      have hs2 : s2.level = Nat.max s.level new_level := by
        rw [← hS2]
        by_cases h : new_level > s1.level
        · rw [if_pos h]
          show new_level = Nat.max s.level new_level
          rw [hlvl1] at h
          exact (Nat.max_eq_right (le_of_lt h)).symm
        · rw [if_neg h]
          rw [hlvl1] at h
          rw [hlvl1]
          exact (Nat.max_eq_left (Nat.le_of_not_lt h)).symm
      cases hdesc : descend s2 key (s2.nodes.length + 1) s2.level none with
      | mk p0 rest =>
          cases rest with
          | mk upd comps =>
              dsimp only
              split
              · next s3 hupd =>
                  split at hupd
                  · exact Option.noConfusion hupd
                  · cases hf : fwd s2 (upd.getD 0 none) 0 with
                    | none => rw [hf] at hupd; exact Option.noConfusion hupd
                    | some j =>
                        rw [hf] at hupd
                        cases hn : s2.nodes[j]? with
                        | none =>
                            simp only [hn] at hupd
                            exact Option.noConfusion hupd
                        | some n =>
                            simp only [hn] at hupd
                            by_cases hk : n.key = key
                            · rw [if_pos hk] at hupd
                              injection hupd with hupd
                              rw [← hupd]
                              exact hs2
                            · rw [if_neg hk] at hupd
                              exact Option.noConfusion hupd
              · next hupd =>
                  rw [update_metrics_level]
                  dsimp only
                  rw [splice_foldl_level]
                  exact hs2

/-- The claim-C6 behavior that actually holds for `delete`: the list
level is never lowered (nor changed at all), even when the tallest
node — or the last node — is removed. -/
theorem delete_level (s : SkipList K) (key : K) :
    (delete s key).2.level = s.level := by
  unfold delete
  cases hdesc : descend s key (s.nodes.length + 1) s.level none with
  | mk p0 rest =>
      cases rest with
      | mk upd comps =>
          dsimp only
          cases hf : fwd s (upd.getD 0 none) 0 with
          | none => rfl
          | some j =>
              cases hn : s.nodes[j]? with
              | none => simp only [hn]
              | some n =>
                  simp only [hn]
                  by_cases hk : n.key = key
                  · simp only [if_pos hk]
                    rw [update_metrics_level]
                    dsimp only
                    rw [unlink_foldl_level]
                  · simp only [if_neg hk]

/-- `max_level` after `delete`: refreshed to the (unchanged) list
level on success, untouched on failure. -/
theorem delete_max_level (s : SkipList K) (key : K) :
    (delete s key).2.metrics.max_level =
      if (delete s key).1.isSome then s.level else s.metrics.max_level := by
  unfold delete
  cases hdesc : descend s key (s.nodes.length + 1) s.level none with
  | mk p0 rest =>
      cases rest with
      | mk upd comps =>
          dsimp only
          cases hf : fwd s (upd.getD 0 none) 0 with
          | none => rfl
          | some j =>
              cases hn : s.nodes[j]? with
              | none => simp [hn]
              | some n =>
                  simp only [hn]
                  by_cases hk : n.key = key
                  · simp only [if_pos hk]
                    unfold update_metrics
                    dsimp only
                    rw [unlink_foldl_level]
                    simp
                  · simp [if_neg hk]

end SL

/-! ### Generic helpers for sorted-chain reasoning -/

theorem takeWhile_eq_filter_of_mono {α : Type} {R : α → α → Prop} (p : α → Bool)
    (hmono : ∀ a b, R a b → p b = true → p a = true) :
    ∀ C : List α, C.Pairwise R → C.takeWhile p = C.filter p := by
  intro C
  induction C with
  | nil => intro _; rfl
  | cons c C2 ih =>
      intro hp
      rw [List.pairwise_cons] at hp
      cases hc : p c with
      | true =>
          rw [List.takeWhile_cons_of_pos hc, List.filter_cons_of_pos hc, ih hp.2]
      | false =>
          rw [List.takeWhile_cons_of_neg (by simp [hc]), List.filter_cons_of_neg (by simp [hc])]
          have : C2.filter p = [] := by
            rw [List.filter_eq_nil]
            intro b hb
            intro hpb
            have : p c = true := hmono c b (hp.1 b hb) hpb
            rw [hc] at this
            exact Bool.noConfusion this
          rw [this]

theorem takeWhile_append_all {α : Type} (p : α → Bool) :
    ∀ (S B : List α), (∀ a ∈ S, p a = true) →
      (S ++ B).takeWhile p = S ++ B.takeWhile p := by
  intro S
  induction S with
  | nil => intro B _; rfl
  | cons a S2 ih =>
      intro B hS
      rw [List.cons_append, List.takeWhile_cons_of_pos (hS a (List.mem_cons_self _ _)),
        ih B (fun b hb => hS b (List.mem_cons_of_mem _ hb)), List.cons_append]

theorem takeWhile_dropWhile_nil {α : Type} (p : α → Bool) :
    ∀ C : List α, ((C.dropWhile p).takeWhile p) = [] := by
  intro C
  induction C with
  | nil => rfl
  | cons c C2 ih =>
      cases hc : p c with
      | true => rw [List.dropWhile_cons_of_pos hc]; exact ih
      | false =>
          rw [List.dropWhile_cons_of_neg (by simp [hc]),
            List.takeWhile_cons_of_neg (by simp [hc])]

theorem filter_getLast?_split {α : Type} (q : α → Bool) :
    ∀ (A : List α) (x : α), (A.filter q).getLast? = some x →
      ∃ P S, A = P ++ x :: S ∧ S.filter q = [] := by
  intro A
  induction A with
  | nil => intro x hx; simp at hx
  | cons a A2 ih =>
      intro x hx
      cases ha : q a with
      | false =>
          rw [List.filter_cons_of_neg (by simp [ha])] at hx
          obtain ⟨P, S, rfl, hS⟩ := ih x hx
          exact ⟨a :: P, S, rfl, hS⟩
      | true =>
          rw [List.filter_cons_of_pos ha] at hx
          cases hA2 : A2.filter q with
          | nil =>
              rw [hA2] at hx
              simp only [List.getLast?_singleton, Option.some.injEq] at hx
              subst hx
              exact ⟨[], A2, rfl, hA2⟩
          | cons y ys =>
              rw [hA2, List.getLast?_cons_cons] at hx
              rw [← hA2] at hx
              obtain ⟨P, S, rfl, hS⟩ := ih x hx
              exact ⟨a :: P, S, rfl, hS⟩

namespace SL

variable {K : Type} [LinearOrder K]

/-! ### Unpacking well-formedness -/

theorem WF_parts (s : SkipList K) (L0 : List Nat) (h : WF s L0) :
    s.headForward.length = MAX_LEVEL + 1 ∧
    s.level ≤ MAX_LEVEL ∧
    (∀ i ∈ L0, i < s.nodes.length) ∧
    (∀ i ∈ L0, ∃ n, s.nodes[i]? = some n ∧ n.forward.length = n.level + 1 ∧
      n.level ≤ s.level) ∧
    chainSortedb s L0 = true ∧
    (∀ lv, lv ≤ MAX_LEVEL → linksb s lv none (chainAt s L0 lv) = true) := by
  unfold WF WFb at h
  simp only [Bool.and_eq_true, beq_iff_eq, List.all_eq_true, decide_eq_true_eq] at h
  obtain ⟨⟨⟨⟨⟨h1, h2⟩, h3⟩, h4⟩, h5⟩, h6⟩ := h
  refine ⟨h1, h2, h3, ?_, h5, ?_⟩
  · intro i hi
    have := h4 i hi
    cases hn : s.nodes[i]? with
    | none => rw [hn] at this; exact absurd this (by simp)
    | some n =>
        rw [hn] at this
        simp only [Bool.and_eq_true, beq_iff_eq, decide_eq_true_eq] at this
        exact ⟨n, rfl, this.1, this.2⟩
  · intro lv hlv
    have := h6 lv (List.mem_range.mpr (by omega))
    exact this

/-! ### Chain structure lemmas -/

theorem lastD_cons (pos : Option Nat) (j : Nat) (A : List Nat) :
    lastD pos (j :: A) = lastD (some j) A := by
  cases A with
  | nil => rfl
  | cons a A2 =>
      unfold lastD
      rw [List.getLast?_cons_cons]
      cases h : (a :: A2).getLast? with
      | some x => rfl
      | none => simp at h

theorem lastD_concat (pos : Option Nat) (A : List Nat) (x : Nat) :
    lastD pos (A ++ [x]) = some x := by
  unfold lastD
  rw [List.getLast?_concat]

theorem lastD_append_cons :
    ∀ (P : List Nat) (pos : Option Nat) (x : Nat) (S : List Nat),
      lastD pos (P ++ x :: S) = lastD (some x) S := by
  intro P
  induction P with
  | nil =>
      intro pos x S
      rw [List.nil_append, lastD_cons]
  | cons p P2 ih =>
      intro pos x S
      rw [List.cons_append, lastD_cons]
      exact ih (some p) x S

theorem linksb_nil_iff (s : SkipList K) (lv : Nat) (pos : Option Nat) :
    linksb s lv pos [] = true ↔ fwd s pos lv = none := by
  simp [linksb]

theorem linksb_cons_iff (s : SkipList K) (lv : Nat) (pos : Option Nat) (j : Nat)
    (C : List Nat) :
    linksb s lv pos (j :: C) = true ↔
      fwd s pos lv = some j ∧ linksb s lv (some j) C = true := by
  simp [linksb]

theorem linksb_fwd (s : SkipList K) (lv : Nat) (pos : Option Nat) (C : List Nat)
    (h : linksb s lv pos C = true) : fwd s pos lv = C.head? := by
  cases C with
  | nil => exact (linksb_nil_iff s lv pos).mp h
  | cons j C2 => exact ((linksb_cons_iff s lv pos j C2).mp h).1

theorem linksb_append (s : SkipList K) (lv : Nat) :
    ∀ (A B : List Nat) (pos : Option Nat),
      linksb s lv pos (A ++ B) = true → linksb s lv (lastD pos A) B = true := by
  intro A
  induction A with
  | nil => intro B pos h; exact h
  | cons j A2 ih =>
      intro B pos h
      rw [List.cons_append, linksb_cons_iff] at h
      rw [lastD_cons]
      exact ih B (some j) h.2

theorem keyRel_trans (s : SkipList K) (i j k : Nat) (h1 : keyRel s i j)
    (h2 : keyRel s j k) : keyRel s i k := by
  obtain ⟨a, b, ha, hb, hab⟩ := h1
  obtain ⟨b2, c, hb2, hc, hbc⟩ := h2
  rw [hb] at hb2
  injection hb2 with hb2
  subst hb2
  exact ⟨a, c, ha, hc, lt_trans hab hbc⟩

theorem keyRel_irrefl (s : SkipList K) (i : Nat) (h : keyRel s i i) : False := by
  obtain ⟨a, b, ha, hb, hab⟩ := h
  rw [ha] at hb
  injection hb with hb
  subst hb
  exact lt_irrefl _ hab

theorem chainSortedb_pairwise (s : SkipList K) :
    ∀ C : List Nat, chainSortedb s C = true → C.Pairwise (keyRel s) := by
  intro C
  induction C with
  | nil => intro _; exact List.Pairwise.nil
  | cons i C2 ih =>
      intro h
      cases C2 with
      | nil => simp
      | cons j rest =>
          rw [chainSortedb] at h
          simp only [Bool.and_eq_true] at h
          obtain ⟨hij, hrest⟩ := h
          have hij2 : keyRel s i j := by
            unfold keyRel
            cases hi : s.nodes[i]? with
            | none => rw [hi] at hij; exact absurd hij (by simp)
            | some a =>
                cases hj : s.nodes[j]? with
                | none => rw [hi, hj] at hij; exact absurd hij (by simp)
                | some b =>
                    rw [hi, hj] at hij
                    simp only [decide_eq_true_eq] at hij
                    exact ⟨a, b, rfl, rfl, hij⟩
          have hp2 := ih hrest
          rw [List.pairwise_cons]
          refine ⟨?_, hp2⟩
          intro b hb
          rcases List.mem_cons.mp hb with rfl | hb2
          · exact hij2
          · exact keyRel_trans s i j b hij2 ((List.pairwise_cons.mp hp2).1 b hb2)

theorem keyLtb_mono (s : SkipList K) (key : K) (a b : Nat) (hab : keyRel s a b)
    (hb : keyLtb s key b = true) : keyLtb s key a = true := by
  obtain ⟨na, nb, hna, hnb, hlt⟩ := hab
  unfold keyLtb at hb ⊢
  rw [hna]
  rw [hnb] at hb
  simp only [decide_eq_true_eq] at hb ⊢
  exact lt_trans hlt hb

theorem chainAt_zero (s : SkipList K) (L0 : List Nat) : chainAt s L0 0 = L0 := by
  unfold chainAt
  rw [List.filter_eq_self]
  intro i _
  simp

theorem chainAt_gt_level (s : SkipList K) (L0 : List Nat)
    (hnodes : ∀ i ∈ L0, ∃ n, s.nodes[i]? = some n ∧ n.forward.length = n.level + 1 ∧
      n.level ≤ s.level)
    (lv : Nat) (hlv : s.level < lv) : chainAt s L0 lv = [] := by
  unfold chainAt
  rw [List.filter_eq_nil]
  intro i hi
  obtain ⟨n, hn, _, hle⟩ := hnodes i hi
  simp only [decide_eq_true_eq, not_le]
  unfold levelOf
  rw [hn]
  dsimp only
  omega

theorem chainAt_succ (s : SkipList K) (L0 : List Nat) (lv : Nat) :
    chainAt s L0 (lv + 1) =
      (chainAt s L0 lv).filter (fun i => decide (lv + 1 ≤ levelOf s i)) := by
  unfold chainAt
  rw [List.filter_filter]
  refine List.filter_congr ?_
  intro i _
  by_cases h : lv + 1 ≤ levelOf s i
  · have h2 : lv ≤ levelOf s i := by omega
    simp [h, h2]
  · simp [h]

theorem chainAt_sublist (s : SkipList K) (L0 : List Nat) (lv : Nat) :
    (chainAt s L0 lv).Sublist L0 := List.filter_sublist L0


/-! ### Walk and descent correctness -/

/-- A per-level walk that starts at the head of a linked chain stops
at the last chained node whose key is below the target. -/
theorem walkLevel_linksb (s : SkipList K) (key : K) (lv : Nat) :
    ∀ (C : List Nat) (pos : Option Nat) (fuel : Nat),
      linksb s lv pos C = true → C.length < fuel →
      (walkLevel s key lv pos fuel).1 = lastD pos (C.takeWhile (keyLtb s key)) := by
  intro C
  induction C with
  | nil =>
      intro pos fuel hlink hfuel
      cases fuel with
      | zero => omega
      | succ f =>
          rw [walkLevel]
          rw [(linksb_nil_iff s lv pos).mp hlink]
          rfl
  | cons j C2 ih =>
      intro pos fuel hlink hfuel
      rw [linksb_cons_iff] at hlink
      obtain ⟨hf, hlink2⟩ := hlink
      cases fuel with
      | zero => simp at hfuel
      | succ f =>
          rw [walkLevel, hf]
          cases hn : s.nodes[j]? with
          | none =>
              have hlt : keyLtb s key j = false := by unfold keyLtb; rw [hn]
              simp only [hn]
              rw [List.takeWhile_cons_of_neg (by simp [hlt])]
              rfl
          | some n =>
              simp only [hn]
              by_cases hk : n.key < key
              · have hlt : keyLtb s key j = true := by
                  unfold keyLtb; rw [hn]; simpa using hk
                rw [if_pos hk]
                cases hw : walkLevel s key lv (some j) f with
                | mk p2 c2 =>
                    have := ih (some j) f hlink2 (by simpa using Nat.lt_of_succ_lt_succ hfuel)
                    rw [hw] at this
                    rw [List.takeWhile_cons_of_pos hlt, lastD_cons]
                    exact this
              · have hlt : keyLtb s key j = false := by
                  unfold keyLtb; rw [hn]; simpa using hk
                rw [if_neg hk]
                rw [List.takeWhile_cons_of_neg (by simp [hlt])]
                rfl

/-- One descent step: from the level-`(lv+1)` predecessor of the
target, the level-`lv` walk reaches the level-`lv` predecessor. -/
theorem walk_step (s : SkipList K) (key : K) (L0 : List Nat) (hwf : WF s L0)
    (lv : Nat) (hlv : lv ≤ MAX_LEVEL) (pos : Option Nat)
    (hpos : pos = lastD none ((chainAt s L0 (lv + 1)).filter (keyLtb s key)))
    (fuel : Nat) (hfuel : L0.length < fuel) :
    (walkLevel s key lv pos fuel).1
      = lastD none ((chainAt s L0 lv).filter (keyLtb s key)) := by
  obtain ⟨hHead, hLvl, hIdx, hNode, hSort, hLinks⟩ := WF_parts s L0 hwf
  have hlinks : linksb s lv none (chainAt s L0 lv) = true := hLinks lv hlv
  have hpairC : (chainAt s L0 lv).Pairwise (keyRel s) :=
    (chainSortedb_pairwise s L0 hSort).sublist (chainAt_sublist s L0 lv)
  have htf : (chainAt s L0 lv).takeWhile (keyLtb s key)
      = (chainAt s L0 lv).filter (keyLtb s key) :=
    takeWhile_eq_filter_of_mono (keyLtb s key) (keyLtb_mono s key) _ hpairC
  have hlenC : (chainAt s L0 lv).length ≤ L0.length :=
    (chainAt_sublist s L0 lv).length_le
  have hA1 : (chainAt s L0 (lv + 1)).filter (keyLtb s key)
      = ((chainAt s L0 lv).filter (keyLtb s key)).filter
          (fun i => decide (lv + 1 ≤ levelOf s i)) := by
    rw [chainAt_succ, List.filter_filter, List.filter_filter]
    refine List.filter_congr ?_
    intro i _
    exact Bool.and_comm _ _
  rw [hA1] at hpos
  subst hpos
  cases hlast : (((chainAt s L0 lv).filter (keyLtb s key)).filter
      (fun i => decide (lv + 1 ≤ levelOf s i))).getLast? with
  | none =>
      have hpos0 : lastD none (((chainAt s L0 lv).filter (keyLtb s key)).filter
          (fun i => decide (lv + 1 ≤ levelOf s i))) = none := by
        unfold lastD
        rw [hlast]
      rw [hpos0, walkLevel_linksb s key lv _ none fuel hlinks (by omega), htf]
  | some x =>
      have hpos0 : lastD none (((chainAt s L0 lv).filter (keyLtb s key)).filter
          (fun i => decide (lv + 1 ≤ levelOf s i))) = some x := by
        unfold lastD
        rw [hlast]
      rw [hpos0]
      obtain ⟨P, S, hsplit, hSq⟩ :=
        filter_getLast?_split (fun i => decide (lv + 1 ≤ levelOf s i)) _ x hlast
      -- the chain decomposes around x
      have hC : chainAt s L0 lv
          = (P ++ [x]) ++ (S ++ (chainAt s L0 lv).dropWhile (keyLtb s key)) := by
        have h1 : (chainAt s L0 lv).takeWhile (keyLtb s key)
            ++ (chainAt s L0 lv).dropWhile (keyLtb s key) = chainAt s L0 lv :=
          List.takeWhile_append_dropWhile _ _
        rw [htf, hsplit] at h1
        conv_lhs => rw [← h1]
        simp
      have hlink2 : linksb s lv (some x)
          (S ++ (chainAt s L0 lv).dropWhile (keyLtb s key)) = true := by
        have := linksb_append s lv (P ++ [x]) _ none (by rw [← hC]; exact hlinks)
        rw [lastD_concat] at this
        exact this
      have hlen2 : (S ++ (chainAt s L0 lv).dropWhile (keyLtb s key)).length < fuel := by
        have := congrArg List.length hC
        simp only [List.length_append] at this
        simp only [List.length_append]
        omega
      rw [walkLevel_linksb s key lv _ (some x) fuel hlink2 hlen2]
      have hSmem : ∀ a ∈ S, keyLtb s key a = true := by
        intro a ha
        have : a ∈ (chainAt s L0 lv).filter (keyLtb s key) := by
          rw [hsplit]
          simp [ha]
        exact List.of_mem_filter this
      rw [takeWhile_append_all _ S _ hSmem, takeWhile_dropWhile_nil,
        List.append_nil, hsplit]
      exact (lastD_append_cons P none x S).symm

theorem descend_ups_length (s : SkipList K) (key : K) (fuel : Nat) :
    ∀ (lv : Nat) (pos : Option Nat),
      ((descend s key fuel lv pos).2.1).length = lv + 1 := by
  intro lv
  induction lv with
  | zero =>
      intro pos
      rw [descend]
      cases hw : walkLevel s key 0 pos fuel with
      | mk p1 c1 => rfl
  | succ lv ih =>
      intro pos
      rw [descend]
      cases hw : walkLevel s key (lv + 1) pos fuel with
      | mk p1 c1 =>
          dsimp only
          cases hd : descend s key fuel lv p1 with
          | mk pf rest =>
              cases rest with
              | mk ups c2 =>
                  have := ih p1
                  rw [hd] at this
                  simp only [List.length_append, List.length_cons, List.length_nil]
                  simpa using this

/-- Full descent correctness: starting above every chain, the descent
lands on the level-0 predecessor of the target and records the
level-`m` predecessor at slot `m` of the update vector. -/
theorem descend_correct (s : SkipList K) (key : K) (L0 : List Nat) (hwf : WF s L0)
    (fuel : Nat) (hfuel : L0.length < fuel) :
    ∀ (lv : Nat), lv ≤ MAX_LEVEL →
    ∀ pos, pos = lastD none ((chainAt s L0 (lv + 1)).filter (keyLtb s key)) →
      ((descend s key fuel lv pos).1
          = lastD none ((chainAt s L0 0).filter (keyLtb s key)) ∧
        ∀ m, m ≤ lv →
          ((descend s key fuel lv pos).2.1).getD m none
            = lastD none ((chainAt s L0 m).filter (keyLtb s key))) := by
  intro lv
  induction lv with
  | zero =>
      intro hlv pos hpos
      have hw := walk_step s key L0 hwf 0 hlv pos hpos fuel hfuel
      rw [descend]
      cases hwalk : walkLevel s key 0 pos fuel with
      | mk p1 c1 =>
          rw [hwalk] at hw
          refine ⟨hw, ?_⟩
          intro m hm
          interval_cases m
          exact hw
  | succ lv ih =>
      intro hlv pos hpos
      have hw := walk_step s key L0 hwf (lv + 1) hlv pos hpos fuel hfuel
      rw [descend]
      cases hwalk : walkLevel s key (lv + 1) pos fuel with
      | mk p1 c1 =>
          rw [hwalk] at hw
          dsimp only
          have hih := ih (by omega) p1 hw
          cases hd : descend s key fuel lv p1 with
          | mk pf rest =>
              cases rest with
              | mk ups c2 =>
                  rw [hd] at hih
                  dsimp only at hih ⊢
                  refine ⟨hih.1, ?_⟩
                  intro m hm
                  have hlen : ups.length = lv + 1 := by
                    have := descend_ups_length s key fuel lv p1
                    rw [hd] at this
                    exact this
                  by_cases hmlv : m ≤ lv
                  · rw [List.getD_append _ _ _ _ (by omega)]
                    exact hih.2 m hmlv
                  · have hm2 : m = lv + 1 := by omega
                    subst hm2
                    rw [List.getD_append_right _ _ _ _ (by omega), hlen]
                    simpa using hw

/-! ### Search correctness -/

theorem WF_nodup (s : SkipList K) (L0 : List Nat) (hwf : WF s L0) : L0.Nodup := by
  obtain ⟨_, _, _, _, hSort, _⟩ := WF_parts s L0 hwf
  have hp := chainSortedb_pairwise s L0 hSort
  refine hp.imp ?_
  intro a b h heq
  subst heq
  exact keyRel_irrefl s a h

theorem WF_length_le (s : SkipList K) (L0 : List Nat) (hwf : WF s L0) :
    L0.length ≤ s.nodes.length := by
  obtain ⟨_, _, hIdx, _, _, _⟩ := WF_parts s L0 hwf
  have hnd := WF_nodup s L0 hwf
  have hsub : L0.toFinset ⊆ Finset.range s.nodes.length := by
    intro x hx
    exact Finset.mem_range.mpr (hIdx x (List.mem_toFinset.mp hx))
  calc L0.length = L0.toFinset.card := (List.toFinset_card_of_nodup hnd).symm
    _ ≤ (Finset.range s.nodes.length).card := Finset.card_le_card hsub
    _ = s.nodes.length := Finset.card_range _

theorem dropWhile_head_of_key (s : SkipList K) (key : K) :
    ∀ L0 : List Nat, L0.Pairwise (keyRel s) →
      ∀ j ∈ L0, ∀ n : Node K, s.nodes[j]? = some n → n.key = key →
        (L0.dropWhile (keyLtb s key)).head? = some j := by
  intro L0
  induction L0 with
  | nil => intro _ j hj; simp at hj
  | cons a L2 ih =>
      intro hp j hj n hn hkey
      rw [List.pairwise_cons] at hp
      rcases List.mem_cons.mp hj with rfl | hj2
      · have hstop : keyLtb s key j = false := by
          unfold keyLtb
          rw [hn]
          simp [hkey]
        rw [List.dropWhile_cons_of_neg (by simp [hstop])]
        rfl
      · have hcont : keyLtb s key a = true := by
          obtain ⟨na, nb, ha, hb, hlt⟩ := hp.1 j hj2
          rw [hn] at hb
          injection hb with hb
          subst hb
          unfold keyLtb
          rw [ha]
          simp [hkey ▸ hlt]
        rw [List.dropWhile_cons_of_pos hcont]
        exact ih hp.2 j hj2 n hn hkey

/-- The position where the descent lands: its level-0 successor is the
head of the post-predecessor part of the chain. -/
theorem descend_fwd_zero (s : SkipList K) (key : K) (L0 : List Nat) (hwf : WF s L0)
    (pos : Option Nat)
    (hpos : pos = lastD none ((chainAt s L0 0).filter (keyLtb s key))) :
    fwd s pos 0 = (L0.dropWhile (keyLtb s key)).head? := by
  obtain ⟨hHead, hLvl, hIdx, hNode, hSort, hLinks⟩ := WF_parts s L0 hwf
  have hpair : L0.Pairwise (keyRel s) := chainSortedb_pairwise s L0 hSort
  have htf : L0.takeWhile (keyLtb s key) = L0.filter (keyLtb s key) :=
    takeWhile_eq_filter_of_mono (keyLtb s key) (keyLtb_mono s key) _ hpair
  have hlink0 : linksb s 0 none L0 = true := by
    have := hLinks 0 (by omega)
    rw [chainAt_zero] at this
    exact this
  have hsplit : L0.takeWhile (keyLtb s key) ++ L0.dropWhile (keyLtb s key) = L0 :=
    List.takeWhile_append_dropWhile _ _
  have hlk := linksb_append s 0 (L0.takeWhile (keyLtb s key))
    (L0.dropWhile (keyLtb s key)) none (by rw [hsplit]; exact hlink0)
  rw [htf] at hlk
  rw [chainAt_zero] at hpos
  rw [← hpos] at hlk
  exact linksb_fwd s 0 pos _ hlk

/-- The start of the descent is above every chain. -/
theorem descend_start (s : SkipList K) (key : K) (L0 : List Nat)
    (hnodes : ∀ i ∈ L0, ∃ n, s.nodes[i]? = some n ∧ n.forward.length = n.level + 1 ∧
      n.level ≤ s.level) :
    (none : Option Nat)
      = lastD none ((chainAt s L0 (s.level + 1)).filter (keyLtb s key)) := by
  rw [chainAt_gt_level s L0 hnodes (s.level + 1) (by omega)]
  rfl

/-- A present key is found by `search`, with its stored value. -/
theorem search_finds (s : SkipList K) (key : K) (L0 : List Nat) (hwf : WF s L0)
    (j : Nat) (n : Node K) (hj : j ∈ L0) (hn : s.nodes[j]? = some n)
    (hkey : n.key = key) : (search s key).1 = some n.value := by
  obtain ⟨hHead, hLvl, hIdx, hNode, hSort, hLinks⟩ := WF_parts s L0 hwf
  have hfuel : L0.length < s.nodes.length + 1 :=
    Nat.lt_succ_of_le (WF_length_le s L0 hwf)
  have hdc := (descend_correct s key L0 hwf (s.nodes.length + 1) hfuel s.level hLvl
    none (descend_start s key L0 hNode)).1
  unfold search
  cases hdesc : descend s key (s.nodes.length + 1) s.level none with
  | mk pos rest =>
      cases rest with
      | mk ups comps =>
          rw [hdesc] at hdc
          dsimp only at hdc ⊢
          have hfwd : fwd s pos 0 = (L0.dropWhile (keyLtb s key)).head? :=
            descend_fwd_zero s key L0 hwf pos hdc
          rw [dropWhile_head_of_key s key L0 (chainSortedb_pairwise s L0 hSort)
            j hj n hn hkey] at hfwd
          rw [hfwd]
          simp only [hn]
          rw [if_pos hkey]

/-- An absent key is missed by `search`. -/
theorem search_none (s : SkipList K) (key : K) (L0 : List Nat) (hwf : WF s L0)
    (habs : ∀ j ∈ L0, ∀ n : Node K, s.nodes[j]? = some n → n.key ≠ key) :
    (search s key).1 = none := by
  obtain ⟨hHead, hLvl, hIdx, hNode, hSort, hLinks⟩ := WF_parts s L0 hwf
  have hfuel : L0.length < s.nodes.length + 1 :=
    Nat.lt_succ_of_le (WF_length_le s L0 hwf)
  have hdc := (descend_correct s key L0 hwf (s.nodes.length + 1) hfuel s.level hLvl
    none (descend_start s key L0 hNode)).1
  unfold search
  cases hdesc : descend s key (s.nodes.length + 1) s.level none with
  | mk pos rest =>
      cases rest with
      | mk ups comps =>
          rw [hdesc] at hdc
          dsimp only at hdc ⊢
          have hfwd : fwd s pos 0 = (L0.dropWhile (keyLtb s key)).head? :=
            descend_fwd_zero s key L0 hwf pos hdc
          rw [hfwd]
          cases hB : (L0.dropWhile (keyLtb s key)).head? with
          | none => rfl
          | some j =>
              have hjmem : j ∈ L0 :=
                (List.dropWhile_sublist _).mem (List.mem_of_mem_head? hB)
              cases hnj : s.nodes[j]? with
              | none => simp only [hnj]
              | some nj =>
                  simp only [hnj]
                  rw [if_neg (habs j hjmem nj hnj)]

/-! ### State congruences and single-write characterization -/

/-- `search` returns its input state with only the metrics replaced. -/
theorem search_state (s : SkipList K) (key : K) :
    (search s key).2 = { s with metrics := (search s key).2.metrics } := by
  unfold search
  cases hdesc : descend s key (s.nodes.length + 1) s.level none with
  | mk pos rest =>
      cases rest with
      | mk ups comps =>
          dsimp only
          split
          · rfl
          · split
            · rfl
            · split <;> rfl

theorem list_all_congr {A : Type} (L : List A) (f g : A → Bool)
    (h : ∀ a ∈ L, f a = g a) : L.all f = L.all g := by
  induction L with
  | nil => rfl
  | cons a t ih =>
      simp only [List.all_cons]
      rw [h a (by simp), ih (fun b hb => h b (by simp [hb]))]

theorem fwd_ext (s1 s2 : SkipList K) (hH : s1.headForward = s2.headForward)
    (hF : ∀ i : Nat, (s1.nodes[i]?).map Node.forward = (s2.nodes[i]?).map Node.forward) :
    ∀ (p : Option Nat) (lv : Nat), fwd s1 p lv = fwd s2 p lv := by
  intro p lv
  cases p with
  | none => simp only [fwd, hH]
  | some i =>
      have hfi := hF i
      cases h1 : s1.nodes[i]? with
      | none =>
          cases h2 : s2.nodes[i]? with
          | none => simp only [fwd, h1, h2]
          | some n2 => rw [h1, h2] at hfi; exact absurd hfi (by simp)
      | some n1 =>
          cases h2 : s2.nodes[i]? with
          | none => rw [h1, h2] at hfi; exact absurd hfi (by simp)
          | some n2 =>
              rw [h1, h2] at hfi
              simp only [Option.map_some', Option.some.injEq] at hfi
              simp only [fwd, h1, h2, hfi]

theorem levelOf_ext (s1 s2 : SkipList K)
    (hL : ∀ i : Nat, (s1.nodes[i]?).map Node.level = (s2.nodes[i]?).map Node.level) :
    ∀ i : Nat, levelOf s1 i = levelOf s2 i := by
  intro i
  have hli := hL i
  cases h1 : s1.nodes[i]? with
  | none =>
      cases h2 : s2.nodes[i]? with
      | none => simp only [levelOf, h1, h2]
      | some n2 => rw [h1, h2] at hli; exact absurd hli (by simp)
  | some n1 =>
      cases h2 : s2.nodes[i]? with
      | none => rw [h1, h2] at hli; exact absurd hli (by simp)
      | some n2 =>
          rw [h1, h2] at hli
          simp only [Option.map_some', Option.some.injEq] at hli
          simp only [levelOf, h1, h2, hli]

theorem linksb_of_fwd_eq (s1 s2 : SkipList K) (lv : Nat)
    (hfwd : ∀ p : Option Nat, fwd s1 p lv = fwd s2 p lv) :
    ∀ (C : List Nat) (pos : Option Nat), linksb s1 lv pos C = linksb s2 lv pos C := by
  intro C
  induction C with
  | nil => intro pos; unfold linksb; rw [hfwd pos]
  | cons j C2 ih =>
      intro pos
      unfold linksb
      rw [hfwd pos, ih (some j)]

theorem chainSortedb_ext (s1 s2 : SkipList K)
    (hK : ∀ i : Nat, (s1.nodes[i]?).map Node.key = (s2.nodes[i]?).map Node.key) :
    ∀ C : List Nat, chainSortedb s1 C = chainSortedb s2 C := by
  intro C
  induction C with
  | nil => rfl
  | cons i C2 ih =>
      cases C2 with
      | nil => rfl
      | cons j rest =>
          unfold chainSortedb
          rw [ih]
          congr 1
          have hi := hK i
          have hj := hK j
          cases h1 : s1.nodes[i]? with
          | none =>
              cases h2 : s2.nodes[i]? with
              | none => simp only [h1, h2]
              | some a2 => rw [h1, h2] at hi; exact absurd hi (by simp)
          | some a1 =>
              cases h2 : s2.nodes[i]? with
              | none => rw [h1, h2] at hi; exact absurd hi (by simp)
              | some a2 =>
                  rw [h1, h2] at hi
                  simp only [Option.map_some', Option.some.injEq] at hi
                  cases h3 : s1.nodes[j]? with
                  | none =>
                      cases h4 : s2.nodes[j]? with
                      | none => simp only [h1, h2, h3, h4]
                      | some b2 => rw [h3, h4] at hj; exact absurd hj (by simp)
                  | some b1 =>
                      cases h4 : s2.nodes[j]? with
                      | none => rw [h3, h4] at hj; exact absurd hj (by simp)
                      | some b2 =>
                          rw [h3, h4] at hj
                          simp only [Option.map_some', Option.some.injEq] at hj
                          simp only [h1, h2, h3, h4, hi, hj]

/-- Converse of `WF_parts`: rebuild the well-formedness witness. -/
theorem WF_intro (s : SkipList K) (L0 : List Nat)
    (h1 : s.headForward.length = MAX_LEVEL + 1)
    (h2 : s.level ≤ MAX_LEVEL)
    (h3 : ∀ i ∈ L0, i < s.nodes.length)
    (h4 : ∀ i ∈ L0, ∃ n, s.nodes[i]? = some n ∧ n.forward.length = n.level + 1 ∧
      n.level ≤ s.level)
    (h5 : chainSortedb s L0 = true)
    (h6 : ∀ lv, lv ≤ MAX_LEVEL → linksb s lv none (chainAt s L0 lv) = true) :
    WF s L0 := by
  unfold WF WFb
  simp only [Bool.and_eq_true, beq_iff_eq, List.all_eq_true, decide_eq_true_eq]
  refine ⟨⟨⟨⟨⟨h1, h2⟩, h3⟩, ?_⟩, h5⟩, ?_⟩
  · intro i hi
    obtain ⟨n, hn, hfl, hnl⟩ := h4 i hi
    simp only [hn, Bool.and_eq_true, beq_iff_eq, decide_eq_true_eq]
    exact ⟨hfl, hnl⟩
  · intro lv hlv
    exact h6 lv (Nat.lt_succ_iff.mp (List.mem_range.mp hlv))

/-- `WFb` only inspects the head array, level, node count and the
key/forward/level fields of the nodes: well-formedness transfers along
pointwise field agreement. -/
theorem WF_transfer (s1 s2 : SkipList K) (hH : s1.headForward = s2.headForward)
    (hlen : s1.nodes.length = s2.nodes.length) (hlvl : s1.level = s2.level)
    (hK : ∀ i : Nat, (s1.nodes[i]?).map Node.key = (s2.nodes[i]?).map Node.key)
    (hF : ∀ i : Nat, (s1.nodes[i]?).map Node.forward = (s2.nodes[i]?).map Node.forward)
    (hL : ∀ i : Nat, (s1.nodes[i]?).map Node.level = (s2.nodes[i]?).map Node.level)
    (L0 : List Nat) (hwf : WF s1 L0) : WF s2 L0 := by
  obtain ⟨h1, h2, h3, h4, h5, h6⟩ := WF_parts s1 L0 hwf
  refine WF_intro s2 L0 (by rw [← hH]; exact h1) (hlvl ▸ h2)
    (fun i hi => hlen ▸ h3 i hi) ?_ ?_ ?_
  · intro i hi
    obtain ⟨n, hn, hfl, hnl⟩ := h4 i hi
    have hf := hF i
    have hl := hL i
    rw [hn] at hf hl
    cases h2' : s2.nodes[i]? with
    | none => rw [h2'] at hf; exact absurd hf (by simp)
    | some n2 =>
        rw [h2'] at hf hl
        simp only [Option.map_some', Option.some.injEq] at hf hl
        refine ⟨n2, rfl, ?_, ?_⟩
        · rw [← hf, ← hl]; exact hfl
        · rw [← hl, ← hlvl]; exact hnl
  · rw [chainSortedb_ext s2 s1 (fun i => (hK i).symm) L0]
    exact h5
  · intro lv hlv
    rw [linksb_of_fwd_eq s2 s1 lv
      (fun p => fwd_ext s2 s1 hH.symm (fun i => (hF i).symm) p lv)]
    have hch : chainAt s2 L0 lv = chainAt s1 L0 lv := by
      unfold chainAt
      refine List.filter_congr ?_
      intro i _
      rw [levelOf_ext s2 s1 (fun i => (hL i).symm) i]
    rw [hch]
    exact h6 lv hlv

/-- Raising the list level preserves well-formedness. -/
theorem WF_set_level (s : SkipList K) (L0 : List Nat) (hwf : WF s L0) (lvl2 : Nat)
    (hge : s.level ≤ lvl2) (hle : lvl2 ≤ MAX_LEVEL) :
    WF { s with level := lvl2 } L0 := by
  obtain ⟨h1, h2, h3, h4, h5, h6⟩ := WF_parts s L0 hwf
  refine WF_intro _ L0 h1 hle h3 ?_ ?_ ?_
  · intro i hi
    obtain ⟨n, hn, hfl, hnl⟩ := h4 i hi
    exact ⟨n, hn, hfl, le_trans hnl hge⟩
  · rw [chainSortedb_ext { s with level := lvl2 } s (fun i => rfl) L0]
    exact h5
  · intro lv hlv
    rw [linksb_of_fwd_eq { s with level := lvl2 } s lv
      (fun p => fwd_ext _ s rfl (fun i => rfl) p lv)]
    have hch : chainAt { s with level := lvl2 } L0 lv = chainAt s L0 lv := by
      unfold chainAt
      refine List.filter_congr ?_
      intro i _
      rw [levelOf_ext { s with level := lvl2 } s (fun i => rfl) i]
    rw [hch]
    exact h6 lv hlv

/-- Overwriting one node's value preserves well-formedness. -/
theorem WF_set_value (s : SkipList K) (L0 : List Nat) (hwf : WF s L0) (j : Nat)
    (n : Node K) (hn : s.nodes[j]? = some n) (v : Nat) :
    WF { s with nodes := s.nodes.set j { n with value := v } } L0 := by
  have hjlt : j < s.nodes.length := by
    by_contra hge
    rw [List.getElem?_eq_none (by omega)] at hn
    exact Option.noConfusion hn
  have hK : ∀ i : Nat,
      ((s.nodes.set j { n with value := v })[i]?).map Node.key = (s.nodes[i]?).map Node.key := by
    intro i
    by_cases hij : j = i
    · subst hij
      simp [List.getElem?_set_self, hjlt, hn]
    · simp [List.getElem?_set_ne hij]
  have hF : ∀ i : Nat,
      ((s.nodes.set j { n with value := v })[i]?).map Node.forward
        = (s.nodes[i]?).map Node.forward := by
    intro i
    by_cases hij : j = i
    · subst hij
      simp [List.getElem?_set_self, hjlt, hn]
    · simp [List.getElem?_set_ne hij]
  have hL : ∀ i : Nat,
      ((s.nodes.set j { n with value := v })[i]?).map Node.level
        = (s.nodes[i]?).map Node.level := by
    intro i
    by_cases hij : j = i
    · subst hij
      simp [List.getElem?_set_self, hjlt, hn]
    · simp [List.getElem?_set_ne hij]
  exact WF_transfer s { s with nodes := s.nodes.set j { n with value := v } } rfl
    (by simp) rfl (fun i => (hK i).symm) (fun i => (hF i).symm) (fun i => (hL i).symm) L0 hwf

/-! ### `setFwd` characterization -/

theorem setFwd_headForward_length (s : SkipList K) (pos : Option Nat) (lv : Nat)
    (tg : Option Nat) :
    (setFwd s pos lv tg).headForward.length = s.headForward.length := by
  cases pos with
  | none => simp [setFwd]
  | some p =>
      unfold setFwd
      dsimp only
      cases hnp : s.nodes[p]? with
      | none => rfl
      | some np => rfl

theorem setFwd_nodes_length (s : SkipList K) (pos : Option Nat) (lv : Nat)
    (tg : Option Nat) :
    (setFwd s pos lv tg).nodes.length = s.nodes.length := by
  cases pos with
  | none => rfl
  | some p =>
      unfold setFwd
      dsimp only
      cases hnp : s.nodes[p]? with
      | none => rfl
      | some np => simp

/-- `setFwd` leaves every node's key, value, level and forward-array
length untouched. -/
theorem setFwd_node_fields (s : SkipList K) (pos : Option Nat) (lv : Nat)
    (tg : Option Nat) (i : Nat) :
    (((setFwd s pos lv tg).nodes[i]?).map
        (fun n => (n.key, n.value, n.level, n.forward.length)))
      = ((s.nodes[i]?).map (fun n => (n.key, n.value, n.level, n.forward.length))) := by
  cases pos with
  | none => rfl
  | some p =>
      unfold setFwd
      dsimp only
      cases hnp : s.nodes[p]? with
      | none => rfl
      | some np =>
          dsimp only
          have hplt : p < s.nodes.length := by
            by_contra hge
            rw [List.getElem?_eq_none (by omega)] at hnp
            exact Option.noConfusion hnp
          by_cases hip : p = i
          · subst hip
            simp [List.getElem?_set_self, hplt, hnp]
          · simp [List.getElem?_set_ne hip]

/-- The pointer update performed by `setFwd`, as a read
characterization: only the one slot `(pos, lv)` changes. -/
theorem fwd_setFwd (s : SkipList K) (pos : Option Nat) (lv : Nat) (tg : Option Nat)
    (hin : match pos with
           | none => lv < s.headForward.length
           | some p => ∃ n, s.nodes[p]? = some n ∧ lv < n.forward.length) :
    ∀ (q : Option Nat) (lv' : Nat),
      fwd (setFwd s pos lv tg) q lv'
        = if q = pos ∧ lv' = lv then tg else fwd s q lv' := by
  intro q lv'
  cases pos with
  | none =>
      cases q with
      | none =>
          show (s.headForward.set lv tg).getD lv' none = _
          by_cases hl : lv' = lv
          · subst hl
            rw [if_pos ⟨rfl, rfl⟩, getD_set_self _ _ _ _ hin]
          · rw [if_neg (fun hc => hl hc.2), getD_set_ne _ _ _ _ _ (fun he => hl he.symm)]
            rfl
      | some i =>
          rw [if_neg (fun hc => Option.noConfusion hc.1)]
          rfl
  | some p =>
      obtain ⟨np, hnp, hlt⟩ := hin
      unfold setFwd
      dsimp only
      rw [hnp]
      dsimp only
      cases q with
      | none =>
          rw [if_neg (fun hc => Option.noConfusion hc.1)]
          rfl
      | some i =>
          have hplt : p < s.nodes.length := by
            by_contra hge
            rw [List.getElem?_eq_none (by omega)] at hnp
            exact Option.noConfusion hnp
          by_cases hip : i = p
          · subst hip
            show (match (s.nodes.set i { np with forward := np.forward.set lv tg })[i]? with
                  | none => none
                  | some n => n.forward.getD lv' none) = _
            rw [List.getElem?_set_self hplt]
            dsimp only
            by_cases hl : lv' = lv
            · subst hl
              rw [if_pos ⟨rfl, rfl⟩, getD_set_self _ _ _ _ hlt]
            · rw [if_neg (fun hc => hl hc.2),
                getD_set_ne _ _ _ _ _ (fun he => hl he.symm)]
              show _ = fwd s (some i) lv'
              unfold fwd
              dsimp only
              rw [hnp]
          · show (match (s.nodes.set p { np with forward := np.forward.set lv tg })[i]? with
                  | none => none
                  | some n => n.forward.getD lv' none) = _
            rw [List.getElem?_set_ne (fun he => hip he.symm),
              if_neg (fun hc => hip (Option.some.inj hc.1))]
            rfl

/-- Extract a node through a field-quad preservation fact. -/
theorem node_quad_extract (s s' : SkipList K) (i : Nat)
    (h : ((s'.nodes[i]?).map (fun n => (n.key, n.value, n.level, n.forward.length)))
      = ((s.nodes[i]?).map (fun n => (n.key, n.value, n.level, n.forward.length))))
    (n : Node K) (hn : s.nodes[i]? = some n) :
    ∃ n', s'.nodes[i]? = some n' ∧ n'.key = n.key ∧ n'.value = n.value ∧
      n'.level = n.level ∧ n'.forward.length = n.forward.length := by
  rw [hn] at h
  cases h' : s'.nodes[i]? with
  | none => rw [h'] at h; exact absurd h (by simp)
  | some n' =>
      rw [h'] at h
      simp only [Option.map_some', Option.some.injEq, Prod.mk.injEq] at h
      exact ⟨n', rfl, h.1, h.2.1, h.2.2.1, h.2.2.2⟩

/-- The splice loop of `insert`, characterized: after processing
levels `0..m-1`, every node keeps its key, value, level and forward
length; the `(update[lv], lv)` slots now target the new node, whose
own level-`lv` slots took over the old targets; all other pointers are
unchanged. -/
theorem splice_foldl_spec (upd : List (Option Nat)) (nidx : Nat) (s3 : SkipList K)
    (L : Nat)
    (hvalid : ∀ lv, lv ≤ L → match upd.getD lv none with
        | none => lv < s3.headForward.length
        | some p => ∃ n, s3.nodes[p]? = some n ∧ lv < n.forward.length)
    (hnn : ∃ nn, s3.nodes[nidx]? = some nn ∧ L < nn.forward.length)
    (hne : ∀ lv, lv ≤ L → upd.getD lv none ≠ some nidx) :
    ∀ m, m ≤ L + 1 →
      (∀ i : Nat, ((((List.range m).foldl (spliceLevel upd nidx) s3).nodes[i]?).map
            (fun n => (n.key, n.value, n.level, n.forward.length)))
          = ((s3.nodes[i]?).map (fun n => (n.key, n.value, n.level, n.forward.length)))) ∧
      ((List.range m).foldl (spliceLevel upd nidx) s3).headForward.length
        = s3.headForward.length ∧
      ((List.range m).foldl (spliceLevel upd nidx) s3).nodes.length = s3.nodes.length ∧
      ((List.range m).foldl (spliceLevel upd nidx) s3).level = s3.level ∧
      ∀ (q : Option Nat) (lv : Nat),
        fwd ((List.range m).foldl (spliceLevel upd nidx) s3) q lv
          = if lv < m ∧ q = upd.getD lv none then some nidx
            else if lv < m ∧ q = some nidx then fwd s3 (upd.getD lv none) lv
            else fwd s3 q lv := by
  intro m
  induction m with
  | zero =>
      intro _
      refine ⟨fun i => rfl, rfl, rfl, rfl, ?_⟩
      intro q lv
      rw [if_neg (fun hc => Nat.not_lt_zero lv hc.1),
        if_neg (fun hc => Nat.not_lt_zero lv hc.1)]
      rfl
  | succ m ih =>
      intro hm
      obtain ⟨ihf, ihh, ihlen, ihlvl, ihfwd⟩ := ih (le_trans (Nat.le_succ m) hm)
      have hmL : m ≤ L := Nat.lt_succ_iff.mp hm
      have hstep : (List.range (m + 1)).foldl (spliceLevel upd nidx) s3
          = spliceLevel upd nidx ((List.range m).foldl (spliceLevel upd nidx) s3) m := by
        rw [List.range_succ, List.foldl_append]
        rfl
      rw [hstep]
      revert ihf ihh ihlen ihlvl ihfwd
      generalize (List.range m).foldl (spliceLevel upd nidx) s3 = sm
      intro ihf ihh ihlen ihlvl ihfwd
      obtain ⟨nn, hnn3, hnnL⟩ := hnn
      obtain ⟨nn', hnn', _, _, _, hnn'len⟩ := node_quad_extract s3 sm nidx (ihf nidx) nn hnn3
      have hin1 : ∃ n, sm.nodes[nidx]? = some n ∧ m < n.forward.length :=
        ⟨nn', hnn', by rw [hnn'len]; omega⟩
      have hfwd_upos : fwd sm (upd.getD m none) m = fwd s3 (upd.getD m none) m := by
        rw [ihfwd]
        rw [if_neg (fun hc => lt_irrefl m hc.1), if_neg (fun hc => lt_irrefl m hc.1)]
      have hin2 : match upd.getD m none with
          | none => m < (setFwd sm (some nidx) m (fwd sm (upd.getD m none) m)).headForward.length
          | some p => ∃ n, (setFwd sm (some nidx) m
                (fwd sm (upd.getD m none) m)).nodes[p]? = some n ∧ m < n.forward.length := by
        have hv := hvalid m hmL
        cases hup : upd.getD m none with
        | none =>
            rw [hup] at hv
            rw [setFwd_headForward_length, ihh]
            exact hv
        | some p =>
            rw [hup] at hv
            obtain ⟨n3, hn3, hlt3⟩ := hv
            obtain ⟨n', hn', _, _, _, hlen'⟩ := node_quad_extract s3
              (setFwd sm (some nidx) m (fwd sm (some p) m)) p
              ((setFwd_node_fields sm (some nidx) m _ p).trans (ihf p)) n3 hn3
            exact ⟨n', hn', by rw [hlen']; exact hlt3⟩
      show (∀ i : Nat, _) ∧ _
      unfold spliceLevel
      dsimp only
      refine ⟨?_, ?_, ?_, ?_, ?_⟩
      · intro i
        exact ((setFwd_node_fields _ _ _ _ i).trans
          ((setFwd_node_fields _ _ _ _ i).trans (ihf i)))
      · rw [setFwd_headForward_length, setFwd_headForward_length, ihh]
      · rw [setFwd_nodes_length, setFwd_nodes_length, ihlen]
      · rw [setFwd_level, setFwd_level, ihlvl]
      · intro q lv
        rw [fwd_setFwd _ (upd.getD m none) m (some nidx) hin2 q lv,
          fwd_setFwd sm (some nidx) m _ hin1 q lv, hfwd_upos, ihfwd q lv]
        by_cases h1 : lv = m
        · subst h1
          by_cases h2 : q = upd.getD lv none
          · rw [if_pos ⟨h2, rfl⟩, if_pos ⟨Nat.lt_succ_self lv, h2⟩]
          · rw [if_neg (fun hc => h2 hc.1)]
            by_cases h3 : q = some nidx
            · rw [if_pos ⟨h3, rfl⟩, if_neg (fun hc => h2 hc.2),
                if_pos ⟨Nat.lt_succ_self lv, h3⟩]
            · rw [if_neg (fun hc => h3 hc.1), if_neg (fun hc => lt_irrefl lv hc.1),
                if_neg (fun hc => lt_irrefl lv hc.1), if_neg (fun hc => h2 hc.2),
                if_neg (fun hc => h3 hc.2)]
        · rw [if_neg (fun hc => h1 hc.2), if_neg (fun hc => h1 hc.2)]
          by_cases h2 : lv < m ∧ q = upd.getD lv none
          · rw [if_pos h2, if_pos ⟨by omega, h2.2⟩]
          · rw [if_neg h2]
            by_cases h3 : lv < m ∧ q = some nidx
            · rw [if_pos h3, if_neg (fun hc => h2 ⟨h3.1, hc.2⟩),
                if_pos ⟨by omega, h3.2⟩]
            · rw [if_neg h3, if_neg (fun hc => h2 ⟨by omega, hc.2⟩),
                if_neg (fun hc => h3 ⟨by omega, hc.2⟩)]

/-! ### Chain splitting and congruence helpers for `insert` -/

theorem dropWhile_eq_filter_not {α : Type} {R : α → α → Prop} (p : α → Bool)
    (hmono : ∀ a b, R a b → p b = true → p a = true) :
    ∀ C : List α, C.Pairwise R → C.dropWhile p = C.filter (fun a => ! p a) := by
  intro C
  induction C with
  | nil => intro _; rfl
  | cons c C2 ih =>
      intro hp
      rw [List.pairwise_cons] at hp
      cases hc : p c with
      | true =>
          rw [List.dropWhile_cons_of_pos hc, List.filter_cons_of_neg (by simp [hc]),
            ih hp.2]
      | false =>
          rw [List.dropWhile_cons_of_neg (by simp [hc]),
            List.filter_cons_of_pos (by simp [hc])]
          have hall : C2.filter (fun a => ! p a) = C2 := by
            rw [List.filter_eq_self]
            intro b hb
            cases hpb : p b with
            | false => simp
            | true =>
                have : p c = true := hmono c b (hp.1 b hb) hpb
                rw [hc] at this
                exact Bool.noConfusion this
          rw [hall]

theorem chainSortedb_of_chain' (s : SkipList K) :
    ∀ C : List Nat, List.Chain' (keyRel s) C → chainSortedb s C = true := by
  intro C
  induction C with
  | nil => intro _; rfl
  | cons i C2 ih =>
      intro h
      cases C2 with
      | nil => rfl
      | cons j rest =>
          rw [List.chain'_cons] at h
          obtain ⟨a, b, ha, hb, hab⟩ := h.1
          rw [chainSortedb]
          simp only [Bool.and_eq_true]
          refine ⟨?_, ih h.2⟩
          rw [ha, hb]
          simp [hab]

/-- Appending a node whose forward slots are all null does not change
any pointer read. -/
theorem fwd_append_none (s : SkipList K) (nw : Node K)
    (hnw : ∀ lv : Nat, nw.forward.getD lv none = none) :
    ∀ (q : Option Nat) (lv : Nat),
      fwd { s with nodes := s.nodes ++ [nw] } q lv = fwd s q lv := by
  intro q lv
  cases q with
  | none => rfl
  | some i =>
      unfold fwd
      dsimp only
      rcases Nat.lt_trichotomy i s.nodes.length with hlt | heq | hgt
      · rw [List.getElem?_append_left hlt]
      · subst heq
        rw [List.getElem?_concat_length, List.getElem?_eq_none (le_refl _)]
        exact hnw lv
      · have h1 : (s.nodes ++ [nw])[i]? = none :=
          List.getElem?_eq_none (by rw [List.length_append]; simp; omega)
        have h2 : s.nodes[i]? = none := List.getElem?_eq_none (by omega)
        rw [h1, h2]

theorem getElem?_append_of_ne_length (s : SkipList K) (nw : Node K) (i : Nat)
    (h : i ≠ s.nodes.length) :
    (s.nodes ++ [nw])[i]? = s.nodes[i]? := by
  rcases Nat.lt_or_ge i s.nodes.length with hlt | hge
  · rw [List.getElem?_append_left hlt]
  · rw [List.getElem?_eq_none (by simp; omega), List.getElem?_eq_none (by omega)]

theorem getLast?_some_mem {A : Type} (l : List A) (j : A) (h : l.getLast? = some j) :
    j ∈ l := by
  have hj : j ∈ l.getLast? := by rw [Option.mem_def]; exact h
  obtain ⟨hn, heq⟩ := List.mem_getLast?_eq_getLast hj
  rw [heq]
  exact List.getLast_mem hn

theorem lastD_some_mem (x : Nat) :
    ∀ A : List Nat, ∃ c, lastD (some x) A = some c ∧ (c = x ∨ c ∈ A) := by
  intro A
  unfold lastD
  cases h : A.getLast? with
  | none => exact ⟨x, rfl, Or.inl rfl⟩
  | some j => exact ⟨j, rfl, Or.inr (getLast?_some_mem A j h)⟩

theorem linksb_congr_positions (s s' : SkipList K) (lv : Nat) :
    ∀ (C : List Nat) (pos : Option Nat),
      fwd s' pos lv = fwd s pos lv →
      (∀ c ∈ C, fwd s' (some c) lv = fwd s (some c) lv) →
      linksb s' lv pos C = linksb s lv pos C := by
  intro C
  induction C with
  | nil => intro pos hpos _; unfold linksb; rw [hpos]
  | cons j C2 ih =>
      intro pos hpos hC
      unfold linksb
      rw [hpos, ih (some j) (hC j (by simp)) (fun c hc => hC c (by simp [hc]))]

/-- Splicing one node between the predecessor-prefix `A` and the
suffix `D` of a linked chain yields a linked chain through the new
node. -/
theorem splice_links (s2 s4 : SkipList K) (lv nidx : Nat) (D : List Nat) :
    ∀ (A : List Nat) (pos : Option Nat),
      linksb s2 lv pos (A ++ D) = true →
      fwd s4 (lastD pos A) lv = some nidx →
      fwd s4 (some nidx) lv = fwd s2 (lastD pos A) lv →
      (∀ q : Option Nat, q ≠ lastD pos A → q ≠ some nidx → fwd s4 q lv = fwd s2 q lv) →
      (∀ c ∈ A ++ D, pos ≠ some c) →
      (∀ c ∈ A ++ D, c ≠ nidx) →
      (A ++ D).Nodup →
      pos ≠ some nidx →
      linksb s4 lv pos (A ++ nidx :: D) = true := by
  intro A
  induction A with
  | nil =>
      intro pos hold hnew1 hnew2 hagree hposA hne hnodup hposn
      rw [List.nil_append] at hold hposA hne hnodup ⊢
      rw [linksb_cons_iff]
      refine ⟨hnew1, ?_⟩
      cases D with
      | nil =>
          rw [linksb_nil_iff, hnew2]
          exact (linksb_nil_iff s2 lv pos).mp hold
      | cons d D2 =>
          rw [linksb_cons_iff] at hold ⊢
          refine ⟨by rw [hnew2]; exact hold.1, ?_⟩
          rw [linksb_congr_positions s2 s4 lv D2 (some d)
            (hagree (some d) (fun he => hposA d (by simp) he.symm)
              (by simp [hne d (by simp)]))
            (fun c hc => hagree (some c)
              (fun he => hposA c (by simp [hc]) he.symm)
              (by simp [hne c (by simp [hc])]))]
          exact hold.2
  | cons a A2 ih =>
      intro pos hold hnew1 hnew2 hagree hposA hne hnodup hposn
      rw [List.cons_append, linksb_cons_iff] at hold
      rw [List.cons_append, linksb_cons_iff]
      have hlast : lastD pos (a :: A2) = lastD (some a) A2 := lastD_cons pos a A2
      have hposlast : pos ≠ lastD pos (a :: A2) := by
        rw [hlast]
        obtain ⟨c, hc, hcmem⟩ := lastD_some_mem a A2
        rw [hc]
        rcases hcmem with rfl | hcm
        · exact hposA c (by simp)
        · exact hposA c (by simp [hcm])
      refine ⟨?_, ?_⟩
      · rw [hagree pos (fun he => hposlast he) hposn]
        exact hold.1
      · have hanidx : a ≠ nidx := hne a (by simp)
        rw [List.cons_append] at hnodup
        rw [List.nodup_cons] at hnodup
        refine ih (some a) hold.2 (by rw [← hlast]; exact hnew1)
          (by rw [← hlast]; exact hnew2)
          (fun q hq1 hq2 => hagree q (by rw [hlast]; exact hq1) hq2)
          (fun c hc he => hnodup.1 (by injection he with he; subst he; exact hc))
          (fun c hc => hne c (by simp [hc]))
          hnodup.2
          (fun he => hanidx (Option.some.inj he))
  
/-! ### Insert correctness -/

/-- `insert` on a present key takes the value-overwrite path, and a
subsequent `search` reads back the new value. -/
theorem insert_search_present (s : SkipList K) (key : K) (v L : Nat) (L0 : List Nat)
    (hwf : WF s L0) (hL : L ≤ MAX_LEVEL) (j : Nat) (n : Node K)
    (hj : j ∈ L0) (hn : s.nodes[j]? = some n) (hkey : n.key = key) :
    (search (insert s key v L) key).1 = some v := by
  have hfound := search_finds s key L0 hwf j n hj hn hkey
  have hstate := search_state s key
  unfold insert
  cases hsr : search s key with
  | mk found s1 =>
      rw [hsr] at hfound hstate
      dsimp only at hfound hstate ⊢
      subst hfound
      have hnodes1 : s1.nodes = s.nodes := by rw [hstate]
      have hlevel1 : s1.level = s.level := by rw [hstate]
      have hhead1 : s1.headForward = s.headForward := by rw [hstate]
      have hwf1 : WF s1 L0 := WF_transfer s s1 hhead1.symm (by rw [hnodes1])
        hlevel1.symm (fun i => by rw [hnodes1]) (fun i => by rw [hnodes1])
        (fun i => by rw [hnodes1]) L0 hwf
      obtain ⟨hH0, hLvl0, hIdx0, hNode0, hSort0, hLinks0⟩ := WF_parts s L0 hwf
      have hcore : ∀ s2 : SkipList K, WF s2 L0 → s2.nodes = s.nodes →
          (search
            (match
              (match fwd s2 (((descend s2 key (s2.nodes.length + 1) s2.level
                    none).2.1).getD 0 none) 0 with
                | none => none
                | some j2 =>
                    match s2.nodes[j2]? with
                    | none => none
                    | some n2 =>
                        if n2.key = key then
                          some { s2 with
                            nodes := s2.nodes.set j2 { n2 with value := v }
                            metrics := { s2.metrics with
                              total_insertions := s2.metrics.total_insertions + 1 } }
                        else none) with
              | some s3 => s3
              | none =>
                  update_metrics { (List.range (Nat.min L s2.level + 1)).foldl
                      (spliceLevel ((descend s2 key (s2.nodes.length + 1) s2.level
                        none).2.1) s2.nodes.length)
                      { s2 with nodes := s2.nodes ++
                        [{ key := key, value := v, level := L,
                           forward := List.replicate (L + 1) none }] } with
                    size := if (some n.value).isNone = true then
                        ((List.range (Nat.min L s2.level + 1)).foldl
                          (spliceLevel ((descend s2 key (s2.nodes.length + 1)
                            s2.level none).2.1) s2.nodes.length)
                          { s2 with nodes := s2.nodes ++
                            [{ key := key, value := v, level := L,
                               forward := List.replicate (L + 1) none }] }).size + 1
                      else ((List.range (Nat.min L s2.level + 1)).foldl
                          (spliceLevel ((descend s2 key (s2.nodes.length + 1)
                            s2.level none).2.1) s2.nodes.length)
                          { s2 with nodes := s2.nodes ++
                            [{ key := key, value := v, level := L,
                               forward := List.replicate (L + 1) none }] }).size
                    metrics := { ((List.range (Nat.min L s2.level + 1)).foldl
                          (spliceLevel ((descend s2 key (s2.nodes.length + 1)
                            s2.level none).2.1) s2.nodes.length)
                          { s2 with nodes := s2.nodes ++
                            [{ key := key, value := v, level := L,
                               forward := List.replicate (L + 1) none }] }).metrics with
                      total_insertions := ((List.range (Nat.min L s2.level + 1)).foldl
                          (spliceLevel ((descend s2 key (s2.nodes.length + 1)
                            s2.level none).2.1) s2.nodes.length)
                          { s2 with nodes := s2.nodes ++
                            [{ key := key, value := v, level := L,
                               forward := List.replicate (L + 1) none }] }).metrics.total_insertions
                          + 1
                      insertion_cost := L } }) key).1 = some v := by
        intro s2 hwf2 hs2n
        obtain ⟨hH2, hLvl2, hIdx2, hNode2, hSort2, hLinks2⟩ := WF_parts s2 L0 hwf2
        have hn2 : s2.nodes[j]? = some n := by rw [hs2n]; exact hn
        have hfuel : L0.length < s2.nodes.length + 1 :=
          Nat.lt_succ_of_le (WF_length_le s2 L0 hwf2)
        have hdc := (descend_correct s2 key L0 hwf2 (s2.nodes.length + 1) hfuel
          s2.level hLvl2 none (descend_start s2 key L0 hNode2)).2 0 (Nat.zero_le _)
        have hfz := descend_fwd_zero s2 key L0 hwf2 _ hdc
        rw [dropWhile_head_of_key s2 key L0 (chainSortedb_pairwise s2 L0 hSort2)
          j hj n hn2 hkey] at hfz
        rw [hfz]
        dsimp only
        rw [hn2]
        dsimp only
        rw [if_pos hkey]
        have hjlt : j < s2.nodes.length := hs2n ▸ hIdx0 j hj
        have hwfR : WF { s2 with
            nodes := s2.nodes.set j { n with value := v }
            metrics := { s2.metrics with
              total_insertions := s2.metrics.total_insertions + 1 } } L0 := by
          refine WF_transfer { s2 with nodes := s2.nodes.set j { n with value := v } }
            _ ?_ ?_ ?_ ?_ ?_ ?_ L0 (WF_set_value s2 L0 hwf2 j n hn2 v)
          · rfl
          · rfl
          · rfl
          · intro i; rfl
          · intro i; rfl
          · intro i; rfl
        have hlook : ({ s2 with
            nodes := s2.nodes.set j { n with value := v }
            metrics := { s2.metrics with
              total_insertions := s2.metrics.total_insertions + 1 } } :
              SkipList K).nodes[j]? = some { n with value := v } := by
          show (s2.nodes.set j { n with value := v })[j]? = _
          rw [List.getElem?_set_self hjlt]
        exact search_finds _ key L0 hwfR j { n with value := v } hj hlook hkey
      by_cases hgt : L > s1.level
      · rw [if_pos hgt]
        exact hcore { s1 with level := L } (WF_set_level s1 L0 hwf1 L
            (by rw [hlevel1]; omega) hL) hnodes1
      · rw [if_neg hgt]
        exact hcore s1 hwf1 hnodes1

theorem dropWhile_head_not {A : Type} (p : A → Bool) :
    ∀ (l : List A) (y : A), (l.dropWhile p).head? = some y → p y = false := by
  intro l
  induction l with
  | nil => intro y hy; simp at hy
  | cons a l2 ih =>
      intro y hy
      cases ha : p a with
      | true =>
          rw [List.dropWhile_cons_of_pos ha] at hy
          exact ih y hy
      | false =>
          rw [List.dropWhile_cons_of_neg (by simp [ha])] at hy
          injection hy with hy
          subst hy
          exact ha

theorem replicate_getD_none (m i : Nat) :
    (List.replicate m (none : Option Nat)).getD i none = none := by
  rcases Nat.lt_or_ge i m with hlt | hge
  · rw [List.getD_eq_getElem?_getD, List.getElem?_replicate]
    simp [hlt]
  · rw [List.getD_eq_getElem?_getD,
      List.getElem?_eq_none (by simpa using hge)]
    rfl

theorem lastD_none_some (A : List Nat) (p : Nat) (h : lastD none A = some p) :
    A.getLast? = some p := by
  unfold lastD at h
  cases hA : A.getLast? with
  | none => rw [hA] at h; exact Option.noConfusion h
  | some j => rw [hA] at h; dsimp only at h; exact h

theorem filter_filter_comm {A : Type} (p q : A → Bool) (l : List A) :
    (l.filter p).filter q = (l.filter q).filter p := by
  rw [List.filter_filter, List.filter_filter]
  refine List.filter_congr ?_
  intro a _
  rw [Bool.and_comm]

/-- The splice phase of `insert` on an absent key: the fold result is
well formed on the chain with the new index spliced in, and carries the
new node. -/
theorem insert_new_core (s2 : SkipList K) (key : K) (v L : Nat) (L0 : List Nat)
    (hwf2 : WF s2 L0) (hLle : L ≤ s2.level)
    (habs2 : ∀ j ∈ L0, ∀ n : Node K, s2.nodes[j]? = some n → n.key ≠ key)
    (ups : List (Option Nat))
    (hups : ∀ m, m ≤ s2.level →
      ups.getD m none = lastD none ((chainAt s2 L0 m).filter (keyLtb s2 key)))
    (s4 : SkipList K)
    (hs4 : s4 = (List.range (Nat.min L s2.level + 1)).foldl
        (spliceLevel ups s2.nodes.length)
        { s2 with nodes := s2.nodes ++
          [{ key := key, value := v, level := L,
             forward := List.replicate (L + 1) none }] }) :
    WF s4 (L0.takeWhile (keyLtb s2 key) ++ s2.nodes.length ::
      L0.dropWhile (keyLtb s2 key)) ∧
    ∃ n4, s4.nodes[s2.nodes.length]? = some n4 ∧ n4.key = key ∧ n4.value = v := by
  obtain ⟨hH2, hLvl2, hIdx2, hNode2, hSort2, hLinks2⟩ := WF_parts s2 L0 hwf2
  have hpair2 : L0.Pairwise (keyRel s2) := chainSortedb_pairwise s2 L0 hSort2
  have hnodup2 : L0.Nodup := WF_nodup s2 L0 hwf2
  have hmin : Nat.min L s2.level = L := Nat.min_eq_left hLle
  rw [hmin] at hs4
  have hs3nidx :
      (s2.nodes ++
          [({ key := key, value := v, level := L,
              forward := List.replicate (L + 1) none } : Node K)])[s2.nodes.length]? =
        some { key := key, value := v, level := L,
               forward := List.replicate (L + 1) none } :=
    List.getElem?_concat_length _ _
  have hmemlt : ∀ p ∈ L0, p ≠ s2.nodes.length := by
    intro p hp
    have := hIdx2 p hp
    omega
  have hchmem : ∀ lv (p : Nat), p ∈ chainAt s2 L0 lv → p ∈ L0 ∧ lv ≤ levelOf s2 p := by
    intro lv p hp
    unfold chainAt at hp
    have h1 := List.mem_of_mem_filter hp
    have h2 := List.of_mem_filter hp
    simp only [decide_eq_true_eq] at h2
    exact ⟨h1, h2⟩
  have hupsmem : ∀ lv, lv ≤ L → ∀ p, ups.getD lv none = some p →
      p ∈ L0 ∧ lv ≤ levelOf s2 p ∧ keyLtb s2 key p = true := by
    intro lv hlv p hp
    have hl := hups lv (le_trans hlv hLle)
    rw [hp] at hl
    have hgl := lastD_none_some _ p hl.symm
    have hpmem := getLast?_some_mem _ p hgl
    have hpc := List.mem_of_mem_filter hpmem
    have hpP := List.of_mem_filter hpmem
    obtain ⟨h1, h2⟩ := hchmem lv p hpc
    exact ⟨h1, h2, hpP⟩
  have hvalid : ∀ lv, lv ≤ L → match ups.getD lv none with
      | none => lv < ({ s2 with nodes := s2.nodes ++
          [{ key := key, value := v, level := L,
             forward := List.replicate (L + 1) none }] } : SkipList K).headForward.length
      | some p => ∃ n, ({ s2 with nodes := s2.nodes ++
          [{ key := key, value := v, level := L,
             forward := List.replicate (L + 1) none }] } : SkipList K).nodes[p]? = some n ∧
          lv < n.forward.length := by
    intro lv hlv
    cases hu : ups.getD lv none with
    | none =>
        show lv < s2.headForward.length
        rw [hH2]
        have : lv ≤ s2.level := le_trans hlv hLle
        omega
    | some p =>
        obtain ⟨hpL0, hplvl, _⟩ := hupsmem lv hlv p hu
        obtain ⟨np, hnp, hfl, hnl⟩ := hNode2 p hpL0
        have hlev : levelOf s2 p = np.level := by unfold levelOf; rw [hnp]
        refine ⟨np, ?_, ?_⟩
        · show (s2.nodes ++ _)[p]? = some np
          rw [List.getElem?_append_left (hIdx2 p hpL0)]
          exact hnp
        · rw [hfl, ← hlev]
          omega
  have hnnEx : ∃ nn, ({ s2 with nodes := s2.nodes ++
      [{ key := key, value := v, level := L,
         forward := List.replicate (L + 1) none }] } : SkipList K).nodes[s2.nodes.length]?
      = some nn ∧ L < nn.forward.length := by
    refine ⟨_, hs3nidx, ?_⟩
    simp
  have hneups : ∀ lv, lv ≤ L → ups.getD lv none ≠ some s2.nodes.length := by
    intro lv hlv hcon
    obtain ⟨hm, _, _⟩ := hupsmem lv hlv _ hcon
    exact hmemlt _ hm rfl
  have hspec := splice_foldl_spec ups s2.nodes.length _ L hvalid hnnEx hneups
    (L + 1) (le_refl _)
  rw [← hs4] at hspec
  obtain ⟨hFields, hHead4, hLen4, hLvl4, hFwd4⟩ := hspec
  have hfwd_app : ∀ (q : Option Nat) (lv : Nat),
      fwd { s2 with nodes := s2.nodes ++
        [{ key := key, value := v, level := L,
           forward := List.replicate (L + 1) none }] } q lv = fwd s2 q lv :=
    fwd_append_none s2 _ (fun lv => replicate_getD_none (L + 1) lv)
  have hquad_old : ∀ i : Nat, i ≠ s2.nodes.length →
      ((s4.nodes[i]?).map (fun n => (n.key, n.value, n.level, n.forward.length)))
        = ((s2.nodes[i]?).map (fun n => (n.key, n.value, n.level, n.forward.length))) := by
    intro i hi
    exact (hFields i).trans
      (congrArg (Option.map _) (getElem?_append_of_ne_length s2 _ i hi))
  have hquad_nidx : ((s4.nodes[s2.nodes.length]?).map
      (fun n => (n.key, n.value, n.level, n.forward.length)))
      = some (key, v, L, L + 1) := by
    refine (hFields s2.nodes.length).trans ?_
    show ((s2.nodes ++ _)[s2.nodes.length]?).map _ = _
    rw [hs3nidx]
    simp
  obtain ⟨n4, hn4, hn4k, hn4v, hn4l, hn4fl⟩ : ∃ n4,
      s4.nodes[s2.nodes.length]? = some n4 ∧ n4.key = key ∧ n4.value = v ∧
      n4.level = L ∧ n4.forward.length = L + 1 := by
    cases h : s4.nodes[s2.nodes.length]? with
    | none => rw [h] at hquad_nidx; exact absurd hquad_nidx (by simp)
    | some x =>
        rw [h] at hquad_nidx
        simp only [Option.map_some', Option.some.injEq, Prod.mk.injEq] at hquad_nidx
        exact ⟨x, rfl, hquad_nidx.1, hquad_nidx.2.1, hquad_nidx.2.2.1,
          hquad_nidx.2.2.2⟩
  have hold : ∀ i ∈ L0, ∃ ni n4i, s2.nodes[i]? = some ni ∧ s4.nodes[i]? = some n4i ∧
      n4i.key = ni.key ∧ n4i.value = ni.value ∧ n4i.level = ni.level ∧
      n4i.forward.length = ni.forward.length := by
    intro i hi
    obtain ⟨ni, hni, _, _⟩ := hNode2 i hi
    obtain ⟨n4i, h4i, hb1, hb2, hb3, hb4⟩ :=
      node_quad_extract s2 s4 i (hquad_old i (hmemlt i hi)) ni hni
    exact ⟨ni, n4i, hni, h4i, hb1, hb2, hb3, hb4⟩
  have hlev_old : ∀ i ∈ L0, levelOf s4 i = levelOf s2 i := by
    intro i hi
    obtain ⟨ni, n4i, hni, h4i, _, _, hlv, _⟩ := hold i hi
    simp only [levelOf, hni, h4i, hlv]
  have hlev_nidx : levelOf s4 s2.nodes.length = L := by
    simp only [levelOf, hn4, hn4l]
  have hkr : ∀ i ∈ L0, ∀ j2 ∈ L0, keyRel s2 i j2 → keyRel s4 i j2 := by
    intro i hi j2 hj2 hrel
    obtain ⟨a, b, ha, hb, hab⟩ := hrel
    obtain ⟨ni, n4i, hni, h4i, hk1, _, _, _⟩ := hold i hi
    obtain ⟨nj, n4j, hnj, h4j, hk2, _, _, _⟩ := hold j2 hj2
    rw [ha] at hni
    rw [hb] at hnj
    injection hni with hni
    injection hnj with hnj
    exact ⟨n4i, n4j, h4i, h4j, by rw [hk1, hk2, ← hni, ← hnj]; exact hab⟩
  have hkey_lt : ∀ i ∈ L0, keyLtb s2 key i = true →
      ∃ ni, s2.nodes[i]? = some ni ∧ ni.key < key := by
    intro i hi hP
    unfold keyLtb at hP
    cases hni : s2.nodes[i]? with
    | none => rw [hni] at hP; exact Bool.noConfusion hP
    | some ni =>
        rw [hni] at hP
        simp only [decide_eq_true_eq] at hP
        exact ⟨ni, rfl, hP⟩
  have hkey_gt : ∀ i ∈ L0, keyLtb s2 key i = false →
      ∃ ni, s2.nodes[i]? = some ni ∧ key < ni.key := by
    intro i hi hP
    obtain ⟨ni, hni, _, _⟩ := hNode2 i hi
    unfold keyLtb at hP
    rw [hni] at hP
    simp only [decide_eq_false_iff_not, not_lt] at hP
    exact ⟨ni, hni, lt_of_le_of_ne hP (fun he => habs2 i hi ni hni he.symm)⟩
  have htf : L0.takeWhile (keyLtb s2 key) = L0.filter (keyLtb s2 key) :=
    takeWhile_eq_filter_of_mono (keyLtb s2 key) (keyLtb_mono s2 key) L0 hpair2
  have hdf : L0.dropWhile (keyLtb s2 key)
      = L0.filter (fun a => ! keyLtb s2 key a) :=
    dropWhile_eq_filter_not (keyLtb s2 key) (keyLtb_mono s2 key) L0 hpair2
  have hTWmem : ∀ i ∈ L0.takeWhile (keyLtb s2 key), i ∈ L0 ∧ keyLtb s2 key i = true := by
    intro i hi
    rw [htf] at hi
    exact ⟨List.mem_of_mem_filter hi, List.of_mem_filter hi⟩
  have hDWmem : ∀ i ∈ L0.dropWhile (keyLtb s2 key), i ∈ L0 ∧ keyLtb s2 key i = false := by
    intro i hi
    rw [hdf] at hi
    refine ⟨List.mem_of_mem_filter hi, ?_⟩
    have := List.of_mem_filter hi
    simpa using this
  refine ⟨?_, n4, hn4, hn4k, hn4v⟩
  refine WF_intro s4 _ ?_ ?_ ?_ ?_ ?_ ?_
  · rw [hHead4]
    exact hH2
  · rw [hLvl4]
    exact hLvl2
  · intro i hi
    rw [hLen4]
    have hlen3 : ({ s2 with nodes := s2.nodes ++
        [{ key := key, value := v, level := L,
           forward := List.replicate (L + 1) none }] } : SkipList K).nodes.length
        = s2.nodes.length + 1 := by simp
    rw [hlen3]
    rcases List.mem_append.mp hi with hiT | hiN
    · have := hIdx2 i (hTWmem i hiT).1
      omega
    · rcases List.mem_cons.mp hiN with rfl | hiD
      · omega
      · have := hIdx2 i (hDWmem i hiD).1
        omega
  · intro i hi
    rcases List.mem_append.mp hi with hiT | hiN
    · obtain ⟨ni, n4i, hni, h4i, _, _, hlv, hfl⟩ := hold i (hTWmem i hiT).1
      obtain ⟨ni2, hni2, hfl2, hnl2⟩ := hNode2 i (hTWmem i hiT).1
      rw [hni] at hni2
      injection hni2 with hni2
      subst hni2
      exact ⟨n4i, h4i, by rw [hfl, hlv]; exact hfl2, by rw [hlv, hLvl4]; exact hnl2⟩
    · rcases List.mem_cons.mp hiN with rfl | hiD
      · exact ⟨n4, hn4, by rw [hn4fl, hn4l], by rw [hn4l, hLvl4]; exact hLle⟩
      · obtain ⟨ni, n4i, hni, h4i, _, _, hlv, hfl⟩ := hold i (hDWmem i hiD).1
        obtain ⟨ni2, hni2, hfl2, hnl2⟩ := hNode2 i (hDWmem i hiD).1
        rw [hni] at hni2
        injection hni2 with hni2
        subst hni2
        exact ⟨n4i, h4i, by rw [hfl, hlv]; exact hfl2, by rw [hlv, hLvl4]; exact hnl2⟩
  · -- sortedness of the spliced chain
    refine chainSortedb_of_chain' s4 _ ?_
    rw [List.chain'_append]
    have hchTW : (L0.takeWhile (keyLtb s2 key)).Chain' (keyRel s4) := by
      refine List.Pairwise.chain' ?_
      refine List.Pairwise.imp_of_mem ?_ (hpair2.sublist (List.takeWhile_sublist _))
      intro a b ha hb hr
      exact hkr a (hTWmem a ha).1 b (hTWmem b hb).1 hr
    have hchDW : (L0.dropWhile (keyLtb s2 key)).Chain' (keyRel s4) := by
      refine List.Pairwise.chain' ?_
      refine List.Pairwise.imp_of_mem ?_ (hpair2.sublist (List.dropWhile_sublist _))
      intro a b ha hb hr
      exact hkr a (hDWmem a ha).1 b (hDWmem b hb).1 hr
    refine ⟨hchTW, ?_, ?_⟩
    · rw [List.chain'_cons']
      refine ⟨?_, hchDW⟩
      intro y hy
      have hyD := List.mem_of_mem_head? hy
      obtain ⟨hyL0, hyP⟩ := hDWmem y hyD
      obtain ⟨ny, hny, hkgt⟩ := hkey_gt y hyL0 hyP
      obtain ⟨ni, n4y, hni, h4y, hk1, _, _, _⟩ := hold y hyL0
      rw [hny] at hni
      injection hni with hni
      exact ⟨n4, n4y, hn4, h4y, by rw [hn4k, hk1, ← hni]; exact hkgt⟩
    · intro x hx y hy
      have hxeq : (L0.takeWhile (keyLtb s2 key)).getLast? = some x := hx
      have hyeq : y = s2.nodes.length := by
        have : (s2.nodes.length :: L0.dropWhile (keyLtb s2 key)).head? = some y := hy
        injection this with h2
        exact h2.symm
      subst hyeq
      have hxT := getLast?_some_mem _ x hxeq
      obtain ⟨hxL0, hxP⟩ := hTWmem x hxT
      obtain ⟨nx, hnx, hklt⟩ := hkey_lt x hxL0 hxP
      obtain ⟨ni, n4x, hni, h4x, hk1, _, _, _⟩ := hold x hxL0
      rw [hnx] at hni
      injection hni with hni
      exact ⟨n4x, n4, h4x, hn4, by rw [hn4k, hk1, ← hni]; exact hklt⟩
  · -- links at each level
    intro lv hlv16
    have hq4 : chainAt s4 (L0.takeWhile (keyLtb s2 key) ++ s2.nodes.length ::
        L0.dropWhile (keyLtb s2 key)) lv
        = (L0.takeWhile (keyLtb s2 key)).filter (fun i => decide (lv ≤ levelOf s4 i))
          ++ (s2.nodes.length :: L0.dropWhile (keyLtb s2 key)).filter
              (fun i => decide (lv ≤ levelOf s4 i)) := by
      unfold chainAt
      rw [List.filter_append]
    have hTWf : (L0.takeWhile (keyLtb s2 key)).filter
        (fun i => decide (lv ≤ levelOf s4 i))
        = (chainAt s2 L0 lv).filter (keyLtb s2 key) := by
      rw [List.filter_congr (fun a ha => by
        rw [hlev_old a (hTWmem a ha).1])]
      rw [htf]
      rw [filter_filter_comm]
      rfl
    have hDWf : (L0.dropWhile (keyLtb s2 key)).filter
        (fun i => decide (lv ≤ levelOf s4 i))
        = (chainAt s2 L0 lv).dropWhile (keyLtb s2 key) := by
      rw [List.filter_congr (fun a ha => by
        rw [hlev_old a (hDWmem a ha).1])]
      rw [hdf]
      rw [filter_filter_comm]
      rw [dropWhile_eq_filter_not (keyLtb s2 key) (keyLtb_mono s2 key)
        (chainAt s2 L0 lv) (hpair2.sublist (List.filter_sublist _))]
      rfl
    have hAD : (chainAt s2 L0 lv).filter (keyLtb s2 key)
        ++ (chainAt s2 L0 lv).dropWhile (keyLtb s2 key) = chainAt s2 L0 lv := by
      rw [← takeWhile_eq_filter_of_mono (keyLtb s2 key) (keyLtb_mono s2 key)
        (chainAt s2 L0 lv) (hpair2.sublist (List.filter_sublist _))]
      exact List.takeWhile_append_dropWhile _ _
    have hADmem : ∀ c, c ∈ (chainAt s2 L0 lv).filter (keyLtb s2 key)
        ++ (chainAt s2 L0 lv).dropWhile (keyLtb s2 key) → c ∈ L0 := by
      intro c hc
      rw [hAD] at hc
      exact (hchmem lv c hc).1
    by_cases hlvL : lv ≤ L
    · -- the level reaches the new node
      have hupseq : ups.getD lv none
          = lastD none ((chainAt s2 L0 lv).filter (keyLtb s2 key)) :=
        hups lv (le_trans hlvL hLle)
      have hlinked := splice_links s2 s4 lv s2.nodes.length
        ((chainAt s2 L0 lv).dropWhile (keyLtb s2 key))
        ((chainAt s2 L0 lv).filter (keyLtb s2 key)) none
        (by rw [hAD]; exact hLinks2 lv hlv16)
        (by rw [← hupseq, hFwd4]
            rw [if_pos ⟨by omega, rfl⟩])
        (by rw [hFwd4]
            rw [if_neg (fun hc => hneups lv hlvL hc.2.symm),
              if_pos ⟨by omega, rfl⟩, hfwd_app, hupseq])
        (by intro q hq1 hq2
            rw [hFwd4]
            rw [if_neg (fun hc => hq1 (hc.2.trans hupseq)),
              if_neg (fun hc => hq2 hc.2), hfwd_app])
        (fun c _ h => Option.noConfusion h)
        (fun c hc => hmemlt c (hADmem c hc))
        (by rw [hAD]; exact hnodup2.sublist (List.filter_sublist L0))
        (fun h => Option.noConfusion h)
      rw [hq4, hTWf, List.filter_cons_of_pos (by
          rw [hlev_nidx]
          simpa using hlvL), hDWf]
      exact hlinked
    · -- above the new node's level: pointers unchanged
      have hagreeAll : ∀ p : Option Nat, fwd s4 p lv = fwd s2 p lv := by
        intro p
        rw [hFwd4]
        rw [if_neg (fun hc => hlvL (by omega)), if_neg (fun hc => hlvL (by omega)),
          hfwd_app]
      rw [hq4, hTWf, List.filter_cons_of_neg (by
          rw [hlev_nidx]
          simpa using hlvL), hDWf, hAD]
      rw [linksb_of_fwd_eq s4 s2 lv hagreeAll]
      exact hLinks2 lv hlv16

/-- `insert` on an absent key splices a new node in, and a subsequent
`search` finds it with the inserted value. -/
theorem insert_search_absent (s : SkipList K) (key : K) (v L : Nat) (L0 : List Nat)
    (hwf : WF s L0) (hL : L ≤ MAX_LEVEL)
    (habs : ∀ j ∈ L0, ∀ n : Node K, s.nodes[j]? = some n → n.key ≠ key) :
    (search (insert s key v L) key).1 = some v := by
  have hfound := search_none s key L0 hwf habs
  have hstate := search_state s key
  unfold insert
  cases hsr : search s key with
  | mk found s1 =>
      rw [hsr] at hfound hstate
      dsimp only at hfound hstate ⊢
      subst hfound
      simp only [Option.isNone_none, eq_self_iff_true, ite_true]
      have hnodes1 : s1.nodes = s.nodes := by rw [hstate]
      have hlevel1 : s1.level = s.level := by rw [hstate]
      have hhead1 : s1.headForward = s.headForward := by rw [hstate]
      have hwf1 : WF s1 L0 := WF_transfer s s1 hhead1.symm (by rw [hnodes1])
        hlevel1.symm (fun i => by rw [hnodes1]) (fun i => by rw [hnodes1])
        (fun i => by rw [hnodes1]) L0 hwf
      have hcore : ∀ s2 : SkipList K, WF s2 L0 → s2.nodes = s.nodes → L ≤ s2.level →
          ∀ ups : List (Option Nat),
            (descend s2 key (s2.nodes.length + 1) s2.level none).2.1 = ups →
          ∀ s4 : SkipList K,
            s4 = (List.range (Nat.min L s2.level + 1)).foldl
              (spliceLevel ups s2.nodes.length)
              { s2 with nodes := s2.nodes ++
                [{ key := key, value := v, level := L,
                   forward := List.replicate (L + 1) none }] } →
          ∀ sF : SkipList K, sF.headForward = s4.headForward → sF.nodes = s4.nodes →
            sF.level = s4.level →
            (search sF key).1 = some v := by
        intro s2 hwf2 hs2n hLle ups hups4 s4 hs4 sF hHF hNF hVF
        have habs2 : ∀ j ∈ L0, ∀ n : Node K, s2.nodes[j]? = some n → n.key ≠ key :=
          fun j hj n hn => habs j hj n (by rw [← hs2n]; exact hn)
        obtain ⟨hH2, hLvl2, hIdx2, hNode2, hSort2, hLinks2⟩ := WF_parts s2 L0 hwf2
        have hfuel : L0.length < s2.nodes.length + 1 :=
          Nat.lt_succ_of_le (WF_length_le s2 L0 hwf2)
        have hdc := (descend_correct s2 key L0 hwf2 (s2.nodes.length + 1) hfuel
          s2.level hLvl2 none (descend_start s2 key L0 hNode2)).2
        rw [hups4] at hdc
        obtain ⟨hwf4, n4, hn4, hn4k, hn4v⟩ := insert_new_core s2 key v L L0 hwf2
          hLle habs2 ups hdc s4 hs4
        have hwfF : WF sF (L0.takeWhile (keyLtb s2 key) ++ s2.nodes.length ::
            L0.dropWhile (keyLtb s2 key)) :=
          WF_transfer s4 sF hHF.symm (by rw [hNF]) hVF.symm
            (fun i => by rw [hNF]) (fun i => by rw [hNF]) (fun i => by rw [hNF])
            _ hwf4
        have hlookF : sF.nodes[s2.nodes.length]? = some n4 := by
          rw [hNF]
          exact hn4
        have hres := search_finds sF key _ hwfF s2.nodes.length n4
          (List.mem_append_right _ (List.mem_cons_self _ _)) hlookF hn4k
        rw [hn4v] at hres
        exact hres
      by_cases hgt : L > s1.level
      · rw [if_pos hgt]
        exact hcore { s1 with level := L } (WF_set_level s1 L0 hwf1 L
            (by rw [hlevel1]; omega) hL) hnodes1 (le_refl L) _ rfl _ rfl _ rfl rfl rfl
      · rw [if_neg hgt]
        exact hcore s1 hwf1 hnodes1 (le_of_not_lt hgt) _ rfl _ rfl _ rfl rfl rfl

/-- Claim C1 for the skip list, both paths combined: on any
well-formed state, an insert (with any drawn level within bounds)
followed by a search of the same key returns the new value. -/
theorem insert_search (s : SkipList K) (key : K) (v L : Nat) (L0 : List Nat)
    (hwf : WF s L0) (hL : L ≤ MAX_LEVEL) :
    (search (insert s key v L) key).1 = some v := by
  by_cases hex : ∃ j ∈ L0, ∃ n : Node K, s.nodes[j]? = some n ∧ n.key = key
  · obtain ⟨j, hj, n, hn, hk⟩ := hex
    exact insert_search_present s key v L L0 hwf hL j n hj hn hk
  · refine insert_search_absent s key v L L0 hwf hL ?_
    intro j hj n hn hk
    exact hex ⟨j, hj, n, hn, hk⟩

end SL

/-! ## Claim theorems

One theorem per claim of the specification audit, each over the
embedded operations above; counterexamples and witnesses follow their
claims. -/

/-- C1: for every container, after a completed `insert(k, v)` an
immediately following `get(k)` (`search(k)` for the skip list) returns
`some v` — for the chained map on any state with its 256 buckets, for
the open-addressing table on any structurally sound state whose insert
completes, for both trees on any (for the balanced tree: sorted)
state, and for the skip list on any well-formed state with an in-range
drawn level. -/
theorem claim_C1 :
    (∀ (K : Type) [DecidableEq K] (hash : K → Nat) (m : Chained.HashMap K) (k : K)
        (v : Nat), m.buckets.length = Chained.BUCKET_COUNT →
        Chained.get hash (Chained.insert hash m k v) k = some v) ∧
    (∀ (K : Type) [DecidableEq K] (hash : K → Nat) (t t' : OA.Table K) (k : K)
        (v : Nat), OA.Inv t → OA.insert hash t k v = some t' →
        (OA.get hash t' k).1 = some v) ∧
    (∀ (K : Type) [LinearOrder K] (t : BST.BinarySearchTree K) (k : K) (v : Nat),
        (BST.get (BST.insert t k v) k).1 = some v) ∧
    (∀ (K : Type) [LinearOrder K] (t : RBT.RedBlackTree K) (k : K) (v : Nat),
        RBT.SortedTree t.root → RBT.get (RBT.insert t k v) k = some v) ∧
    (∀ (K : Type) [LinearOrder K] (s : SL.SkipList K) (k : K) (v L : Nat)
        (L0 : List Nat), SL.WF s L0 → L ≤ SL.MAX_LEVEL →
        (SL.search (SL.insert s k v L) k).1 = some v) := by
  refine ⟨?_, ?_, ?_, ?_, ?_⟩
  · intro K _ hash m k v hlen
    exact Chained.get_insert_self hash m k v hlen
  · intro K _ hash t t' k v hInv h
    exact OA.oa_get_insert_self hash t k v t' hInv.1 hInv.2 h
  · intro K _ t k v
    exact BST.bst_get_insert_self t k v
  · intro K _ t k v hs
    exact RBT.get_insert_sorted t k v hs
  · intro K _ s k v L L0 hwf hL
    exact SL.insert_search s k v L L0 hwf hL

/-- Witness for C1 at concrete inputs: each container built by public
operations, each hypothesis discharged concretely. -/
theorem claim_C1_witness :
    Chained.get (fun n => n) (Chained.insert (fun n => n) Chained.new 1 5) 1
        = some 5 ∧
    (OA.get (fun n => n) Ex.oa1 1).1 = some 5 ∧
    (BST.get (BST.insert BST.new 1 5) 1).1 = some 5 ∧
    RBT.get (RBT.insert RBT.new 1 5) 1 = some 5 ∧
    (SL.search (SL.insert SL.new 1 5 2) 1).1 = some 5 := by
  refine ⟨claim_C1.1 Nat (fun n => n) Chained.new 1 5 (by decide),
    claim_C1.2.1 Nat (fun n => n) (OA.new 8) Ex.oa1 1 5 ⟨by decide, by decide⟩ (by rfl),
    claim_C1.2.2.1 Nat BST.new 1 5,
    claim_C1.2.2.2.1 Nat RBT.new 1 5 List.sorted_nil,
    claim_C1.2.2.2.2 Nat SL.new 1 5 2 [] (by exact rfl) (by decide)⟩

/-- C2 (code bug): in the embedded `BinarySearchTree::delete_recursive`,
deleting key 2 from the five-element tree `Ex.bst5` (root 2 with two
children, right child 4 carrying subtrees 3 and 5) reports success and
decrements `len` by one, but keys 3 and 5 — present before — are no
longer retrievable: the two-children arm drops the right subtree's
right branch and installs the wrong replacement, instead of splicing
in the in-order successor only. -/
theorem claim_C2 :
    (BST.get Ex.bst5 3).1 = some 30 ∧
    (BST.get Ex.bst5 5).1 = some 50 ∧
    Ex.bst5.size = 5 ∧
    (BST.delete Ex.bst5 2).1 = true ∧
    (BST.delete Ex.bst5 2).2.size = 4 ∧
    (BST.get (BST.delete Ex.bst5 2).2 3).1 = none ∧
    (BST.get (BST.delete Ex.bst5 2).2 5).1 = none := by
  exact ⟨rfl, rfl, rfl, rfl, rfl, rfl, rfl⟩

/-- C3 (code bug): `RedBlackTree::delete` does not terminate on every
input: deleting key 4 from the nine-element tree `Ex.rbt9` — a node
with two children whose right subtree's left child (6) has a left
child (5) of its own — runs the successor loop forever; in the
embedding, no amount of fuel makes it return. -/
theorem claim_C3 : ∀ fuel : Nat, RBT.delete Ex.rbt9 4 fuel = none := by
  intro fuel
  have hroot : Ex.rbt9.root = RBT.Tree.node 4 4 RBT.Color.black
      (RBT.Tree.node 2 2 RBT.Color.black
        (RBT.Tree.node 1 1 RBT.Color.black RBT.Tree.leaf RBT.Tree.leaf)
        (RBT.Tree.node 3 3 RBT.Color.black RBT.Tree.leaf RBT.Tree.leaf))
      (RBT.Tree.node 8 8 RBT.Color.black
        (RBT.Tree.node 6 6 RBT.Color.red
          (RBT.Tree.node 5 5 RBT.Color.black RBT.Tree.leaf RBT.Tree.leaf)
          (RBT.Tree.node 7 7 RBT.Color.black RBT.Tree.leaf RBT.Tree.leaf))
        (RBT.Tree.node 9 9 RBT.Color.black RBT.Tree.leaf RBT.Tree.leaf)) := by
    rfl
  have hstuck := RBT.deleteMinLoop_stuck 8 8 RBT.Color.black 6 6 RBT.Color.red 5 5
    RBT.Color.black RBT.Tree.leaf RBT.Tree.leaf
    (RBT.Tree.node 7 7 RBT.Color.black RBT.Tree.leaf RBT.Tree.leaf)
    (RBT.Tree.node 9 9 RBT.Color.black RBT.Tree.leaf RBT.Tree.leaf) fuel
  have hrec : RBT.delete_recursive 4 fuel Ex.rbt9.root = none := by
    rw [hroot]
    simp only [RBT.delete_recursive]
    rw [if_pos trivial]
    rw [hstuck]
  unfold RBT.delete
  rw [hrec]

/-- C4 (corrected): after every `insert` the balanced tree's root is
Black — the source repaints it on return — but `delete` does not
restore the invariant: the claim's "after every public operation"
fails on delete (see the counterexample). -/
theorem claim_C4 : ∀ (K : Type) [LinearOrder K] (t : RBT.RedBlackTree K) (k : K)
    (v : Nat), RBT.rootColor (RBT.insert t k v).root = some RBT.Color.black := by
  intro K _ t k v
  exact RBT.insert_root_black t k v

/-- Counterexample to C4 as claimed: deleting key 1 from `Ex.rbt2`
(Black root 1 with Red child 2) succeeds and leaves a nonempty tree
whose root (node 2) is Red. -/
theorem claim_C4_counterexample :
    (RBT.delete Ex.rbt2 1 1).map (fun p => RBT.rootColor p.2.root)
        = some (some RBT.Color.red) ∧
    (RBT.delete Ex.rbt2 1 1).map (fun p => p.2.size) = some 1 := by
  exact ⟨rfl, rfl⟩

/-- C5: for the open-addressing table, an insert of `(k, v1)`, then
operations away from `k`, a delete of `k`, more operations away from
`k`, a completed re-insert of `(k, v2)`, and further operations away
from `k` leave `get(k) = some v2`: the tombstone never shadows the
re-inserted live entry. -/
theorem claim_C5 {K : Type} [DecidableEq K] (hash : K → Nat) (t0 : OA.Table K)
    (k : K) (v1 v2 : Nat) (ops1 ops2 ops3 : List (OA.Op K))
    (t1 t2 t3 t4 t5 t6 : OA.Table K)
    (hInv : OA.Inv t0)
    (h1 : OA.insert hash t0 k v1 = some t1)
    (hop1 : ∀ op ∈ ops1, OA.Op.key op ≠ k)
    (h2 : OA.applyOps hash ops1 t1 = some t2)
    (h3 : t3 = (OA.delete hash t2 k).2)
    (hop2 : ∀ op ∈ ops2, OA.Op.key op ≠ k)
    (h4 : OA.applyOps hash ops2 t3 = some t4)
    (h5 : OA.insert hash t4 k v2 = some t5)
    (hop3 : ∀ op ∈ ops3, OA.Op.key op ≠ k)
    (h6 : OA.applyOps hash ops3 t5 = some t6) :
    (OA.get hash t6 k).1 = some v2 := by
  have hI1 := OA.insert_inv hash t0 t1 k v1 hInv h1
  have hI2 := OA.applyOps_inv hash ops1 t1 t2 hI1 h2
  have hI3 : OA.Inv t3 := by rw [h3]; exact OA.delete_inv hash t2 k hI2
  have hI4 := OA.applyOps_inv hash ops2 t3 t4 hI3 h4
  have hI5 := OA.insert_inv hash t4 t5 k v2 hI4 h5
  have hget5 : (OA.get hash t5 k).1 = some v2 :=
    OA.oa_get_insert_self hash t4 k v2 t5 hI4.1 hI4.2 h5
  exact OA.applyOps_get_pres hash k v2 ops3 t5 t6 hI5 hop3 h6 hget5

/-- Witness for C5: the concrete chain `insert(1,5)`, `delete(1)`,
`insert(1,7)` on an 8-slot table (empty interleavings), ending with
`get(1) = some 7` through the tombstone. -/
theorem claim_C5_witness : (OA.get (fun n => n) Ex.oa3 1).1 = some 7 := by
  exact claim_C5 (fun n => n) (OA.new 8) 1 5 7 [] [] []
    Ex.oa1 Ex.oa1 Ex.oa2 Ex.oa2 Ex.oa3 Ex.oa3
    ⟨by decide, by decide⟩ (by rfl) (by simp) (by rfl) (by rfl) (by simp)
    (by rfl) (by rfl) (by simp) (by rfl)

/-- C6 (corrected): the skip list's running `level` is not the
maximum level of a live node: `insert` raises it to the drawn level
even on a pure value update, and `delete` never lowers it (the
counterexample deletes the only node and the level stays put, as does
the `max_level` metric).  What holds: `insert` sets the level to the
maximum of the old level and the drawn level, `delete` leaves it
unchanged, and a successful `delete` refreshes `max_level` to that
unchanged level. -/
theorem claim_C6 :
    (∀ (K : Type) [LinearOrder K] (s : SL.SkipList K) (k : K) (v L : Nat),
        (SL.insert s k v L).level = Nat.max s.level L) ∧
    (∀ (K : Type) [LinearOrder K] (s : SL.SkipList K) (k : K),
        (SL.delete s k).2.level = s.level) ∧
    (∀ (K : Type) [LinearOrder K] (s : SL.SkipList K) (k : K),
        (SL.delete s k).2.metrics.max_level =
          if (SL.delete s k).1.isSome then s.level else s.metrics.max_level) := by
  refine ⟨?_, ?_, ?_⟩
  · intro K _ s k v L
    exact SL.insert_level s k v L
  · intro K _ s k
    exact SL.delete_level s k
  · intro K _ s k
    exact SL.delete_max_level s k

/-- Counterexample to C6 as claimed: deleting the only key of `Ex.sl1`
(a single node of level 2) empties the list, yet the running level and
the `max_level` metric stay at 2 while the maximum live node level is
0. -/
theorem claim_C6_counterexample :
    (SL.delete Ex.sl1 1).2.size = 0 ∧
    SL.liveMaxLevel (SL.delete Ex.sl1 1).2 = 0 ∧
    (SL.delete Ex.sl1 1).2.level = 2 ∧
    (SL.delete Ex.sl1 1).2.metrics.max_level = 2 := by
  exact ⟨rfl, rfl, rfl, rfl⟩

/-- C7 (corrected): `balance_ratio` is refreshed to `0` on an empty
tree and `1` on a nonempty one by every `insert` and every successful
`delete`, but `new()` initializes it to `1.0` although the fresh tree
is empty — the "0.0 whenever empty, including immediately after
construction" part of the claim fails (see the counterexample). -/
theorem claim_C7 :
    (∀ (K : Type) [LinearOrder K] (t : RBT.RedBlackTree K) (k : K) (v : Nat),
        (RBT.insert t k v).metrics.balance_ratio =
          if (RBT.insert t k v).size = 0 then (0 : Rat) else 1) ∧
    (∀ (K : Type) [LinearOrder K] (t : RBT.RedBlackTree K) (k : K) (fuel : Nat)
        (res : Option Nat) (t2 : RBT.RedBlackTree K),
        RBT.delete t k fuel = some (res, t2) →
        t2.metrics.balance_ratio =
          if res.isSome then (if t2.size = 0 then (0 : Rat) else 1)
          else t.metrics.balance_ratio) := by
  refine ⟨?_, ?_⟩
  · intro K _ t k v
    exact RBT.insert_balance_ratio t k v
  · intro K _ t k fuel res t2 h
    exact RBT.delete_balance_ratio t k fuel res t2 h

/-- Witness for C7's delete conjunct at a concrete successful
deletion. -/
theorem claim_C7_witness :
    Ex.rbt2d.metrics.balance_ratio =
      if (some 1 : Option Nat).isSome then (if Ex.rbt2d.size = 0 then (0 : Rat) else 1)
      else Ex.rbt2.metrics.balance_ratio := by
  exact claim_C7.2 Nat Ex.rbt2 1 1 (some 1) Ex.rbt2d (by rfl)

/-- Counterexample to C7 as claimed: immediately after `new()` the
tree is empty but `balance_ratio` is `1`, not `0`. -/
theorem claim_C7_counterexample :
    (RBT.new : RBT.RedBlackTree Nat).size = 0 ∧
    (RBT.new : RBT.RedBlackTree Nat).metrics.balance_ratio = 1 := by
  exact ⟨rfl, rfl⟩

/-- C8 (corrected): `insert` bumps `rebalance_count` exactly when the
recursive insertion reports a rotation or recoloring — but the claim's
"only by insert" fails: every successful `delete` also increments it
(the source does so unconditionally), as the counterexample shows on a
deletion that performs no rotation or recoloring at all. -/
theorem claim_C8 :
    (∀ (K : Type) [LinearOrder K] (t : RBT.RedBlackTree K) (k : K) (v : Nat),
        (RBT.insert t k v).metrics.rebalance_count =
          t.metrics.rebalance_count +
            (if (RBT.insert_recursive k v t.root).2 then 1 else 0)) ∧
    (∀ (K : Type) [LinearOrder K] (t : RBT.RedBlackTree K) (k : K) (fuel : Nat)
        (res : Option Nat) (t2 : RBT.RedBlackTree K),
        RBT.delete t k fuel = some (res, t2) →
        t2.metrics.rebalance_count =
          t.metrics.rebalance_count + (if res.isSome then 1 else 0)) := by
  refine ⟨?_, ?_⟩
  · intro K _ t k v
    exact RBT.insert_rebalance_count t k v
  · intro K _ t k fuel res t2 h
    exact RBT.delete_rebalance_count t k fuel res t2 h

/-- Witness for C8's delete conjunct at a concrete successful
deletion. -/
theorem claim_C8_witness :
    Ex.rbt2d.metrics.rebalance_count =
      Ex.rbt2.metrics.rebalance_count +
        (if (some 1 : Option Nat).isSome then 1 else 0) := by
  exact claim_C8.2 Nat Ex.rbt2 1 1 (some 1) Ex.rbt2d (by rfl)

/-- Counterexample to C8 as claimed: `Ex.rbt2` was built with
`rebalance_count = 0` (no rotation or recoloring fired), yet deleting
key 1 — which splices a child in place, rotating and recoloring
nothing — raises it to 1. -/
theorem claim_C8_counterexample :
    Ex.rbt2.metrics.rebalance_count = 0 ∧
    (RBT.delete Ex.rbt2 1 1).map (fun p => p.2.metrics.rebalance_count) = some 1 := by
  exact ⟨rfl, rfl⟩

/-- C9: for the chained map, inserting an absent key increments
`total_insertions` by exactly one and `total_collisions` by one iff
the destination bucket was non-empty; inserting a present key
overwrites the value (retrievable at once) and changes neither the
metrics nor the size. -/
theorem claim_C9 {K : Type} [DecidableEq K] (hash : K → Nat)
    (m : Chained.HashMap K) (k : K) (v : Nat)
    (hlen : m.buckets.length = Chained.BUCKET_COUNT) :
    (Chained.get hash m k = none →
      (Chained.insert hash m k v).metrics.total_insertions =
          m.metrics.total_insertions + 1 ∧
      (Chained.insert hash m k v).metrics.total_collisions =
          m.metrics.total_collisions +
            (if (m.buckets.getD (Chained.bucket_index (hash k)) []).isEmpty
             then 0 else 1)) ∧
    (Chained.get hash m k ≠ none →
      (Chained.insert hash m k v).metrics = m.metrics ∧
      (Chained.insert hash m k v).size = m.size ∧
      Chained.get hash (Chained.insert hash m k v) k = some v) := by
  refine ⟨(Chained.insert_metrics hash m k v).1, ?_⟩
  intro hsome
  exact ⟨((Chained.insert_metrics hash m k v).2 hsome).1,
    ((Chained.insert_metrics hash m k v).2 hsome).2,
    Chained.get_insert_self hash m k v hlen⟩

/-- Witness for C9: a fresh map (new key, empty bucket: no collision)
and the same map re-inserted at the same key (pure overwrite). -/
theorem claim_C9_witness :
    ((Chained.insert (fun n => n) (Chained.new : Chained.HashMap Nat) 1
        5).metrics.total_insertions
      = (Chained.new : Chained.HashMap Nat).metrics.total_insertions + 1) ∧
    ((Chained.insert (fun n => n)
        (Chained.insert (fun n => n) (Chained.new : Chained.HashMap Nat) 1 5)
        1 7).metrics
      = (Chained.insert (fun n => n) (Chained.new : Chained.HashMap Nat) 1
          5).metrics) := by
  refine ⟨((claim_C9 (fun n => n) Chained.new 1 5 (by decide)).1 (by decide)).1, ?_⟩
  exact (((claim_C9 (fun n => n) (Chained.insert (fun n => n) Chained.new 1 5) 1 7
    (by decide)).2 (by decide)).1)

/-- C10: lookups are pure up to metrics: `get` on the unbalanced tree
keeps the root and size, `get` on the open-addressing table keeps the
slot vector, size and capacity, and `search` on the skip list keeps
the head pointers, node arena, level and size — so no lookup can
change the key-to-value mapping or `len()`. -/
theorem claim_C10 :
    (∀ (K : Type) [LinearOrder K] (t : BST.BinarySearchTree K) (k : K),
        (BST.get t k).2.root = t.root ∧ (BST.get t k).2.size = t.size) ∧
    (∀ (K : Type) [DecidableEq K] (hash : K → Nat) (t : OA.Table K) (k : K),
        (OA.get hash t k).2.table = t.table ∧ (OA.get hash t k).2.size = t.size ∧
        (OA.get hash t k).2.capacity = t.capacity) ∧
    (∀ (K : Type) [LinearOrder K] (s : SL.SkipList K) (k : K),
        (SL.search s k).2.headForward = s.headForward ∧
        (SL.search s k).2.nodes = s.nodes ∧
        (SL.search s k).2.level = s.level ∧
        (SL.search s k).2.size = s.size) := by
  refine ⟨?_, ?_, ?_⟩
  · intro K _ t k
    exact BST.bst_get_frame t k
  · intro K _ hash t k
    exact OA.oa_get_frame hash t k
  · intro K _ s k
    exact SL.search_frame s k

end WasmDS